import Mathlib

/-!
# pandora_db: a copy-on-write B+Tree key-value store over fixed-size pages

A shallow embedding of the Go sources (`b_node.go`, `b_tree.go`, `free_list.go`,
`kv.go`, `mmap.go`, `utils.go`).

Conventions of the embedding

* A byte slice is a `Bytes`: its length `len` and the number `val` whose
  little-endian base-256 digits are its bytes (byte `i` is `val / 256 ^ i % 256`);
  `Bytes.ofList` and `Bytes.toList` convert from and to the list of bytes.  A
  slice that may be `nil` where the code tests for `nil` is an `Option Bytes`.
* Machine integers are `Nat`; `uint16` arithmetic is reduced with `u16`
  (`% 65536`) at every operation where the Go code computes in `uint16`.
* A Go panic (a failed `assert`, a slice or index out of range, an explicit
  `panic`) is `Except.error Fail.panic`.  Recursion over the tree depth and
  loops without a static bound take a fuel argument; running out of it is
  `Except.error Fail.fuel`, which stands for a run that does not return.
* Code that mutates a buffer in place returns the new buffer.
* Slices are modelled by their length only: re-slicing past `len` (Go allows it
  up to `cap`) is treated as a panic.
-/

namespace PandoraDB

/-! ## utils.go -/

/-- The ways a run of the code can fail to return a value. -/
inductive Fail where
  | panic
  | fuel
  deriving DecidableEq, Repr

/-- Result of a computation that may panic. -/
abbrev Res (α : Type) : Type := Except Fail α

/-- Go `assert(condition)`: panics when the condition is false. -/
def assert (condition : Bool) : Res Unit :=
  if condition then pure () else throw Fail.panic

/-! ## Constants

`HEADER`, `BTREE_PAGE_SIZE`, `BTREE_MAX_KEY_SIZE` and `BTREE_MAX_VAL_SIZE` are
used by the sources but their declarations are not part of them. -/

/-- Modelled from the spec: the constant `HEADER` is not declared in the sources;
the node layout of the spec puts `kind` (2 bytes) and `nkeys` (2 bytes) in front
of the pointers, so the header is 4 bytes. -/
def HEADER : Nat := 4

/-- Modelled from the spec: the constant `BTREE_PAGE_SIZE` is not declared in the
sources; the spec fixes `PAGE_SIZE = 4096`. -/
def BTREE_PAGE_SIZE : Nat := 4096

/-- Modelled from the spec: the constant `BTREE_MAX_KEY_SIZE` is not declared in
the sources; the spec only asks that one record of maximal key and value plus a
minimal header fits in a page (`4 + 8 + 2 + 4 + 1000 + 3000 <= 4096`). -/
def BTREE_MAX_KEY_SIZE : Nat := 1000

/-- Modelled from the spec: the constant `BTREE_MAX_VAL_SIZE` is not declared in
the sources; see `BTREE_MAX_KEY_SIZE`. -/
def BTREE_MAX_VAL_SIZE : Nat := 3000

def BNODE_NODE : Nat := 1
def BNODE_LEAF : Nat := 2

/-! ## Machine arithmetic and byte slices -/

/-- Truncation to `uint16`. -/
def u16 (x : Nat) : Nat := x % 65536

/-- Subtraction in `uint16` (wraps around). -/
def sub16 (a b : Nat) : Nat := (u16 a + 65536 - u16 b) % 65536

/-- Truncation to `uint64`. -/
def u64 (x : Nat) : Nat := x % 18446744073709551616

/-- The `w` low bytes of `v`, least significant first. -/
def leBytes : Nat → Nat → List Nat
  | 0, _ => []
  | w + 1, v => (v % 256) :: leBytes w (v / 256)

/-- The number whose little-endian bytes are the given list. -/
def leValue : List Nat → Nat
  | [] => 0
  | b :: bs => b % 256 + 256 * leValue bs

/-- A byte slice: `len` bytes, byte `i` being `val / 256 ^ i % 256`. -/
structure Bytes where
  len : Nat
  val : Nat
  deriving DecidableEq, Repr

/-- The slice holding the given bytes. -/
def Bytes.ofList (l : List Nat) : Bytes := ⟨l.length, leValue l⟩

/-- The bytes of a slice. -/
def Bytes.toList (b : Bytes) : List Nat := leBytes b.len b.val

/-- Go `nil` slice (length 0). -/
def Bytes.nil : Bytes := ⟨0, 0⟩

/-- Go `make([]byte, n)`. -/
def makeBytes (n : Nat) : Bytes := ⟨n, 0⟩

/-- The `uint64` stored little-endian at offset `off` of a slice. -/
def Bytes.u64At (b : Bytes) (off : Nat) : Nat := b.val / 256 ^ off % 18446744073709551616

/-- Go `s[lo:]`: panics when `lo > len(s)`. -/
def sliceFrom (s : Bytes) (lo : Nat) : Res Bytes :=
  if lo ≤ s.len then pure ⟨s.len - lo, s.val / 256 ^ lo⟩ else throw Fail.panic

/-- Go `s[:hi]`: panics when `hi > len(s)` (length-only model of slices: Go
bounds `hi` by `cap(s)`, so where the model panics here with `hi` beyond the
length the program may instead return bytes that lie behind the slice). -/
def sliceTo (s : Bytes) (hi : Nat) : Res Bytes :=
  if hi ≤ s.len then pure ⟨hi, s.val % 256 ^ hi⟩ else throw Fail.panic

/-- Go `s[lo:hi]`: panics when `lo > hi` or `hi > len(s)` (length-only model, as
for `sliceTo`). -/
def slice (s : Bytes) (lo hi : Nat) : Res Bytes :=
  if lo ≤ hi ∧ hi ≤ s.len then pure ⟨hi - lo, s.val / 256 ^ lo % 256 ^ (hi - lo)⟩
  else throw Fail.panic

/-- Go `binary.LittleEndian.Uint16(b)`: panics when `len(b) < 2`. -/
def leUint16 (b : Bytes) : Res Nat :=
  if 2 ≤ b.len then pure (b.val % 65536) else throw Fail.panic

/-- Go `binary.LittleEndian.Uint64(b)`: panics when `len(b) < 8`. -/
def leUint64 (b : Bytes) : Res Nat :=
  if 8 ≤ b.len then pure (b.val % 18446744073709551616) else throw Fail.panic

/-- The number `s` with its `w` bytes from byte `off` on replaced by the `w` low
bytes of `x`. -/
def overwrite (s : Nat) (off w x : Nat) : Nat :=
  s % 256 ^ off + x % 256 ^ w * 256 ^ off + s / 256 ^ (off + w) * 256 ^ (off + w)

/-- Go `binary.LittleEndian.PutUint16(s[off:], v)`: panics when `off > len(s)` or
fewer than 2 bytes remain. -/
def putUint16At (s : Bytes) (off : Nat) (v : Nat) : Res Bytes :=
  if off + 2 ≤ s.len then pure ⟨s.len, overwrite s.val off 2 v⟩ else throw Fail.panic

/-- Go `binary.LittleEndian.PutUint64(s[off:], v)`. -/
def putUint64At (s : Bytes) (off : Nat) (v : Nat) : Res Bytes :=
  if off + 8 ≤ s.len then pure ⟨s.len, overwrite s.val off 8 v⟩ else throw Fail.panic

/-- Go `copy(s[off:], src)`: panics when `off > len(s)`, otherwise copies
`min(len(s) - off, len(src))` bytes. -/
def copyAt (s : Bytes) (off : Nat) (src : Bytes) : Res Bytes :=
  if off ≤ s.len then pure ⟨s.len, overwrite s.val off (min (s.len - off) src.len) src.val⟩
  else throw Fail.panic

/-- Lexicographic comparison of two lists of bytes: `-1`, `0` or `1`. -/
def lexCompare : List Nat → List Nat → Int
  | [], [] => 0
  | [], _ :: _ => -1
  | _ :: _, [] => 1
  | a :: as, b :: bs =>
    if a < b then -1 else if b < a then 1 else lexCompare as bs

/-- Go `bytes.Compare(a, b)`. -/
def bytesCompare (a b : Bytes) : Int := lexCompare a.toList b.toList

/-- Go `bytes.Equal(a, b)`. -/
def bytesEqual (a b : Bytes) : Bool :=
  a.len = b.len && a.val % 256 ^ a.len = b.val % 256 ^ b.len

/-! ## b_node.go -/

/-- A node is a byte buffer:
`[type 2B][nkeys 2B][pointers nkeys * 8B][offsets nkeys * 2B][key-value pairs]`. -/
structure BNode where
  data : Bytes
  deriving DecidableEq, Repr

namespace BNode

def btype (node : BNode) : Res Nat :=
  leUint16 node.data

def nkeys (node : BNode) : Res Nat := do
  let b ← slice node.data 2 4
  leUint16 b

def setHeader (node : BNode) (btype nkeys : Nat) : Res BNode := do
  let d ← putUint16At node.data 0 btype
  let d ← putUint16At d 2 nkeys
  pure ⟨d⟩

def getPtr (node : BNode) (index : Nat) : Res Nat := do
  assert (index < (← node.nkeys))
  let offset := u16 (HEADER + index * 8)
  let b ← sliceFrom node.data offset
  leUint64 b

def setPtr (node : BNode) (index : Nat) (value : Nat) : Res BNode := do
  assert (index < (← node.nkeys))
  let offset := u16 (HEADER + index * 8)
  let d ← putUint64At node.data offset value
  pure ⟨d⟩

end BNode

def offsetPos (node : BNode) (index : Nat) : Res Nat := do
  let nk ← node.nkeys
  assert (1 ≤ index && index ≤ nk)
  pure (u16 (HEADER + nk * 8 + 2 * (index - 1)))

namespace BNode

def getOffset (node : BNode) (index : Nat) : Res Nat :=
  if index = 0 then pure 0
  else do
    let pos ← offsetPos node index
    let b ← sliceFrom node.data pos
    leUint16 b

def setOffset (node : BNode) (index : Nat) (value : Nat) : Res BNode := do
  let pos ← offsetPos node index
  let d ← putUint16At node.data pos value
  pure ⟨d⟩

def kvPos (node : BNode) (index : Nat) : Res Nat := do
  let nk ← node.nkeys
  assert (index ≤ nk)
  let off ← node.getOffset index
  pure (u16 (HEADER + nk * 8 + nk * 2 + off))

def getKey (node : BNode) (index : Nat) : Res Bytes := do
  assert (index ≤ (← node.nkeys))
  let pos ← node.kvPos index
  let klen ← leUint16 (← sliceFrom node.data pos)
  let b ← sliceFrom node.data (u16 (pos + 4))
  sliceTo b klen

def getValue (node : BNode) (index : Nat) : Res Bytes := do
  assert (index ≤ (← node.nkeys))
  let pos ← node.kvPos index
  let klen ← leUint16 (← sliceFrom node.data (u16 (pos + 0)))
  let vlen ← leUint16 (← sliceFrom node.data (u16 (pos + 2)))
  let b ← sliceFrom node.data (u16 (pos + 4 + klen))
  sliceTo b vlen

def nbytes (node : BNode) : Res Nat := do
  node.kvPos (← node.nkeys)

end BNode

/-- Every loop over a `uint16` counter whose exit test only involves the counter
and loop-invariant values returns within this many iterations or not at all. -/
def LOOP16 : Nat := 65537

/-- The loop of `nodeLookupLE`: `for i := 1; i < nk; i++`. -/
def nodeLookupLE.loop (node : BNode) (key : Bytes) (nk : Nat) :
    Nat → Nat → Nat → Res Nat
  | 0, _, _ => throw Fail.fuel
  | fuel + 1, i, found =>
    if i < nk then do
      let cmp := bytesCompare key (← node.getKey i)
      let found := if cmp ≤ 0 then i else found
      if cmp ≥ 0 then pure found
      else nodeLookupLE.loop node key nk fuel (u16 (i + 1)) found
    else pure found

def nodeLookupLE (node : BNode) (key : Bytes) : Res Nat := do
  let nk ← node.nkeys
  nodeLookupLE.loop node key nk LOOP16 1 0

/-- The pointer loop of `nodeAppendRange`: `for i := 0; i < n; i++`. -/
def nodeAppendRange.ptrs (old : BNode) (dst src n : Nat) :
    Nat → Nat → BNode → Res BNode
  | 0, _, _ => throw Fail.fuel
  | fuel + 1, i, new =>
    if i < n then do
      let new ← new.setPtr (u16 (dst + i)) (← old.getPtr (u16 (src + i)))
      nodeAppendRange.ptrs old dst src n fuel (u16 (i + 1)) new
    else pure new

/-- The offset loop of `nodeAppendRange`: `for i := 1; i <= n; i++`. -/
def nodeAppendRange.offsets (old : BNode) (dst src n dstBegin srcBegin : Nat) :
    Nat → Nat → BNode → Res BNode
  | 0, _, _ => throw Fail.fuel
  | fuel + 1, i, new =>
    if i ≤ n then do
      let o ← old.getOffset (u16 (src + i))
      let new ← new.setOffset (u16 (dst + i)) (sub16 (u16 (dstBegin + o)) srcBegin)
      nodeAppendRange.offsets old dst src n dstBegin srcBegin fuel (u16 (i + 1)) new
    else pure new

def nodeAppendRange (new old : BNode) (dst src n : Nat) : Res BNode := do
  assert (u16 (src + n) ≤ (← old.nkeys))
  assert (u16 (dst + n) ≤ (← new.nkeys))
  -- pointers
  let new ← nodeAppendRange.ptrs old dst src n LOOP16 0 new
  -- offsets
  let dstBegin ← new.getOffset dst
  let srcBegin ← old.getOffset src
  let new ← nodeAppendRange.offsets old dst src n dstBegin srcBegin LOOP16 1 new
  -- kv
  let begin_ ← old.kvPos src
  let end_ ← old.kvPos (u16 (src + n))
  let pos ← new.kvPos dst
  let kv ← slice old.data begin_ end_
  let d ← copyAt new.data pos kv
  pure ⟨d⟩

def nodeAppendKV (node : BNode) (index : Nat) (ptr : Nat) (key value : Bytes) :
    Res BNode := do
  let node ← node.setPtr index ptr
  let pos ← node.kvPos index
  let d ← putUint16At node.data (u16 (pos + 0)) (u16 key.len)
  let d ← putUint16At d (u16 (pos + 2)) (u16 value.len)
  let d ← copyAt d (u16 (pos + 4)) key
  let d ← copyAt d (u16 (pos + 4 + u16 key.len)) value
  let node : BNode := ⟨d⟩
  let off ← node.getOffset index
  node.setOffset (u16 (index + 1)) (u16 (off + 4 + u16 (key.len + value.len)))

/-! ## b_tree.go -/

/-- The tree holds the root page number and the three callbacks of the page
manager.  The callbacks act on a page store of type `σ`, passed explicitly. -/
structure BTree (σ : Type) where
  root : Nat
  get : σ → Nat → Res BNode
  new : σ → BNode → Res (Nat × σ)
  del : σ → Nat → Res σ

section Tree

variable {σ : Type}

def leafGet (node : BNode) (index : Nat) : Res Bytes :=
  node.getValue index

/-- The recursive call `treeGet(tree, knode, key)` is the argument `recur`. -/
def nodeGet (tree : BTree σ) (s : σ) (recur : BNode → Bytes → Res (Option Bytes))
    (node : BNode) (index : Nat) (key : Bytes) : Res (Option Bytes) := do
  let kptr ← node.getPtr index
  let knode ← tree.get s kptr
  recur knode key

/-- The result is `none` where the Go code returns a `nil` slice. -/
def treeGet (tree : BTree σ) (s : σ) : Nat → BNode → Bytes → Res (Option Bytes)
  | 0, _, _ => throw Fail.fuel
  | fuel + 1, node, key => do
    assert (key.len ≤ BTREE_MAX_KEY_SIZE)
    let index ← nodeLookupLE node key
    let t ← node.btype
    if t = BNODE_LEAF then
      let k ← node.getKey index
      if bytesEqual key k then
        let v ← leafGet node index
        pure (some v)
      else pure none
    else if t = BNODE_NODE then
      nodeGet tree s (treeGet tree s fuel) node index key
    else throw Fail.panic

def BTree.Get (tree : BTree σ) (s : σ) (fuel : Nat) (key : Bytes) :
    Res (Option Bytes × Bool) := do
  assert (key.len ≤ BTREE_MAX_KEY_SIZE)
  let root ← tree.get s tree.root
  let val ← treeGet tree s fuel root key
  pure (val, val.isSome)

def leafInsert (new old : BNode) (index : Nat) (key value : Bytes) : Res BNode := do
  let nk ← old.nkeys
  let new ← new.setHeader BNODE_LEAF (u16 (nk + 1))
  let new ← nodeAppendRange new old 0 0 index
  let new ← nodeAppendKV new index 0 key value
  nodeAppendRange new old (u16 (index + 1)) index (sub16 (← old.nkeys) index)

def leafUpdate (new old : BNode) (index : Nat) (key value : Bytes) : Res BNode := do
  let nk ← old.nkeys
  let new ← new.setHeader BNODE_LEAF nk
  let new ← nodeAppendRange new old 0 0 index
  let new ← nodeAppendKV new index 0 key value
  nodeAppendRange new old (u16 (index + 1)) (u16 (index + 1))
    (sub16 (sub16 (← old.nkeys) index) 1)

def leafDelete (new old : BNode) (index : Nat) : Res BNode := do
  let nk ← old.nkeys
  let new ← new.setHeader BNODE_LEAF (sub16 nk 1)
  let new ← nodeAppendRange new old 0 0 index
  nodeAppendRange new old index (u16 (index + 1)) (sub16 (← old.nkeys) (u16 (index + 1)))

/-- The loop of `nodeSplit2`: `for i := last; i >= 0; i--` over `uint16`, whose
test is always true; it is left by `break` or by a panic. -/
def nodeSplit2.loop (old : BNode) (lastOffset : Nat) : Nat → Nat → Nat → Res Nat
  | 0, _, _ => throw Fail.fuel
  | fuel + 1, i, last => do
    let nk ← old.nkeys
    let oi ← old.getOffset i
    let offset := u16 (u16 (HEADER + u16 (sub16 nk i * 6)) + sub16 lastOffset oi)
    if offset > BTREE_PAGE_SIZE then pure last
    else nodeSplit2.loop old lastOffset fuel (sub16 i 1) i

/-- Returns the written `left` and `right`. -/
def nodeSplit2 (left right old : BNode) : Res (BNode × BNode) := do
  let last := sub16 (← old.nkeys) 1
  let lastOffset ← old.getOffset last
  let last ← nodeSplit2.loop old lastOffset LOOP16 last last
  let right ← right.setHeader (← old.btype) (sub16 (← old.nkeys) last)
  let right ← nodeAppendRange right old 0 last (sub16 (← old.nkeys) last)
  let left ← left.setHeader (← old.btype) last
  let left ← nodeAppendRange left old 0 0 last
  pure (left, right)

/-- The array `[3]BNode` is a list of three nodes, unused slots holding the zero
value `BNode{}`. -/
def nodeSplit3 (node : BNode) : Res (Nat × List BNode) := do
  if (← node.nbytes) ≤ BTREE_PAGE_SIZE then
    let d ← sliceTo node.data BTREE_PAGE_SIZE
    pure (1, [⟨d⟩, ⟨Bytes.nil⟩, ⟨Bytes.nil⟩])
  else
    let left : BNode := ⟨makeBytes (2 * BTREE_PAGE_SIZE)⟩
    let right : BNode := ⟨makeBytes BTREE_PAGE_SIZE⟩
    let (left, right) ← nodeSplit2 left right node
    if (← left.nbytes) ≤ BTREE_PAGE_SIZE then
      let d ← sliceTo left.data BTREE_PAGE_SIZE
      pure (2, [⟨d⟩, right, ⟨Bytes.nil⟩])
    else
      let leftleft : BNode := ⟨makeBytes BTREE_PAGE_SIZE⟩
      let middle : BNode := ⟨makeBytes BTREE_PAGE_SIZE⟩
      let (leftleft, middle) ← nodeSplit2 leftleft middle left
      assert ((← leftleft.nbytes) ≤ BTREE_PAGE_SIZE)
      pure (3, [left, middle, right])

/-- The loop `for i, kid := range kids` of `nodeReplaceKidN`. -/
def nodeReplaceKidN.kids (tree : BTree σ) (old : BNode) (index : Nat) :
    List BNode → Nat → σ → BNode → Res (BNode × σ)
  | [], _, s, new => pure (new, s)
  | kid :: rest, i, s, new => do
    let (ptr, s) ← tree.new s kid
    let key ← old.getKey 0
    let new ← nodeAppendKV new (u16 (index + u16 i)) ptr key Bytes.nil
    nodeReplaceKidN.kids tree old index rest (i + 1) s new

def nodeReplaceKidN (tree : BTree σ) (s : σ) (new old : BNode) (index : Nat)
    (kids : List BNode) : Res (BNode × σ) := do
  let n := u16 kids.length
  let new ← new.setHeader BNODE_NODE (sub16 (u16 ((← old.nkeys) + n)) 1)
  let new ← nodeAppendRange new old 0 0 index
  let (new, s) ← nodeReplaceKidN.kids tree old index kids 0 s new
  let new ← nodeAppendRange new old (u16 (index + n)) (u16 (index + 1))
    (sub16 (← old.nkeys) (u16 (index + 1)))
  pure (new, s)

/-- The recursive call `treeInsert(tree, knode, key, value)` is `recur`. -/
def nodeInsert (tree : BTree σ) (s : σ)
    (recur : σ → BNode → Bytes → Bytes → Res (BNode × σ))
    (new node : BNode) (index : Nat) (key value : Bytes) : Res (BNode × σ) := do
  let kptr ← node.getPtr index
  let knode ← tree.get s kptr
  let s ← tree.del s kptr
  let (knode, s) ← recur s knode key value
  let (nsplit, splited) ← nodeSplit3 knode
  nodeReplaceKidN tree s new node index (splited.take nsplit)

def treeInsert (tree : BTree σ) : Nat → σ → BNode → Bytes → Bytes → Res (BNode × σ)
  | 0, _, _, _, _ => throw Fail.fuel
  | fuel + 1, s, node, key, val => do
    let new : BNode := ⟨makeBytes (2 * BTREE_PAGE_SIZE)⟩
    let index ← nodeLookupLE node key
    let t ← node.btype
    if t = BNODE_LEAF then
      let k ← node.getKey index
      if bytesEqual key k then
        let new ← leafUpdate new node index key val
        pure (new, s)
      else
        let new ← leafInsert new node (u16 (index + 1)) key val
        pure (new, s)
    else if t = BNODE_NODE then
      nodeInsert tree s (treeInsert tree fuel) new node index key val
    else throw Fail.panic

/-- The loop `for i, knode := range splited[:nsplit]` of `BTree.Insert`. -/
def BTree.Insert.kids (tree : BTree σ) : List BNode → Nat → σ → BNode → Res (BNode × σ)
  | [], _, s, root => pure (root, s)
  | knode :: rest, i, s, root => do
    let (ptr, s) ← tree.new s knode
    let key ← knode.getKey 0
    let root ← nodeAppendKV root (u16 i) ptr key Bytes.nil
    BTree.Insert.kids tree rest (i + 1) s root

/-- Returns the new value of `tree.root` and the store. -/
def BTree.Insert (tree : BTree σ) (s : σ) (fuel : Nat) (key val : Bytes) :
    Res (Nat × σ) := do
  assert (key.len ≠ 0)
  assert (key.len ≤ BTREE_MAX_KEY_SIZE)
  assert (val.len ≤ BTREE_MAX_VAL_SIZE)
  if tree.root = 0 then
    let root : BNode := ⟨makeBytes BTREE_PAGE_SIZE⟩
    let root ← root.setHeader BNODE_LEAF 2
    -- dummy key
    let root ← nodeAppendKV root 0 0 Bytes.nil Bytes.nil
    let root ← nodeAppendKV root 1 0 key val
    tree.new s root
  else
    let node ← tree.get s tree.root
    let s ← tree.del s tree.root
    let (node, s) ← treeInsert tree fuel s node key val
    let (nsplit, splited) ← nodeSplit3 node
    if nsplit > 1 then
      let root : BNode := ⟨makeBytes BTREE_PAGE_SIZE⟩
      let root ← root.setHeader BNODE_NODE nsplit
      let (root, s) ← BTree.Insert.kids tree (splited.take nsplit) 0 s root
      tree.new s root
    else
      tree.new s (splited.getD 0 ⟨Bytes.nil⟩)

def nodeReplace2Kid (new node : BNode) (index : Nat) (ptr : Nat) (key : Bytes) :
    Res BNode := do
  let new ← new.setHeader (← node.btype) (sub16 (← node.nkeys) 1)
  let new ← nodeAppendRange new node 0 0 index
  let new ← nodeAppendKV new index ptr key Bytes.nil
  nodeAppendRange new node index (u16 (index + 2)) (sub16 (sub16 (← node.nkeys) index) 2)

def nodeMerge (new left right : BNode) : Res BNode := do
  let new ← new.setHeader (← left.btype) (u16 ((← left.nkeys) + (← right.nkeys)))
  let new ← nodeAppendRange new left 0 0 (← left.nkeys)
  nodeAppendRange new right (← left.nkeys) 0 (← right.nkeys)

def shouldMerge (tree : BTree σ) (s : σ) (node : BNode) (index : Nat) (updated : BNode) :
    Res (Int × BNode) := do
  if (← updated.nbytes) > BTREE_PAGE_SIZE / 4 then
    pure (0, ⟨Bytes.nil⟩)
  else
    let left ← (if index > 0 then do
        let sibling ← tree.get s (← node.getPtr (sub16 index 1))
        let merged := sub16 (u16 ((← sibling.nbytes) + (← updated.nbytes))) HEADER
        if merged < BTREE_PAGE_SIZE then pure (some sibling) else pure none
      else pure none : Res (Option BNode))
    match left with
    | some sibling => pure (-1, sibling)
    | none =>
      if index < sub16 (← node.nkeys) 1 then
        let sibling ← tree.get s (← node.getPtr (u16 (index + 1)))
        let merged := sub16 (u16 ((← sibling.nbytes) + (← updated.nbytes))) HEADER
        if merged < BTREE_PAGE_SIZE then pure (1, sibling) else pure (0, ⟨Bytes.nil⟩)
      else pure (0, ⟨Bytes.nil⟩)

/-- The recursive call `treeDelete(tree, tree.get(kptr), key)` is `recur`. -/
def nodeDelete (tree : BTree σ) (s : σ)
    (recur : σ → BNode → Bytes → Res (BNode × σ))
    (node : BNode) (index : Nat) (key : Bytes) : Res (BNode × σ) := do
  let kptr ← node.getPtr index
  let (updated, s) ← recur s (← tree.get s kptr) key
  if updated.data.len = 0 then
    -- not found
    pure (⟨Bytes.nil⟩, s)
  else
    let s ← tree.del s kptr
    let new : BNode := ⟨makeBytes BTREE_PAGE_SIZE⟩
    let (mergeDir, sibling) ← shouldMerge tree s node index updated
    if mergeDir < 0 then
      -- left
      let merged : BNode := ⟨makeBytes BTREE_PAGE_SIZE⟩
      let merged ← nodeMerge merged sibling updated
      -- delete sibling
      let s ← tree.del s (← node.getPtr (sub16 index 1))
      let (ptr, s) ← tree.new s merged
      let new ← nodeReplace2Kid new node (sub16 index 1) ptr (← merged.getKey 0)
      pure (new, s)
    else if mergeDir > 0 then
      let merged : BNode := ⟨makeBytes BTREE_PAGE_SIZE⟩
      let merged ← nodeMerge merged sibling updated
      let s ← tree.del s (← node.getPtr (u16 (index + 1)))
      let (ptr, s) ← tree.new s merged
      let new ← nodeReplace2Kid new node index ptr (← merged.getKey 0)
      pure (new, s)
    else
      if (← updated.nkeys) = 0 then
        assert ((← node.nkeys) = 1 && index = 0)
        let new ← new.setHeader BNODE_NODE 0
        pure (new, s)
      else
        nodeReplaceKidN tree s new node index [updated]

/-- The result node has empty `data` where the Go code returns `BNode{}`. -/
def treeDelete (tree : BTree σ) : Nat → σ → BNode → Bytes → Res (BNode × σ)
  | 0, _, _, _ => throw Fail.fuel
  | fuel + 1, s, node, key => do
    let index ← nodeLookupLE node key
    let t ← node.btype
    if t = BNODE_LEAF then
      let k ← node.getKey index
      if bytesEqual key k then
        let new : BNode := ⟨makeBytes BTREE_PAGE_SIZE⟩
        let new ← leafDelete new node index
        pure (new, s)
      else pure (⟨Bytes.nil⟩, s)
    else if t = BNODE_NODE then
      nodeDelete tree s (treeDelete tree fuel) node index key
    else throw Fail.panic

/-- Returns the result, the new value of `tree.root` and the store. -/
def BTree.Delete (tree : BTree σ) (s : σ) (fuel : Nat) (key : Bytes) :
    Res (Bool × Nat × σ) := do
  assert (key.len ≠ 0)
  assert (key.len ≤ BTREE_MAX_KEY_SIZE)
  if tree.root = 0 then
    pure (false, tree.root, s)
  else
    let (updated, s) ← treeDelete tree fuel s (← tree.get s tree.root) key
    if updated.data.len = 0 then
      pure (false, tree.root, s) -- not found
    else
      let s ← tree.del s tree.root
      let single ← (if (← updated.btype) = BNODE_NODE then do
          pure (decide ((← updated.nkeys) = 1))
        else pure false : Res Bool)
      if single then
        let ptr ← updated.getPtr 0
        pure (true, ptr, s)
      else
        let (ptr, s) ← tree.new s updated
        pure (true, ptr, s)

/-- The tree with the calls of its callbacks counted: the store is extended by
the numbers of calls of `new` and of `del` made so far. -/
def BTree.counting (tree : BTree σ) : BTree (σ × Nat × Nat) :=
  { root := tree.root
    get := fun s ptr => tree.get s.1 ptr
    new := fun s node => do
      let (ptr, s1) ← tree.new s.1 node
      pure (ptr, (s1, s.2.1 + 1, s.2.2))
    del := fun s ptr => do
      let s1 ← tree.del s.1 ptr
      pure (s1, s.2.1, s.2.2 + 1) }

end Tree

/-! ## free_list.go -/

def BNODE_FREE_LIST : Nat := 3
def FREE_LIST_HEADER : Nat := 4 + 8 + 8
def FREE_LIST_CAP : Nat := (BTREE_PAGE_SIZE - FREE_LIST_HEADER) / 8

/-- The free list holds the head page number and the callbacks of the page
manager, acting on a page store of type `σ`.  A free-list node is
`| type 2B | size 2B | total 8B | next 8B | pointers size * 8B |`.

The field `put` is not a callback of the Go struct: it models a write through the
slice returned by `get(ptr)`, which aliases the stored page. -/
structure FreeList (σ : Type) where
  head : Nat
  get : σ → Nat → Res BNode
  new : σ → BNode → Res (Nat × σ)
  use : σ → Nat → BNode → Res σ
  put : σ → Nat → BNode → Res σ

def flnSize (node : BNode) : Res Nat := do
  leUint16 (← sliceFrom node.data 2)

def flnNext (node : BNode) : Res Nat := do
  leUint64 (← sliceFrom node.data 12)

def flnPtr (node : BNode) (index : Nat) : Res Nat := do
  assert (index < (← flnSize node))
  let offset := FREE_LIST_HEADER + index * 8
  leUint64 (← sliceFrom node.data offset)

def flnSetPtr (node : BNode) (index : Nat) (ptr : Nat) : Res BNode := do
  assert (index < (← flnSize node))
  let offset := FREE_LIST_HEADER + index * 8
  pure ⟨← putUint64At node.data offset ptr⟩

def flnSetHeader (node : BNode) (size : Nat) (next : Nat) : Res BNode := do
  let d ← putUint16At node.data 2 size
  pure ⟨← putUint64At d 12 next⟩

def flnSetTotal (node : BNode) (total : Nat) : Res BNode := do
  pure ⟨← putUint64At node.data 4 total⟩

/-- Go `int(x)` for a `uint64` value `x`. -/
def intOfU64 (x : Nat) : Int :=
  if x < 9223372036854775808 then (x : Int) else (x : Int) - 18446744073709551616

/-- Go `uint64(x)` for an `int` value `x`. -/
def u64OfInt (x : Int) : Nat := (x % 18446744073709551616).toNat

section Free

variable {σ : Type}

/-- Number of items in the list. -/
def FreeList.Total (fl : FreeList σ) (s : σ) : Res Int := do
  if fl.head = 0 then pure 0
  else
    let node ← fl.get s fl.head
    pure (intOfU64 (← leUint64 (← sliceFrom node.data 4)))

/-- The loop of `FreeList.Get`: `for flnSize(node) <= topn`. -/
def FreeList.Get.loop (fl : FreeList σ) (s : σ) : Nat → BNode → Nat → Res (BNode × Nat)
  | 0, _, _ => throw Fail.fuel
  | fuel + 1, node, topn => do
    let size ← flnSize node
    if size ≤ topn then
      let next ← flnNext node
      assert (next ≠ 0)
      let node ← fl.get s next
      FreeList.Get.loop fl s fuel node (topn - size)
    else pure (node, topn)

/-- Get the nth pointer. -/
def FreeList.Get (fl : FreeList σ) (s : σ) (fuel : Nat) (topn : Int) : Res Nat := do
  assert (0 ≤ topn && topn < (← fl.Total s))
  let node ← fl.get s fl.head
  let (node, topn) ← FreeList.Get.loop fl s fuel node topn.toNat
  flnPtr node ((← flnSize node) - topn - 1)

/-- The loop of `flPush`: `for len(freed) > 0`; returns the new head and store. -/
def flPush.loop (fl : FreeList σ) :
    Nat → Nat → σ → List Nat → List Nat → Res (Nat × σ × List Nat)
  | 0, _, _, _, _ => throw Fail.fuel
  | fuel + 1, head, s, freed, reuse =>
    if freed.length > 0 then do
      let node : BNode := ⟨makeBytes BTREE_PAGE_SIZE⟩
      let size := if freed.length > FREE_LIST_CAP then FREE_LIST_CAP else freed.length
      let node ← flnSetHeader node (u16 size) head
      let node ← (List.range size).foldlM (fun nd i => flnSetPtr nd i (freed.getD i 0)) node
      let freed := freed.drop size
      match reuse with
      | r :: reuse =>
        let s ← fl.use s r node
        flPush.loop fl fuel r s freed reuse
      | [] =>
        let (ptr, s) ← fl.new s node
        flPush.loop fl fuel ptr s freed []
    else pure (head, s, reuse)

/-- Returns the list with its new head and the store. -/
def flPush (fl : FreeList σ) (s : σ) (freed reuse : List Nat) : Res (FreeList σ × σ) := do
  let (head, s, reuse) ← flPush.loop fl (freed.length + 1) fl.head s freed reuse
  assert (reuse.length = 0)
  pure ({ fl with head := head }, s)

/-- The first inner loop of `FreeList.Update`:
`for remain > 0 && len(reuse) * FREE_LIST_CAP < len(freed) + remain`. -/
def FreeList.Update.harvest (node : BNode) (nfreed : Nat) :
    Nat → Nat → List Nat → Res (Nat × List Nat)
  | 0, remain, reuse => pure (remain, reuse)
  | fuel + 1, remain, reuse =>
    if remain > 0 ∧ reuse.length * FREE_LIST_CAP < nfreed + remain then do
      let remain := remain - 1
      let p ← flnPtr node remain
      FreeList.Update.harvest node nfreed fuel remain (reuse ++ [p])
    else pure (remain, reuse)

/-- The state of the outer loop of `FreeList.Update`. -/
structure UpdateState where
  head : Nat
  popn : Nat
  freed : List Nat
  reuse : List Nat
  total : Int

/-- The outer loop of `FreeList.Update`:
`for fl.head != 0 && len(reuse) * FREE_LIST_CAP < len(freed)`. -/
def FreeList.Update.loop (fl : FreeList σ) (s : σ) : Nat → UpdateState → Res UpdateState
  | 0, _ => throw Fail.fuel
  | fuel + 1, st =>
    if st.head ≠ 0 ∧ st.reuse.length * FREE_LIST_CAP < st.freed.length then do
      let node ← fl.get s st.head
      let freed := st.freed ++ [st.head]
      let size ← flnSize node
      let (popn, freed, reuse) ← (if st.popn ≥ size then
          pure (st.popn - size, freed, st.reuse)
        else do
          let remain := size - st.popn
          let (remain, reuse) ← FreeList.Update.harvest node freed.length remain remain st.reuse
          let rest ← (List.range remain).mapM (fun i => flnPtr node i)
          pure (0, freed ++ rest, reuse) : Res (Nat × List Nat × List Nat))
      let total := st.total - (← flnSize node)
      let head ← flnNext node
      FreeList.Update.loop fl s fuel ⟨head, popn, freed, reuse, total⟩
    else pure st

/-- Remove `popn` pointers and add some new pointers. -/
def FreeList.Update (fl : FreeList σ) (s : σ) (fuel : Nat) (popn : Nat) (freed : List Nat) :
    Res (FreeList σ × σ) := do
  assert ((popn : Int) ≤ (← fl.Total s))
  if popn = 0 ∧ freed.length = 0 then
    pure (fl, s)
  else
    let total ← fl.Total s
    let st ← FreeList.Update.loop fl s fuel ⟨fl.head, popn, freed, [], total⟩
    assert (st.reuse.length * FREE_LIST_CAP ≥ st.freed.length || st.head = 0)
    let (fl, s) ← flPush { fl with head := st.head } s st.freed st.reuse
    let node ← fl.get s fl.head
    let node ← flnSetTotal node (u64OfInt (st.total + st.freed.length))
    let s ← fl.put s fl.head node
    pure (fl, s)

end Free

/-! ## kv.go, mmap.go -/

/-- The signature `DB_SIG = "1616161616161616"` as ASCII bytes. -/
def DB_SIG : Bytes :=
  Bytes.ofList [49, 54, 49, 54, 49, 54, 49, 54, 49, 54, 49, 54, 49, 54, 49, 54]

/-- The store.  `root` is `tree.root` and `head` is `free.head` (the callbacks of
the two structs are wired by `KV.tree` and `KV.free`); `file`, `total`, `chunks`
are the fields of `mmap`; `flushed`, `nfree`, `nappend`, `updates` those of `page`
(a `nil` page of the map `updates` is `none`).  The mapped chunks are byte
buffers in memory.  `fp` stands for the file: it holds the bytes of the file as
written through `fp.WriteAt` (from offset 0 on). -/
structure KV where
  root : Nat
  head : Nat
  file : Nat
  total : Nat
  chunks : List Bytes
  flushed : Nat
  nfree : Nat
  nappend : Nat
  updates : List (Nat × Option Bytes)
  fp : Bytes
  deriving DecidableEq, Repr

/-- Go `m[ptr]` with the `ok` flag. -/
def mapGet (m : List (Nat × Option Bytes)) (ptr : Nat) : Option (Option Bytes) :=
  match m with
  | [] => none
  | (k, v) :: rest => if k = ptr then some v else mapGet rest ptr

/-- Go `m[ptr] = page`. -/
def mapSet (m : List (Nat × Option Bytes)) (ptr : Nat) (page : Option Bytes) :
    List (Nat × Option Bytes) :=
  match m with
  | [] => [(ptr, page)]
  | (k, v) :: rest => if k = ptr then (k, page) :: rest else (k, v) :: mapSet rest ptr page

/-- The loop of `pageGetMapped`: finds the chunk holding page `ptr`; returns the
index of the chunk and the offset of the page in it, panics with "invalid ptr"
when no chunk holds it. -/
def pageGetMapped.find : List Bytes → Nat → Nat → Nat → Res (Nat × Nat)
  | [], _, _, _ => throw Fail.panic
  | chunk :: rest, start, k, ptr =>
    let end_ := start + chunk.len / BTREE_PAGE_SIZE
    if ptr < end_ then pure (k, BTREE_PAGE_SIZE * (ptr - start))
    else pageGetMapped.find rest end_ (k + 1) ptr

def pageGetMapped (db : KV) (ptr : Nat) : Res BNode := do
  let (k, offset) ← pageGetMapped.find db.chunks 0 0 ptr
  pure ⟨← slice (db.chunks.getD k Bytes.nil) offset (offset + BTREE_PAGE_SIZE)⟩

/-- Go `copy(pageGetMapped(db, ptr).data, page)`: writes into the mapped chunk. -/
def pageCopyMapped (db : KV) (ptr : Nat) (page : Bytes) : Res KV := do
  let (k, offset) ← pageGetMapped.find db.chunks 0 0 ptr
  let chunk := db.chunks.getD k Bytes.nil
  let dst ← slice chunk offset (offset + BTREE_PAGE_SIZE)
  let chunk ← copyAt chunk offset ⟨min dst.len page.len, page.val⟩
  pure { db with chunks := db.chunks.set k chunk }

namespace KV

def pageGet (db : KV) (ptr : Nat) : Res BNode :=
  match mapGet db.updates ptr with
  | some page =>
    match page with
    | some data => pure ⟨data⟩
    | none => throw Fail.panic -- assert(page != nil)
  | none => pageGetMapped db ptr

/-- A write through the slice returned by `pageGet(ptr)`: it lands in the pending
page of `updates` when there is one, in the mapped chunk otherwise. -/
def pagePut (db : KV) (ptr : Nat) (node : BNode) : Res KV :=
  match mapGet db.updates ptr with
  | some page =>
    match page with
    | some _ => pure { db with updates := mapSet db.updates ptr (some node.data) }
    | none => throw Fail.panic
  | none => pageCopyMapped db ptr node.data

def pageDel (db : KV) (ptr : Nat) : Res KV :=
  pure { db with updates := mapSet db.updates ptr none }

def pageAppend (db : KV) (node : BNode) : Res (Nat × KV) := do
  assert (node.data.len ≤ BTREE_PAGE_SIZE)
  let ptr := u64 (db.flushed + db.nappend)
  pure (ptr, { db with nappend := db.nappend + 1, updates := mapSet db.updates ptr (some node.data) })

def pageUse (db : KV) (ptr : Nat) (node : BNode) : Res KV :=
  pure { db with updates := mapSet db.updates ptr (some node.data) }

/-- The free list of the store, wired as in `KV.Open`. -/
def free (db : KV) : FreeList KV :=
  { head := db.head, get := pageGet, new := pageAppend, use := pageUse, put := pagePut }

/-- The argument `fuel` bounds the walk of `FreeList.Get` along the chain. -/
def pageNew (fuel : Nat) (db : KV) (node : BNode) : Res (Nat × KV) := do
  assert (node.data.len ≤ BTREE_PAGE_SIZE)
  if (db.nfree : Int) < (← db.free.Total db) then
    let ptr ← db.free.Get db fuel db.nfree
    pure (ptr, { db with nfree := db.nfree + 1, updates := mapSet db.updates ptr (some node.data) })
  else
    let ptr := u64 (db.flushed + db.nappend)
    pure (ptr, { db with nappend := db.nappend + 1, updates := mapSet db.updates ptr (some node.data) })

/-- The tree of the store, wired as in `KV.Open`. -/
def tree (fuel : Nat) (db : KV) : BTree KV :=
  { root := db.root, get := pageGet, new := pageNew fuel, del := pageDel }

end KV

/-- The errors that `masterLoad` and the flush return as values. -/
inductive KVError where
  | badSignature   -- "Bad database signature"
  | badMaster      -- "Bad master page"
  | fallocate      -- "fallocate: %w"
  | mmap           -- "mmap: %w"
  | fsync          -- "fsync: %w"
  | writeMaster    -- "write master page: %w"
  | sync           -- the error of the second `fp.Sync()`, returned as is
  deriving DecidableEq, Repr

/-- The outcomes of the operating system calls of one flush: whether
`syscall.Fallocate` succeeds, the chunk returned by `syscall.Mmap` (`none` when it
fails), whether the first `fp.Sync()`, `fp.WriteAt` and the second `fp.Sync()`
succeed. -/
structure OS where
  fallocate : Bool
  mmap : Option Bytes
  fsync1 : Bool
  writeAt : Bool
  fsync2 : Bool
  deriving DecidableEq, Repr

/-- Db page structure: `sig 16B | root 8B | pages used 8B | free list 8B`.
Returns the error value (`none` for `nil`) and the store. -/
def masterLoad (db : KV) : Res (Option KVError × KV) := do
  if db.file = 0 then
    pure (none, { db with flushed := 1 })
  else
    let data ← (match db.chunks with
      | [] => throw Fail.panic
      | c :: _ => pure c : Res Bytes)
    let root ← leUint64 (← sliceFrom data 16)
    let used ← leUint64 (← sliceFrom data 24)
    let free ← leUint64 (← sliceFrom data 32)
    if ¬ bytesEqual DB_SIG (← sliceTo data 16) then
      pure (some KVError.badSignature, db)
    else
      let bad := ¬ (1 ≤ used ∧ used ≤ u64 (db.file / BTREE_PAGE_SIZE))
      let bad := bad ∨ ¬ (0 ≤ root ∧ root < used)
      if bad then
        pure (some KVError.badMaster, db)
      else
        pure (none, { db with root := root, flushed := used, head := free })

/-- The 40 bytes `data` that `masterStore` builds. -/
def masterStore.data (db : KV) : Res Bytes := do
  let data := makeBytes 40
  let data ← copyAt data 0 ⟨min 16 DB_SIG.len, DB_SIG.val⟩
  let data ← putUint64At data 16 db.root
  let data ← putUint64At data 24 db.flushed
  putUint64At data 32 db.head

/-- The bytes of the file after `fp.WriteAt(data, 0)`. -/
def written (fp data : Bytes) : Bytes :=
  ⟨max fp.len data.len, overwrite fp.val 0 data.len data.val⟩

def masterStore (os : OS) (db : KV) : Res (Option KVError × KV) := do
  let data ← masterStore.data db
  -- fp.WriteAt(data[:], 0)
  if os.writeAt then
    pure (none, { db with fp := written db.fp data })
  else
    pure (some KVError.writeMaster, db)

/-- The loop of `extendFile`: `for filePages < npages`. -/
def extendFile.loop (npages : Nat) : Nat → Nat → Res Nat
  | 0, _ => throw Fail.fuel
  | fuel + 1, filePages =>
    if filePages < npages then
      let inc := filePages / 8
      let inc := if inc < 1 then 1 else inc
      extendFile.loop npages fuel (filePages + inc)
    else pure filePages

def extendFile (os : OS) (db : KV) (npages : Nat) : Res (Option KVError × KV) := do
  let filePages := db.file / BTREE_PAGE_SIZE
  if filePages ≥ npages then
    pure (none, db)
  else
    let filePages ← extendFile.loop npages (npages + 1) filePages
    let fileSize := filePages * BTREE_PAGE_SIZE
    -- syscall.Fallocate(int(db.fp.Fd()), 0, 0, int64(fileSize))
    if os.fallocate then
      pure (none, { db with file := fileSize })
    else
      pure (some KVError.fallocate, db)

def extendMmap (os : OS) (db : KV) (npages : Nat) : Res (Option KVError × KV) := do
  if db.total ≥ npages * BTREE_PAGE_SIZE then
    -- no need to extend
    pure (none, db)
  else
    -- syscall.Mmap(int(db.fp.Fd()), int64(db.mmap.total), db.mmap.total, ...)
    match os.mmap with
    | none => pure (some KVError.mmap, db)
    | some chunk =>
      pure (none, { db with total := db.total + db.total, chunks := db.chunks ++ [chunk] })

/-- The first loop of `writePages`: the pointers of the `nil` pages of `updates`
(in the order of the association list; the Go map is iterated in any order). -/
def writePages.freed : List (Nat × Option Bytes) → List Nat
  | [] => []
  | (ptr, page) :: rest =>
    match page with
    | none => ptr :: writePages.freed rest
    | some _ => writePages.freed rest

/-- The last loop of `writePages`: copies every page that is not `nil` into the
mapped chunks. -/
def writePages.copy : List (Nat × Option Bytes) → KV → Res KV
  | [], db => pure db
  | (ptr, page) :: rest, db =>
    match page with
    | some data => do
      let db ← pageCopyMapped db ptr data
      writePages.copy rest db
    | none => writePages.copy rest db

def writePages (os : OS) (fuel : Nat) (db : KV) : Res (Option KVError × KV) := do
  let freed := writePages.freed db.updates
  let (fl, db) ← db.free.Update db fuel db.nfree freed
  let db := { db with head := fl.head }
  let npages := db.flushed + db.nappend
  let (err, db) ← extendFile os db npages
  if err ≠ none then pure (err, db)
  else
    let (err, db) ← extendMmap os db npages
    if err ≠ none then pure (err, db)
    else
      let db ← writePages.copy db.updates db
      pure (none, db)

def syncPages (os : OS) (db : KV) : Res (Option KVError × KV) := do
  if ¬ os.fsync1 then
    pure (some KVError.fsync, db)
  else
    let db := { db with flushed := u64 (db.flushed + db.nappend) }
    let db := { db with updates := [] }
    let (err, db) ← masterStore os db
    if err ≠ none then pure (err, db)
    else if ¬ os.fsync2 then pure (some KVError.sync, db)
    else pure (none, db)

def flushPages (os : OS) (fuel : Nat) (db : KV) : Res (Option KVError × KV) := do
  let (err, db) ← writePages os fuel db
  if err ≠ none then pure (err, db)
  else syncPages os db

namespace KV

def Get (db : KV) (fuel : Nat) (key : Bytes) : Res (Option Bytes × Bool) :=
  (db.tree fuel).Get db fuel key

def Set (os : OS) (db : KV) (fuel : Nat) (key val : Bytes) : Res (Option KVError × KV) := do
  let (root, db) ← (db.tree fuel).Insert db fuel key val
  flushPages os fuel { db with root := root }

def Del (os : OS) (db : KV) (fuel : Nat) (key : Bytes) :
    Res (Bool × Option KVError × KV) := do
  let (deleted, root, db) ← (db.tree fuel).Delete db fuel key
  let (err, db) ← flushPages os fuel { db with root := root }
  pure (deleted, err, db)

end KV

/-! ## Runs of the store

`test/test.go` opens a store on a file and calls `Set` and `Get` on it.  The
definitions below give the store right after `KV.Open` on an empty file and the
calls of the tree as `KV.Set`, `KV.Del` make them (`db.tree.Insert`,
`db.tree.Delete`), pages being served from the pending `updates`. -/

deriving instance DecidableEq for Except

/-- The store after `KV.Open` on an empty file: one chunk of `64 << 20` mapped
bytes, an empty `updates` map, and `flushed = 1` set by `masterLoad`.  The
mapped bytes read as zero here; in the program a read of a mapped page that lies
behind the end of the file faults (SIGBUS) instead of returning zero bytes. -/
def KV.fresh : KV :=
  { root := 0, head := 0, file := 0, total := 64 * 2 ^ 20,
    chunks := [makeBytes (64 * 2 ^ 20)], flushed := 1, nfree := 0, nappend := 0,
    updates := [], fp := Bytes.nil }

/-- The call `db.tree.Insert(key, val)`. -/
def KV.treeInsert (fuel : Nat) (db : KV) (key val : Bytes) : Res KV := do
  let (root, db) ← (db.tree fuel).Insert db fuel key val
  pure { db with root := root }

/-- The call `db.tree.Delete(key)`. -/
def KV.treeDelete (fuel : Nat) (db : KV) (key : Bytes) : Res (Bool × KV) := do
  let (deleted, root, db) ← (db.tree fuel).Delete db fuel key
  pure (deleted, { db with root := root })

/-- A sequence of calls `db.tree.Insert(key, val)`. -/
def KV.treeInserts (fuel : Nat) : List (Bytes × Bytes) → KV → Res KV
  | [], db => pure db
  | (key, val) :: rest, db => do
    let db ← KV.treeInsert fuel db key val
    KV.treeInserts fuel rest db

/-- A sequence of calls `db.Set(key, val)`, their errors being ignored as in
`test/test.go`. -/
def KV.Sets (os : OS) (fuel : Nat) : List (Bytes × Bytes) → KV → Res KV
  | [], db => pure db
  | (key, val) :: rest, db => do
    let (_, db) ← KV.Set os db fuel key val
    KV.Sets os fuel rest db

/-- A node written by the encoder of the code: `setHeader(btype, len(entries))`
followed by `nodeAppendKV` for every entry `(ptr, key, val)` in order. -/
def BNode.build.entries : List (Nat × Bytes × Bytes) → Nat → BNode → Res BNode
  | [], _, node => pure node
  | (ptr, key, val) :: rest, i, node => do
    let node ← nodeAppendKV node i ptr key val
    BNode.build.entries rest (i + 1) node

def BNode.build (size : Nat) (btype : Nat) (entries : List (Nat × Bytes × Bytes)) :
    Res BNode := do
  let node : BNode := ⟨makeBytes size⟩
  let node ← node.setHeader btype (u16 entries.length)
  BNode.build.entries entries 0 node

/-- The page of the master written by `masterStore` for an empty tree: the
signature, `root = 0`, `used = 1`, `free_head = 0`. -/
def KV.emptyMaster : Nat := DB_SIG.val + 1 * 256 ^ 24

/-- A store opened on a file of one page that holds the master page of an empty
tree (such a file is left by a first `Del` on a fresh store). -/
def KV.reopened : KV :=
  { root := 0, head := 0, file := 4096, total := 64 * 2 ^ 20,
    chunks := [⟨64 * 2 ^ 20, KV.emptyMaster⟩], flushed := 1, nfree := 0, nappend := 0,
    updates := [], fp := ⟨4096, KV.emptyMaster⟩ }

/-- Every operating system call succeeds (no new chunk is asked for). -/
def OS.ok : OS := ⟨true, none, true, true, true⟩

/-- The store after Insert("a", "x") on a fresh store, before the flush: one
pending page, the root leaf (page 1). -/
def KV.pendingLeaf : KV :=
  match KV.treeInsert 8 KV.fresh (Bytes.ofList [97]) (Bytes.ofList [120]) with
  | Except.ok db => db
  | Except.error _ => KV.fresh

/-- The store left by the flush of `KV.pendingLeaf` whose first `fp.Sync()` fails. -/
def KV.pendingLeafSyncFailed : KV :=
  match flushPages ⟨true, none, false, true, true⟩ 8 KV.pendingLeaf with
  | Except.ok (_, db) => db
  | Except.error _ => KV.pendingLeaf

/-- The store after Insert("c", 2050 bytes), Insert("a", [1]), Insert("b", 2050
bytes) on a fresh store: an internal root (page 5) over two leaves. -/
def KV.twoLeaves : KV :=
  match KV.treeInserts 8
      [(Bytes.ofList [99], makeBytes 2050), (Bytes.ofList [97], Bytes.ofList [1]),
        (Bytes.ofList [98], makeBytes 2050)] KV.fresh with
  | Except.ok db => db
  | Except.error _ => KV.fresh

/-! ## Bytes of a buffer, entries of a node -/

/-- The `w` bytes of the number `v` from byte `off` on. -/
def field (v off w : Nat) : Nat := v / 256 ^ off % 256 ^ w

/-- The size of the key-value records of a list of entries `(ptr, key, val)`:
`klen 2B | vlen 2B | key | val` each. -/
def kvSize : List (Nat × Bytes × Bytes) → Nat
  | [] => 0
  | (_, key, val) :: rest => 4 + key.len + val.len + kvSize rest

/-- The buffer of `node` holds a header with kind `t` and `nk` keys, and the
entries `es` in its positions `0 .. es.length - 1`: pointer `i` in the pointer
array, the end of record `i` in the offset array, the records one after the
other from the end of the offset array on. -/
structure BNode.Holds (node : BNode) (t nk : Nat) (es : List (Nat × Bytes × Bytes)) : Prop where
  count : es.length ≤ nk
  room : HEADER + 10 * nk + kvSize es ≤ node.data.len
  small : HEADER + 10 * nk + kvSize es < 65536
  kind : field node.data.val 0 2 = t
  keys : field node.data.val 2 2 = nk
  entry : ∀ i ptr key val, es[i]? = some (ptr, key, val) →
    field node.data.val (HEADER + 8 * i) 8 = ptr ∧
    field node.data.val (HEADER + 8 * nk + 2 * i) 2 = kvSize (es.take (i + 1)) ∧
    field node.data.val (HEADER + 10 * nk + kvSize (es.take i)) 2 = key.len ∧
    field node.data.val (HEADER + 10 * nk + kvSize (es.take i) + 2) 2 = val.len ∧
    field node.data.val (HEADER + 10 * nk + kvSize (es.take i) + 4) key.len = key.val ∧
    field node.data.val (HEADER + 10 * nk + kvSize (es.take i) + 4 + key.len) val.len = val.val

/-- The keys of a node as `getKey` reads them, in order. -/
def BNode.keys (node : BNode) : Res (List (List Nat)) := do
  let nk ← node.nkeys
  (List.range nk).mapM (fun i => do pure (← node.getKey i).toList)

/-- The pointers of a node as `getPtr` reads them, in order. -/
def BNode.ptrs (node : BNode) : Res (List Nat) := do
  let nk ← node.nkeys
  (List.range nk).mapM (fun i => node.getPtr i)

/-- The node of a result that is there (the empty node `BNode{}` otherwise). -/
def BNode.ofRes (r : Res BNode) : BNode :=
  match r with
  | Except.ok node => node
  | Except.error _ => ⟨Bytes.nil⟩

/-- A node of kind 2 with the three entries (7, "a", "xy"), (9, "bc", ""),
(11, "d", "z"), written by `setHeader` and `nodeAppendKV` into 64 bytes. -/
def BNode.threeEntries : BNode :=
  BNode.ofRes ((⟨makeBytes 64⟩ : BNode).setHeader 2 3 >>= BNode.build.entries
    [(7, Bytes.ofList [97], Bytes.ofList [120, 121]), (9, Bytes.ofList [98, 99], Bytes.nil),
      (11, Bytes.ofList [100], Bytes.ofList [122])] 0)

/-- A node of kind 2 with a header of four keys and the first entry, (5, "k",
"v"), written, in 96 bytes. -/
def BNode.oneOfFour : BNode :=
  BNode.ofRes ((⟨makeBytes 96⟩ : BNode).setHeader 2 4 >>= BNode.build.entries
    [(5, Bytes.ofList [107], Bytes.ofList [118])] 0)

/-! ## Chains of free-list pages -/

/-- The free-list node `node` reads as the pointers `ptrs` with the link `next`:
`flnSize` is their number, at most `FREE_LIST_CAP`, `flnNext` is `next` and
`flnPtr(i)` is `ptrs[i]`. -/
def pageHolds (node : BNode) (next : Nat) (ptrs : List Nat) : Bool :=
  decide (ptrs.length ≤ FREE_LIST_CAP) && decide (flnSize node = Except.ok ptrs.length) &&
    decide (flnNext node = Except.ok next) &&
    (List.range ptrs.length).all (fun i => decide (flnPtr node i = Except.ok (ptrs.getD i 0)))

/-- The number of the first page of a chain, 0 for the empty chain. -/
def chainHead (pages : List (Nat × List Nat)) : Nat :=
  match pages with
  | [] => 0
  | (p, _) :: _ => p

/-- The chain that starts at `head`, read with `get`, is `pages`: the pages in
order, each with its number (not 0) and the pointers it holds, every page
linking to the next one and the last one to 0. -/
def isChain (get : Nat → Res BNode) : Nat → List (Nat × List Nat) → Bool
  | head, [] => decide (head = 0)
  | head, (p, ptrs) :: rest =>
    decide (head = p) && decide (p ≠ 0) &&
      (match get p with
        | Except.ok node =>
          pageHolds node (chainHead rest) ptrs && isChain get (chainHead rest) rest
        | Except.error _ => false)

/-- The sum of the sizes of the pages of a chain. -/
def chainTotal (pages : List (Nat × List Nat)) : Nat :=
  (pages.map (fun pg => pg.2.length)).sum

/-- The pointers of a chain as a walk from the head lists them: page after page,
the pointers of each page in reverse index order. -/
def chainPtrs (pages : List (Nat × List Nat)) : List Nat :=
  pages.flatMap (fun pg => pg.2.reverse)

/-- A free-list page written by the setters of the code into a fresh page:
`flnSetHeader(size, next)`, `flnSetTotal(total)` and `flnSetPtr(i, ptrs[i])` for
every `i`. -/
def FreeList.page (next total : Nat) (ptrs : List Nat) : Res BNode := do
  let node : BNode := ⟨makeBytes BTREE_PAGE_SIZE⟩
  let node ← flnSetHeader node (u16 ptrs.length) next
  let node ← flnSetTotal node total
  (List.range ptrs.length).foldlM (fun nd i => flnSetPtr nd i (ptrs.getD i 0)) node

/-- A store whose free list is a chain of two pending pages: page 5 (the head,
total 5) holds the pointers 20, 21, 22 and links to page 6, which holds the
pointers 30, 31 and links to 0. -/
def KV.twoFreePages : KV :=
  match (do
    let db ← KV.pageUse KV.fresh 5 (← FreeList.page 6 5 [20, 21, 22])
    let db ← KV.pageUse db 6 (← FreeList.page 0 0 [30, 31])
    pure { db with head := 5, flushed := 100 } : Res KV) with
  | Except.ok db => db
  | Except.error _ => KV.fresh

/-- The contract of the page manager under the free list, `hw` being the
high-water mark of a store (the number of the page that `new` appends next): a
page written by `use` or `new` reads back; a write through the slice of `get`
(`put`, of a node as long as the page that `get` returned) reads back as the
bytes written; every other page reads as before; `use` leaves the mark where it
is; while the mark is a `uint64`, `new` hands out a page number at or above it
and raises it by at most one, above that number.  The page manager of `kv.go`
keeps this contract in every state (`KV.free_lawful`). -/
structure FreeList.Lawful {σ : Type} (fl : FreeList σ) (hw : σ → Nat) : Prop where
  use_get : ∀ s p node s', fl.use s p node = Except.ok s' → fl.get s' p = Except.ok node
  use_frame : ∀ s p node s' q, fl.use s p node = Except.ok s' → q ≠ p →
    fl.get s' q = fl.get s q
  use_hw : ∀ s p node s', fl.use s p node = Except.ok s' → hw s' = hw s
  new_get : ∀ s node p s', fl.new s node = Except.ok (p, s') → fl.get s' p = Except.ok node
  new_frame : ∀ s node p s' q, fl.new s node = Except.ok (p, s') → q ≠ p →
    fl.get s' q = fl.get s q
  new_fresh : ∀ s node p s', fl.new s node = Except.ok (p, s') →
    hw s < 18446744073709551616 → hw s ≤ p ∧ p < hw s' ∧ hw s' ≤ hw s + 1
  put_get : ∀ s p node0 node s', fl.get s p = Except.ok node0 →
    node.data.len = node0.data.len → fl.put s p node = Except.ok s' →
    ∃ node', fl.get s' p = Except.ok node' ∧ node'.data.len = node.data.len ∧
      ∀ off w, off + w ≤ node.data.len →
        field node'.data.val off w = field node.data.val off w
  put_frame : ∀ s p node s' q, fl.put s p node = Except.ok s' → q ≠ p →
    fl.get s' q = fl.get s q

/-- The invariant of the loop of `flPush`: the chain from `head` is `chain`, its
pages are distinct and below the high-water mark, and the page numbers left in
`reuse` are distinct `uint64`s, not 0, below the mark and not pages of the chain. -/
structure FreeList.PushInv {σ : Type} (fl : FreeList σ) (hw : σ → Nat) (s : σ) (head : Nat)
    (reuse : List Nat) (chain : List (Nat × List Nat)) : Prop where
  chain_ok : isChain (fl.get s) head chain = true
  below : ∀ pg ∈ chain, pg.1 < hw s
  distinct : (chain.map Prod.fst).Nodup
  reuse_ok : ∀ r ∈ reuse, r ≠ 0 ∧ r < 18446744073709551616 ∧ r < hw s ∧ ∀ pg ∈ chain, r ≠ pg.1
  reuse_nodup : reuse.Nodup
  head_lt : head < 18446744073709551616
  hw_pos : 0 < hw s

/-- The invariant of the outer loop of `FreeList.Update` on the chain `pages`:
the chain from the current head is `rest`, the pages of `pages` not yet visited,
`total` is the sum of their sizes, the page numbers in `reuse` are `uint64`s
taken from visited pages, different from each other and from the pointers of
`rest`, and the length of `freed` is bounded. -/
structure FreeList.UpdateInv {σ : Type} (fl : FreeList σ) (s : σ)
    (pages : List (Nat × List Nat)) (bound : Nat) (st : UpdateState)
    (rest : List (Nat × List Nat)) : Prop where
  chain_ok : isChain (fl.get s) st.head rest = true
  total : st.total = (chainTotal rest : Int)
  suffix : ∃ visited, pages = visited ++ rest
  reuse_in : ∀ r ∈ st.reuse, r < 18446744073709551616 ∧ ∃ pg ∈ pages, r ∈ pg.2
  nodup : (st.reuse ++ rest.flatMap (fun pg => pg.2)).Nodup
  size : st.freed.length + chainTotal rest + rest.length ≤ bound
  head_lt : st.head < 18446744073709551616

/-- The store left by `Update(1, [40])` on the free list of `KV.twoFreePages`. -/
def KV.twoFreePagesUpdated : KV :=
  match KV.twoFreePages.free.Update KV.twoFreePages 4 1 [40] with
  | Except.ok (_, db) => db
  | Except.error _ => KV.twoFreePages

/-- A store whose free list is a chain of two pending pages, the first of which
holds the number of the second one as a free pointer: page 5 (the head, total 3)
holds the pointer 6 and links to page 6, which holds the pointers 30, 31 and
links to 0. -/
def KV.aliasedFreePages : KV :=
  match (do
    let db ← KV.pageUse KV.fresh 5 (← FreeList.page 6 3 [6])
    let db ← KV.pageUse db 6 (← FreeList.page 0 0 [30, 31])
    pure { db with head := 5, flushed := 100 } : Res KV) with
  | Except.ok db => db
  | Except.error _ => KV.fresh

/-- The store left by `Update(0, [40])` on the free list of `KV.aliasedFreePages`. -/
def KV.aliasedAfterUpdate : KV :=
  match KV.aliasedFreePages.free.Update KV.aliasedFreePages 8 0 [40] with
  | Except.ok (_, db) => db
  | Except.error _ => KV.aliasedFreePages

/-! ## A full free-list page -/

/-- A store whose free list is one pending page, page 2000 (the head, total 509),
full with the `FREE_LIST_CAP = 509` pointers 1000, ..., 1508 and linking to 0. -/
def KV.fullFreePage : KV :=
  match (do
    let db ← KV.pageUse KV.fresh 2000 (← FreeList.page 0 509 (List.range' 1000 509))
    pure { db with head := 2000, flushed := 2001 } : Res KV) with
  | Except.ok db => db
  | Except.error _ => KV.fresh

/-! ## Calls of a tree and a reference map -/

/-- A call of the tree: `Insert(key, val)` or `Delete(key)`. -/
inductive TreeOp where
  | insert (key val : Bytes)
  | delete (key : Bytes)
  deriving DecidableEq, Repr

/-- The arguments of a call are byte slices (`val < 256 ^ len`) that pass the
asserts of the call: the key is not empty and within `BTREE_MAX_KEY_SIZE`, the
value within `BTREE_MAX_VAL_SIZE`. -/
def TreeOp.valid : TreeOp → Prop
  | TreeOp.insert key val =>
    0 < key.len ∧ key.len ≤ BTREE_MAX_KEY_SIZE ∧ val.len ≤ BTREE_MAX_VAL_SIZE ∧
      key.val < 256 ^ key.len ∧ val.val < 256 ^ val.len
  | TreeOp.delete key => 0 < key.len ∧ key.len ≤ BTREE_MAX_KEY_SIZE ∧ key.val < 256 ^ key.len

instance TreeOp.decValid (op : TreeOp) : Decidable op.valid :=
  match op with
  | TreeOp.insert key val =>
    inferInstanceAs (Decidable (0 < key.len ∧ key.len ≤ BTREE_MAX_KEY_SIZE ∧
      val.len ≤ BTREE_MAX_VAL_SIZE ∧ key.val < 256 ^ key.len ∧ val.val < 256 ^ val.len))
  | TreeOp.delete key =>
    inferInstanceAs (Decidable (0 < key.len ∧ key.len ≤ BTREE_MAX_KEY_SIZE ∧
      key.val < 256 ^ key.len))

/-- A caller that makes the calls of a sequence in order on the tree whose root
is `root`, over the store `s`: returns the results of the `Delete` calls, the
last root and the last store. -/
def BTree.calls {σ : Type} (tree : BTree σ) (fuel : Nat) :
    List TreeOp → Nat → σ → Res (List Bool × Nat × σ)
  | [], root, s => pure ([], root, s)
  | TreeOp.insert key val :: rest, root, s => do
    let (root, s) ← BTree.Insert { tree with root := root } s fuel key val
    BTree.calls tree fuel rest root s
  | TreeOp.delete key :: rest, root, s => do
    let (deleted, root, s) ← BTree.Delete { tree with root := root } s fuel key
    let (results, root, s) ← BTree.calls tree fuel rest root s
    pure (deleted :: results, root, s)

/-- The reference finite map: a list of bindings `(key, value)`. -/
abbrev RefMap : Type := List (Bytes × Bytes)

/-- The value bound to `key`. -/
def RefMap.find : RefMap → Bytes → Option Bytes
  | [], _ => none
  | (k, v) :: rest, key => if key = k then some v else RefMap.find rest key

/-- The map without the bindings of `key`. -/
def RefMap.remove (m : RefMap) (key : Bytes) : RefMap :=
  m.filter (fun e => decide (e.1 ≠ key))

/-- The map with `key` bound to `val` and to nothing else. -/
def RefMap.put (m : RefMap) (key val : Bytes) : RefMap :=
  (key, val) :: m.remove key

/-- The reference map after one call. -/
def RefMap.call (m : RefMap) : TreeOp → RefMap
  | TreeOp.insert key val => m.put key val
  | TreeOp.delete key => m.remove key

/-- The calls of a sequence made in order on the reference map: returns, for
every `Delete(key)`, whether `key` was bound before the call, and the last map. -/
def RefMap.calls : List TreeOp → RefMap → List Bool × RefMap
  | [], m => ([], m)
  | TreeOp.insert key val :: rest, m => RefMap.calls rest (m.put key val)
  | TreeOp.delete key :: rest, m =>
    let r := RefMap.calls rest (m.remove key)
    ((m.find key).isSome :: r.1, r.2)

/-- The size `nbytes()` of a leaf that holds the sentinel and the bindings of the
map: the header, a pointer and an offset for every entry, and the records. -/
def RefMap.leafBytes (m : RefMap) : Nat :=
  HEADER + 10 * (m.length + 1) + 4 + (m.map (fun e => 4 + e.1.len + e.2.len)).sum

/-- After every call of the sequence the leaf of the bindings fits in a page. -/
def RefMap.fits : List TreeOp → RefMap → Prop
  | [], _ => True
  | op :: rest, m => (m.call op).leafBytes ≤ BTREE_PAGE_SIZE ∧ RefMap.fits rest (m.call op)

instance RefMap.decFits : (ops : List TreeOp) → (m : RefMap) → Decidable (RefMap.fits ops m)
  | [], _ => isTrue trivial
  | op :: rest, m =>
    @instDecidableAnd _ _ (Nat.decLe _ _) (RefMap.decFits rest (m.call op))

/-! ## The entries of a leaf

The functions below describe, on the list of the entries that follow the
sentinel of a leaf, what the lookup loop and the rewrites of a leaf compute. -/

/-- The index that the loop of `nodeLookupLE` ends with: it walks over the
entries whose key is greater than `key` and stops on the first other one, which
it counts when its key is `key`. -/
def Leaf.pos (key : Bytes) : List (Nat × Bytes × Bytes) → Nat
  | [] => 0
  | e :: rest =>
    if bytesCompare key e.2.1 < 0 then Leaf.pos key rest + 1
    else if bytesCompare key e.2.1 = 0 then 1 else 0

/-- The loop of `nodeLookupLE` stops on an entry whose key is `key`. -/
def Leaf.hit (key : Bytes) : List (Nat × Bytes × Bytes) → Bool
  | [] => false
  | e :: rest =>
    if bytesCompare key e.2.1 < 0 then Leaf.hit key rest
    else decide (bytesCompare key e.2.1 = 0)

/-- The value of the entry on which the loop stops, when its key is `key`. -/
def Leaf.look (key : Bytes) : List (Nat × Bytes × Bytes) → Option Bytes
  | [] => none
  | e :: rest =>
    if bytesCompare key e.2.1 < 0 then Leaf.look key rest
    else if bytesCompare key e.2.1 = 0 then some e.2.2 else none

/-- The entries after `treeInsert`: the entry `(0, key, val)` takes the place of
the entry on which the loop stops when its key is `key`, and is put in front of
it otherwise. -/
def Leaf.ins (key val : Bytes) : List (Nat × Bytes × Bytes) → List (Nat × Bytes × Bytes)
  | [] => [(0, key, val)]
  | e :: rest =>
    if bytesCompare key e.2.1 < 0 then e :: Leaf.ins key val rest
    else if bytesCompare key e.2.1 = 0 then (0, key, val) :: rest
    else (0, key, val) :: e :: rest

/-- The entries after `treeDelete`, when the loop stops on an entry whose key is
`key`: the entries without that one. -/
def Leaf.del (key : Bytes) : List (Nat × Bytes × Bytes) → Option (List (Nat × Bytes × Bytes))
  | [] => none
  | e :: rest =>
    if bytesCompare key e.2.1 < 0 then (Leaf.del key rest).map (fun r => e :: r)
    else if bytesCompare key e.2.1 = 0 then some rest else none

/-- The bindings `(key, value)` of the entries. -/
def Leaf.toMap (rest : List (Nat × Bytes × Bytes)) : RefMap :=
  rest.map (fun e => (e.2.1, e.2.2))

/-- The keys of the entries are byte slices and strictly decreasing. -/
structure Leaf.Sorted (rest : List (Nat × Bytes × Bytes)) : Prop where
  slices : ∀ e ∈ rest, e.2.1.val < 256 ^ e.2.1.len
  decreasing : rest.Pairwise (fun a b => bytesCompare b.2.1 a.2.1 < 0)

/-- The contract of the page manager under the tree, `room` being the number of
pages that the store can still hand out: `new` returns a page number that is
not 0 and at which `get` reads the node back, `del` returns. -/
structure BTree.Lawful {σ : Type} (tree : BTree σ) (room : σ → Nat) : Prop where
  new_ok : ∀ s node, 0 < room s → node.data.len ≤ BTREE_PAGE_SIZE →
    ∃ p s', tree.new s node = Except.ok (p, s') ∧ p ≠ 0 ∧
      tree.get s' p = Except.ok node ∧ room s ≤ room s' + 1
  del_ok : ∀ s p, ∃ s', tree.del s p = Except.ok s' ∧ room s ≤ room s'

/-- The tree with root `root` over the store `s` is a single leaf, a page that
holds the sentinel and the bindings of the map `m`, sorted (no page when `root`
is 0). -/
def BTree.Holds {σ : Type} (tree : BTree σ) (s : σ) (root : Nat) (m : RefMap) : Prop :=
  (root = 0 ∧ m = []) ∨
  (root ≠ 0 ∧ ∃ node rest, tree.get s root = Except.ok node ∧
    node.data.len = BTREE_PAGE_SIZE ∧
    node.Holds BNODE_LEAF (rest.length + 1) ((0, Bytes.nil, Bytes.nil) :: rest) ∧
    Leaf.Sorted rest ∧ (Leaf.toMap rest).Perm m)

/-- The pages that the store of `kv.go` can still append: page numbers are
`uint64` values and 0 is not handed out; with a free list in use the store
promises nothing. -/
def KV.room (db : KV) : Nat :=
  if db.head = 0 ∧ 0 < db.flushed + db.nappend then
    18446744073709551616 - (db.flushed + db.nappend)
  else 0

/-! ## Supporting lemmas -/

theorem mod_field (c off w n : Nat) (h : off + w ≤ n) :
    c % 256 ^ n / 256 ^ off % 256 ^ w = c / 256 ^ off % 256 ^ w := by
  rw [← Nat.mod_mul_right_div_self, ← Nat.mod_mul_right_div_self, ← Nat.pow_add,
    Nat.mod_mod_of_dvd _ (Nat.pow_dvd_pow 256 h)]

theorem masterPage_nkeys (chunk : Bytes) (hlen : BTREE_PAGE_SIZE ≤ chunk.len)
    (hsig : sliceTo chunk 16 = Except.ok DB_SIG) :
    ∃ d, slice chunk 0 (0 + BTREE_PAGE_SIZE) = Except.ok d ∧ d.len = 4096 ∧
      BNode.nkeys ⟨d⟩ = Except.ok 13873 := by
  have h16 : 16 ≤ chunk.len := by simp [BTREE_PAGE_SIZE] at hlen; omega
  simp only [sliceTo, h16, if_true, pure, Except.pure, Except.ok.injEq] at hsig
  have hv : chunk.val % 256 ^ 16 = DB_SIG.val := congrArg Bytes.val hsig
  have hk : chunk.val / 256 ^ 2 % 256 ^ 2 = 13873 := by
    rw [← mod_field chunk.val 2 2 16 (by omega), hv]
    decide
  refine ⟨⟨0 + BTREE_PAGE_SIZE - 0,
    chunk.val / 256 ^ 0 % 256 ^ (0 + BTREE_PAGE_SIZE - 0)⟩, ?_, rfl, ?_⟩
  · unfold slice
    rw [if_pos ⟨Nat.zero_le _, by rw [Nat.zero_add]; exact hlen⟩]
    exact Eq.refl _
  · have h4 : (4 : Nat) ≤ 0 + BTREE_PAGE_SIZE - 0 := by decide
    simp only [BNode.nkeys, slice, leUint16, h4, bind, Except.bind, pure, Except.pure]
    simp only [Nat.pow_zero, Nat.div_one]
    rw [show (4 - 2 : Nat) = 2 from rfl, mod_field _ 2 2 _ (by decide), hk]
    rfl

theorem getKey_one_panics (node : BNode) (hnk : node.nkeys = Except.ok 13873)
    (hlen : node.data.len = 4096) : node.getKey 1 = Except.error Fail.panic := by
  have hoff : node.getOffset 1 = Except.error Fail.panic := by
    simp only [BNode.getOffset, offsetPos, hnk, sliceFrom, hlen, bind, Except.bind, pure,
      Except.pure, assert, u16, HEADER]
    rfl
  simp only [BNode.getKey, BNode.kvPos, hnk, hoff, bind, Except.bind, assert]
  rfl

theorem nodeLookupLE_panics (node : BNode) (key : Bytes) (hnk : node.nkeys = Except.ok 13873)
    (hlen : node.data.len = 4096) : nodeLookupLE node key = Except.error Fail.panic := by
  have hL : LOOP16 = 65536 + 1 := rfl
  simp only [nodeLookupLE, hnk, bind, Except.bind, hL, nodeLookupLE.loop,
    getKey_one_panics node hnk hlen]
  rfl

theorem bind_eq_ok {α β : Type} {x : Res α} {f : α → Res β} {b : β} :
    (x >>= f) = Except.ok b ↔ ∃ a, x = Except.ok a ∧ f a = Except.ok b := by
  cases x with
  | error e => simp [bind, Except.bind]
  | ok a => simp [bind, Except.bind]

theorem putUint16At_len {s s' : Bytes} {off v : Nat} (h : putUint16At s off v = Except.ok s') :
    s'.len = s.len := by
  unfold putUint16At at h
  split at h
  · cases h; rfl
  · cases h

theorem putUint64At_len {s s' : Bytes} {off v : Nat} (h : putUint64At s off v = Except.ok s') :
    s'.len = s.len := by
  unfold putUint64At at h
  split at h
  · cases h; rfl
  · cases h

theorem copyAt_len {s s' src : Bytes} {off : Nat} (h : copyAt s off src = Except.ok s') :
    s'.len = s.len := by
  unfold copyAt at h
  split at h
  · cases h; rfl
  · cases h

theorem setHeader_len {node node' : BNode} {t k : Nat}
    (h : node.setHeader t k = Except.ok node') : node'.data.len = node.data.len := by
  simp only [BNode.setHeader, bind_eq_ok] at h
  obtain ⟨d1, h1, d2, h2, h3⟩ := h
  cases h3
  rw [putUint16At_len h2, putUint16At_len h1]

theorem setPtr_len {node node' : BNode} {i v : Nat}
    (h : node.setPtr i v = Except.ok node') : node'.data.len = node.data.len := by
  simp only [BNode.setPtr, bind_eq_ok] at h
  obtain ⟨_, _, _, _, d, h1, h2⟩ := h
  cases h2
  exact putUint64At_len h1

theorem setOffset_len {node node' : BNode} {i v : Nat}
    (h : node.setOffset i v = Except.ok node') : node'.data.len = node.data.len := by
  simp only [BNode.setOffset, bind_eq_ok] at h
  obtain ⟨_, _, d, h1, h2⟩ := h
  cases h2
  exact putUint16At_len h1

theorem nodeAppendRange_ptrs_len (old : BNode) (dst src n : Nat) :
    ∀ (fuel i : Nat) (new new' : BNode),
      nodeAppendRange.ptrs old dst src n fuel i new = Except.ok new' →
      new'.data.len = new.data.len := by
  intro fuel
  induction fuel with
  | zero => intro i new new' h; simp [nodeAppendRange.ptrs] at h
  | succ fuel ih =>
    intro i new new' h
    simp only [nodeAppendRange.ptrs] at h
    split at h
    · simp only [bind_eq_ok] at h
      obtain ⟨p, _, n1, h1, h2⟩ := h
      rw [ih _ _ _ h2, setPtr_len h1]
    · cases h; rfl

theorem nodeAppendRange_offsets_len (old : BNode) (dst src n b1 b2 : Nat) :
    ∀ (fuel i : Nat) (new new' : BNode),
      nodeAppendRange.offsets old dst src n b1 b2 fuel i new = Except.ok new' →
      new'.data.len = new.data.len := by
  intro fuel
  induction fuel with
  | zero => intro i new new' h; simp [nodeAppendRange.offsets] at h
  | succ fuel ih =>
    intro i new new' h
    simp only [nodeAppendRange.offsets] at h
    split at h
    · simp only [bind_eq_ok] at h
      obtain ⟨p, _, n1, h1, h2⟩ := h
      rw [ih _ _ _ h2, setOffset_len h1]
    · cases h; rfl

theorem nodeAppendRange_len {new old new' : BNode} {dst src n : Nat}
    (h : nodeAppendRange new old dst src n = Except.ok new') :
    new'.data.len = new.data.len := by
  simp only [nodeAppendRange, bind_eq_ok] at h
  obtain ⟨_, _, _, _, _, _, _, _, n1, h1, _, _, _, _, n2, h2, _, _, _, _, _, _, _, _, d, h3, h4⟩ := h
  cases h4
  rw [copyAt_len h3, nodeAppendRange_offsets_len _ _ _ _ _ _ _ _ _ _ h2,
    nodeAppendRange_ptrs_len _ _ _ _ _ _ _ _ h1]

theorem nodeAppendKV_len {node node' : BNode} {index ptr : Nat} {key value : Bytes}
    (h : nodeAppendKV node index ptr key value = Except.ok node') :
    node'.data.len = node.data.len := by
  simp only [nodeAppendKV, bind_eq_ok] at h
  obtain ⟨n1, h1, _, _, d1, h2, d2, h3, d3, h4, d4, h5, _, _, h6⟩ := h
  rw [setOffset_len h6]
  simp only
  rw [copyAt_len h5, copyAt_len h4, putUint16At_len h3, putUint16At_len h2, setPtr_len h1]

theorem makeBytes_len (n : Nat) : (makeBytes n).len = n := rfl

theorem leafDelete_len {new old new' : BNode} {index : Nat}
    (h : leafDelete new old index = Except.ok new') : new'.data.len = new.data.len := by
  simp only [leafDelete, bind_eq_ok] at h
  obtain ⟨_, _, n1, h1, n2, h2, _, _, h3⟩ := h
  rw [nodeAppendRange_len h3, nodeAppendRange_len h2, setHeader_len h1]

theorem nodeReplace2Kid_len {new node new' : BNode} {index ptr : Nat} {key : Bytes}
    (h : nodeReplace2Kid new node index ptr key = Except.ok new') :
    new'.data.len = new.data.len := by
  simp only [nodeReplace2Kid, bind_eq_ok] at h
  obtain ⟨_, _, _, _, n1, h1, n2, h2, n3, h3, _, _, h4⟩ := h
  rw [nodeAppendRange_len h4, nodeAppendKV_len h3, nodeAppendRange_len h2, setHeader_len h1]

section TreeLemmas

variable {σ : Type}

theorem nodeReplaceKidN_kids_len (tree : BTree σ) (old : BNode) (index : Nat) :
    ∀ (kids : List BNode) (i : Nat) (s s' : σ) (new new' : BNode),
      nodeReplaceKidN.kids tree old index kids i s new = Except.ok (new', s') →
      new'.data.len = new.data.len := by
  intro kids
  induction kids with
  | nil =>
    intro i s s' new new' h
    simp only [nodeReplaceKidN.kids, pure, Except.pure, Except.ok.injEq, Prod.mk.injEq] at h
    rw [h.1]
  | cons kid rest ih =>
    intro i s s' new new' h
    simp only [nodeReplaceKidN.kids, bind_eq_ok] at h
    obtain ⟨⟨ptr, s1⟩, _, key, _, n1, h1, h2⟩ := h
    rw [ih _ _ _ _ _ h2, nodeAppendKV_len h1]

theorem nodeReplaceKidN_len {tree : BTree σ} {s s' : σ} {new old new' : BNode} {index : Nat}
    {kids : List BNode}
    (h : nodeReplaceKidN tree s new old index kids = Except.ok (new', s')) :
    new'.data.len = new.data.len := by
  simp only [nodeReplaceKidN, bind_eq_ok] at h
  obtain ⟨_, _, n1, h1, n2, h2, ⟨n3, s3⟩, h3, _, _, n4, h4, h5⟩ := h
  simp only [pure, Except.pure, Except.ok.injEq, Prod.mk.injEq] at h5
  rw [← h5.1, nodeAppendRange_len h4, nodeReplaceKidN_kids_len _ _ _ _ _ _ _ _ _ h3,
    nodeAppendRange_len h2, setHeader_len h1]

/-- A node returned by `nodeDelete` after the child reported a removal is a page. -/
theorem nodeDelete_result (tree : BTree σ) (s s' : σ)
    (recur : σ → BNode → Bytes → Res (BNode × σ)) (node r : BNode) (index : Nat) (key : Bytes)
    (hrec : ∀ s0 n0 r0 s1, recur s0 n0 key = Except.ok (r0, s1) → r0.data.len = 0 → s1 = s0)
    (h : nodeDelete tree s recur node index key = Except.ok (r, s')) :
    r.data.len = 0 → s' = s := by
  intro hr
  simp only [nodeDelete, bind_eq_ok] at h
  obtain ⟨kptr, _, knode, _, ⟨updated, s1⟩, h1, h2⟩ := h
  simp only at h2
  split at h2
  · rename_i hu
    simp only [pure, Except.pure, Except.ok.injEq, Prod.mk.injEq] at h2
    rw [← h2.2]
    exact hrec _ _ _ _ h1 hu
  · exfalso
    simp only [bind_eq_ok] at h2
    obtain ⟨s2, _, ⟨mergeDir, sibling⟩, _, h3⟩ := h2
    simp only at h3
    split at h3
    · simp only [bind_eq_ok] at h3
      obtain ⟨_, _, _, _, _, _, ⟨ptr, s3⟩, _, _, _, n1, h4, h5⟩ := h3
      simp only [pure, Except.pure, Except.ok.injEq, Prod.mk.injEq] at h5
      have := nodeReplace2Kid_len h4
      rw [h5.1, hr, makeBytes_len] at this
      exact absurd this (by decide)
    · split at h3
      · simp only [bind_eq_ok] at h3
        obtain ⟨_, _, _, _, _, _, ⟨ptr, s3⟩, _, _, _, n1, h4, h5⟩ := h3
        simp only [pure, Except.pure, Except.ok.injEq, Prod.mk.injEq] at h5
        have := nodeReplace2Kid_len h4
        rw [h5.1, hr, makeBytes_len] at this
        exact absurd this (by decide)
      · simp only [bind_eq_ok] at h3
        obtain ⟨nk, _, h3⟩ := h3
        split at h3
        · simp only [bind_eq_ok] at h3
          obtain ⟨_, _, _, _, n1, h4, h5⟩ := h3
          simp only [pure, Except.pure, Except.ok.injEq, Prod.mk.injEq] at h5
          have := setHeader_len h4
          rw [h5.1, hr, makeBytes_len] at this
          exact absurd this (by decide)
        · have := nodeReplaceKidN_len h3
          rw [hr, makeBytes_len] at this
          exact absurd this (by decide)

/-- A `treeDelete` that returns the empty node `BNode{}` has made no callback that
changes the store. -/
theorem treeDelete_empty (tree : BTree σ) (key : Bytes) :
    ∀ (fuel : Nat) (s s' : σ) (node r : BNode),
      treeDelete tree fuel s node key = Except.ok (r, s') → r.data.len = 0 → s' = s := by
  intro fuel
  induction fuel with
  | zero => intro s s' node r h; simp [treeDelete] at h
  | succ fuel ih =>
    intro s s' node r h hr
    simp only [treeDelete, bind_eq_ok] at h
    obtain ⟨index, _, t, _, h⟩ := h
    split at h
    · simp only [bind_eq_ok] at h
      obtain ⟨k, _, h⟩ := h
      split at h
      · simp only [bind_eq_ok] at h
        obtain ⟨n1, h1, h2⟩ := h
        simp only [pure, Except.pure, Except.ok.injEq, Prod.mk.injEq] at h2
        have := leafDelete_len h1
        rw [h2.1, hr, makeBytes_len] at this
        exact absurd this (by decide)
      · simp only [pure, Except.pure, Except.ok.injEq, Prod.mk.injEq] at h
        exact h.2.symm
    · split at h
      · exact nodeDelete_result tree s s' _ node r index key
          (fun s0 n0 r0 s1 h0 hr0 => ih s0 s1 n0 r0 h0 hr0) h hr
      · cases h

end TreeLemmas

/-! ### The master page -/

theorem u64At_read (data : Bytes) (off : Nat) (h : off + 8 ≤ data.len) :
    ∃ b, sliceFrom data off = Except.ok b ∧ leUint64 b = Except.ok (data.u64At off) := by
  have h1 : off ≤ data.len := by omega
  have h2 : 8 ≤ data.len - off := by omega
  refine ⟨⟨data.len - off, data.val / 256 ^ off⟩, ?_, ?_⟩
  · unfold sliceFrom
    rw [if_pos h1]
    rfl
  · unfold leUint64
    rw [if_pos h2]
    rfl

theorem DB_SIG_eq : DB_SIG = ⟨16, DB_SIG.val⟩ := rfl

theorem sig_check (data : Bytes) (h : 16 ≤ data.len) :
    ∃ b, sliceTo data 16 = Except.ok b ∧
      (bytesEqual DB_SIG b = true ↔ sliceTo data 16 = Except.ok DB_SIG) := by
  refine ⟨⟨16, data.val % 256 ^ 16⟩, by simp [sliceTo, h, pure, Except.pure], ?_⟩
  have hs : DB_SIG.val % 256 ^ 16 = DB_SIG.val := by decide
  have hl : DB_SIG.len = 16 := rfl
  simp only [sliceTo, h, if_true, pure, Except.pure, Except.ok.injEq, bytesEqual, hl,
    Nat.mod_mod, hs, decide_True, Bool.true_and, decide_eq_true_eq]
  constructor
  · intro h1
    rw [DB_SIG_eq, h1]
  · intro h1
    have := congrArg Bytes.val h1
    exact this.symm

theorem masterLoad_spec (db : KV) (data : Bytes) (rest : List Bytes)
    (hchunks : db.chunks = data :: rest) (hlen : 40 ≤ data.len)
    (hfile : db.file < 9223372036854775808) :
    (db.file = 0 → masterLoad db = Except.ok (none, { db with flushed := 1 })) ∧
    (db.file ≠ 0 →
      (masterLoad db =
          Except.ok (none,
            { db with root := data.u64At 16, flushed := data.u64At 24, head := data.u64At 32 }) ∧
        sliceTo data 16 = Except.ok DB_SIG ∧ 1 ≤ data.u64At 24 ∧
          data.u64At 24 ≤ db.file / BTREE_PAGE_SIZE ∧ data.u64At 16 < data.u64At 24) ∨
      ((∃ err, masterLoad db = Except.ok (some err, db)) ∧
        ¬ (sliceTo data 16 = Except.ok DB_SIG ∧ 1 ≤ data.u64At 24 ∧
          data.u64At 24 ≤ db.file / BTREE_PAGE_SIZE ∧ data.u64At 16 < data.u64At 24))) := by
  constructor
  · intro h0
    simp [masterLoad, h0, pure, Except.pure]
  · intro h0
    obtain ⟨b, hb, hbe⟩ := sig_check data (by omega)
    obtain ⟨b16, hs16, hr⟩ := u64At_read data 16 (by omega)
    obtain ⟨b24, hs24, hu⟩ := u64At_read data 24 (by omega)
    obtain ⟨b32, hs32, hf⟩ := u64At_read data 32 (by omega)
    have hfp : u64 (db.file / BTREE_PAGE_SIZE) = db.file / BTREE_PAGE_SIZE := by
      unfold u64 BTREE_PAGE_SIZE
      omega
    rw [← hbe]
    generalize data.u64At 16 = root at *
    generalize data.u64At 24 = used at *
    generalize data.u64At 32 = free at *
    unfold masterLoad
    simp only [h0, if_false, hchunks, bind, Except.bind, pure, Except.pure, hs16, hr, hs24, hu,
      hs32, hf, hb, hfp, Nat.zero_le, true_and]
    by_cases c1 : bytesEqual DB_SIG b = true
    · by_cases c2 : 1 ≤ used ∧ used ≤ db.file / BTREE_PAGE_SIZE
      · by_cases c3 : root < used
        · left
          simp [c1, c2, c3]
        · right
          simp [c1, c2, c3]
      · right
        refine ⟨⟨KVError.badMaster, ?_⟩, fun h => c2 ⟨h.2.1, h.2.2.1⟩⟩
        simp [c1, c2]
    · right
      simp [c1]

section FreeLemmas

variable {σ : Type}

/-- A property of the store kept by the callbacks `new`, `use` and `put` is kept by
the loop of `flPush`. -/
theorem flPush_loop_keeps (fl : FreeList σ) (P : σ → Prop)
    (hnew : ∀ s n p s', fl.new s n = Except.ok (p, s') → P s → P s')
    (huse : ∀ s p n s', fl.use s p n = Except.ok s' → P s → P s') :
    ∀ (fuel head : Nat) (s : σ) (freed reuse : List Nat) (r : Nat × σ × List Nat),
      flPush.loop fl fuel head s freed reuse = Except.ok r → P s → P r.2.1 := by
  intro fuel
  induction fuel with
  | zero => intro head s freed reuse r h; simp [flPush.loop] at h
  | succ fuel ih =>
    intro head s freed reuse r h hP
    simp only [flPush.loop] at h
    split at h
    · simp only [bind_eq_ok] at h
      obtain ⟨n1, _, n2, _, h⟩ := h
      cases reuse with
      | nil =>
        simp only [bind_eq_ok] at h
        obtain ⟨⟨ptr, s1⟩, h1, h2⟩ := h
        exact ih _ _ _ _ _ h2 (hnew _ _ _ _ h1 hP)
      | cons r0 reuse =>
        simp only [bind_eq_ok] at h
        obtain ⟨s1, h1, h2⟩ := h
        exact ih _ _ _ _ _ h2 (huse _ _ _ _ h1 hP)
    · cases h
      exact hP

/-- A property of the store kept by the callbacks `new`, `use` and `put` is kept by
`FreeList.Update`. -/
theorem FreeList_Update_keeps (fl : FreeList σ) (P : σ → Prop)
    (hnew : ∀ s n p s', fl.new s n = Except.ok (p, s') → P s → P s')
    (huse : ∀ s p n s', fl.use s p n = Except.ok s' → P s → P s')
    (hput : ∀ s p n s', fl.put s p n = Except.ok s' → P s → P s')
    (s : σ) (fuel popn : Nat) (freed : List Nat) (fl' : FreeList σ) (s' : σ)
    (h : fl.Update s fuel popn freed = Except.ok (fl', s')) (hP : P s) : P s' := by
  simp only [FreeList.Update, bind_eq_ok] at h
  obtain ⟨_, _, _, _, h⟩ := h
  split at h
  · cases h
    exact hP
  · simp only [bind_eq_ok] at h
    obtain ⟨total, _, st, _, _, _, ⟨fl1, s1⟩, h1, node, _, node', _, s2, h2, h3⟩ := h
    cases h3
    simp only [flPush, bind_eq_ok] at h1
    obtain ⟨⟨head, s3, reuse⟩, h4, _, _, h5⟩ := h1
    cases h5
    exact hput _ _ _ _ h2
      (flPush_loop_keeps { fl with head := st.head } P hnew huse _ _ _ _ _ _ h4 hP)

end FreeLemmas

theorem mapSet_ne_nil (m : List (Nat × Option Bytes)) (ptr : Nat) (page : Option Bytes) :
    mapSet m ptr page ≠ [] := by
  cases m with
  | nil => simp [mapSet]
  | cons a rest =>
    obtain ⟨k, v⟩ := a
    simp only [mapSet]
    split <;> simp

theorem pageCopyMapped_keeps {db db' : KV} {ptr : Nat} {page : Bytes}
    (h : pageCopyMapped db ptr page = Except.ok db') :
    db'.updates = db.updates ∧ db'.fp = db.fp := by
  simp only [pageCopyMapped, bind_eq_ok] at h
  obtain ⟨⟨k, off⟩, _, _, _, _, _, h1⟩ := h
  cases h1
  exact ⟨rfl, rfl⟩

theorem Update_keeps_pending (db : KV) (fuel popn : Nat) (freed : List Nat)
    (fl' : FreeList KV) (db' : KV)
    (h : db.free.Update db fuel popn freed = Except.ok (fl', db')) :
    (db.updates ≠ [] → db'.updates ≠ []) ∧ db'.fp = db.fp := by
  refine FreeList_Update_keeps db.free
    (fun d => (db.updates ≠ [] → d.updates ≠ []) ∧ d.fp = db.fp) ?_ ?_ ?_ db fuel popn freed
    fl' db' h ⟨id, rfl⟩
  · intro s n p s' h1 hP
    simp only [KV.free, KV.pageAppend, bind_eq_ok] at h1
    obtain ⟨_, _, h2⟩ := h1
    cases h2
    exact ⟨fun _ => mapSet_ne_nil _ _ _, hP.2⟩
  · intro s p n s' h1 hP
    simp only [KV.free, KV.pageUse] at h1
    cases h1
    exact ⟨fun _ => mapSet_ne_nil _ _ _, hP.2⟩
  · intro s p n s' h1 hP
    simp only [KV.free, KV.pagePut] at h1
    split at h1
    · split at h1
      · cases h1
        exact ⟨fun _ => mapSet_ne_nil _ _ _, hP.2⟩
      · cases h1
    · obtain ⟨e1, e2⟩ := pageCopyMapped_keeps h1
      rw [e1, e2]
      exact hP

theorem extendFile_keeps {os : OS} {db db' : KV} {npages : Nat} {err : Option KVError}
    (h : extendFile os db npages = Except.ok (err, db')) :
    db'.updates = db.updates ∧ db'.fp = db.fp ∧ (err = none ∨ err = some KVError.fallocate) := by
  simp only [extendFile] at h
  split at h
  · cases h
    exact ⟨rfl, rfl, Or.inl rfl⟩
  · simp only [bind_eq_ok] at h
    obtain ⟨_, _, h⟩ := h
    split at h
    · cases h
      exact ⟨rfl, rfl, Or.inl rfl⟩
    · cases h
      exact ⟨rfl, rfl, Or.inr rfl⟩

theorem extendMmap_keeps {os : OS} {db db' : KV} {npages : Nat} {err : Option KVError}
    (h : extendMmap os db npages = Except.ok (err, db')) :
    db'.updates = db.updates ∧ db'.fp = db.fp ∧ (err = none ∨ err = some KVError.mmap) := by
  simp only [extendMmap] at h
  split at h
  · cases h
    exact ⟨rfl, rfl, Or.inl rfl⟩
  · split at h
    · cases h
      exact ⟨rfl, rfl, Or.inr rfl⟩
    · cases h
      exact ⟨rfl, rfl, Or.inl rfl⟩

theorem writePages_copy_keeps :
    ∀ (l : List (Nat × Option Bytes)) (db db' : KV),
      writePages.copy l db = Except.ok db' → db'.updates = db.updates ∧ db'.fp = db.fp := by
  intro l
  induction l with
  | nil =>
    intro db db' h
    cases h
    exact ⟨rfl, rfl⟩
  | cons a rest ih =>
    intro db db' h
    obtain ⟨ptr, page⟩ := a
    cases page with
    | none => exact ih _ _ h
    | some data =>
      simp only [writePages.copy, bind_eq_ok] at h
      obtain ⟨db1, h1, h2⟩ := h
      obtain ⟨e1, e2⟩ := pageCopyMapped_keeps h1
      obtain ⟨e3, e4⟩ := ih _ _ h2
      exact ⟨e3.trans e1, e4.trans e2⟩

theorem writePages_keeps {os : OS} {fuel : Nat} {db db' : KV} {err : Option KVError}
    (h : writePages os fuel db = Except.ok (err, db')) :
    (db.updates ≠ [] → db'.updates ≠ []) ∧ db'.fp = db.fp ∧
      (err = none ∨ err = some KVError.fallocate ∨ err = some KVError.mmap) := by
  simp only [writePages, bind_eq_ok] at h
  obtain ⟨⟨fl, db1⟩, h1, ⟨err1, db2⟩, h2, h3⟩ := h
  obtain ⟨u1, f1⟩ := Update_keeps_pending _ _ _ _ _ _ h1
  obtain ⟨u2, f2, e2⟩ := extendFile_keeps h2
  simp only at u2 f2 h3
  split at h3
  · cases h3
    rename_i hne
    refine ⟨fun hu => by rw [u2]; exact u1 hu, by rw [f2]; exact f1, ?_⟩
    rcases e2 with e | e
    · exact absurd e hne
    · exact Or.inr (Or.inl e)
  · simp only [bind_eq_ok] at h3
    obtain ⟨⟨err2, db3⟩, h4, h5⟩ := h3
    obtain ⟨u3, f3, e3⟩ := extendMmap_keeps h4
    simp only at h5
    split at h5
    · cases h5
      rename_i hne
      refine ⟨fun hu => by rw [u3, u2]; exact u1 hu, by rw [f3, f2]; exact f1, ?_⟩
      rcases e3 with e | e
      · exact absurd e hne
      · exact Or.inr (Or.inr e)
    · simp only [bind_eq_ok] at h5
      obtain ⟨db4, h6, h7⟩ := h5
      cases h7
      obtain ⟨u4, f4⟩ := writePages_copy_keeps _ _ _ h6
      exact ⟨fun hu => by rw [u4, u3, u2]; exact u1 hu, by rw [f4, f3, f2]; exact f1, Or.inl rfl⟩

theorem masterStore_data_congr (a b : KV) (h1 : a.root = b.root) (h2 : a.flushed = b.flushed)
    (h3 : a.head = b.head) : masterStore.data a = masterStore.data b := by
  unfold masterStore.data
  rw [h1, h2, h3]

theorem syncPages_cases {os : OS} {db db' : KV} {err : Option KVError}
    (h : syncPages os db = Except.ok (err, db')) :
    (err = some KVError.fsync ∧ db' = db) ∨
    (err = some KVError.writeMaster ∧ db'.updates = [] ∧ db'.fp = db.fp) ∨
    (∃ data, masterStore.data db' = Except.ok data ∧ db'.updates = [] ∧
      db'.fp = written db.fp data ∧ (err = some KVError.sync ∨ err = none)) := by
  simp only [syncPages] at h
  split at h
  · cases h
    exact Or.inl ⟨rfl, rfl⟩
  · simp only [bind_eq_ok, masterStore] at h
    obtain ⟨⟨err1, db1⟩, ⟨data, hd, h1⟩, h2⟩ := h
    split at h1
    · cases h1
      simp only [ne_eq, not_true_eq_false, if_false] at h2
      split at h2
      · cases h2
        exact Or.inr (Or.inr ⟨data, by rw [← hd]; exact masterStore_data_congr _ _ rfl rfl rfl,
          rfl, rfl, Or.inl rfl⟩)
      · cases h2
        exact Or.inr (Or.inr ⟨data, by rw [← hd]; exact masterStore_data_congr _ _ rfl rfl rfl,
          rfl, rfl, Or.inr rfl⟩)
    · cases h1
      simp only [ne_eq, reduceCtorEq, not_false_eq_true, if_true] at h2
      cases h2
      exact Or.inr (Or.inl ⟨rfl, rfl, rfl⟩)

/-! ### Fields of a buffer -/


theorem field_lt (v off w : Nat) : field v off w < 256 ^ w :=
  Nat.mod_lt _ (by positivity)

theorem field_overwrite_inside (s off w x d w' : Nat) (h : d + w' ≤ w) :
    field (overwrite s off w x) (off + d) w' = field x d w' := by
  unfold field overwrite
  have hA : 0 < 256 ^ off := by positivity
  have hD : 0 < 256 ^ d := by positivity
  obtain ⟨e, rfl⟩ : ∃ e, w = d + w' + e := ⟨w - (d + w'), by omega⟩
  have h1 : (s % 256 ^ off + x % 256 ^ (d + w' + e) * 256 ^ off +
      s / 256 ^ (off + (d + w' + e)) * 256 ^ (off + (d + w' + e))) / 256 ^ off
      = x % 256 ^ (d + w' + e) + s / 256 ^ (off + (d + w' + e)) * 256 ^ (d + w' + e) := by
    rw [show s % 256 ^ off + x % 256 ^ (d + w' + e) * 256 ^ off +
      s / 256 ^ (off + (d + w' + e)) * 256 ^ (off + (d + w' + e))
      = s % 256 ^ off + 256 ^ off * (x % 256 ^ (d + w' + e) +
        s / 256 ^ (off + (d + w' + e)) * 256 ^ (d + w' + e)) by
        rw [pow_add 256 off]; ring]
    rw [Nat.add_mul_div_left _ _ hA, Nat.div_eq_of_lt (Nat.mod_lt _ hA), zero_add]
  rw [pow_add 256 off d, ← Nat.div_div_eq_div_mul, h1]
  rw [← Nat.mod_mul_right_div_self, ← Nat.mod_mul_right_div_self]
  congr 1
  rw [show 256 ^ (d + w' + e) = 256 ^ d * 256 ^ w' * 256 ^ e by rw [pow_add, pow_add]]
  rw [show s / 256 ^ (off + (d + w' + e)) * (256 ^ d * 256 ^ w' * 256 ^ e)
      = 256 ^ d * 256 ^ w' * (s / 256 ^ (off + (d + w' + e)) * 256 ^ e) by ring]
  rw [Nat.add_mul_mod_self_left, Nat.mod_mul_right_mod]

theorem field_overwrite_below (s off w x o' w' : Nat) (h : o' + w' ≤ off) :
    field (overwrite s off w x) o' w' = field s o' w' := by
  unfold field overwrite
  obtain ⟨e, rfl⟩ : ∃ e, off = o' + w' + e := ⟨off - (o' + w'), by omega⟩
  rw [← Nat.mod_mul_right_div_self, ← Nat.mod_mul_right_div_self]
  congr 1
  have e1 : (256 : Nat) ^ (o' + w' + e) = 256 ^ o' * 256 ^ w' * 256 ^ e := by
    rw [pow_add, pow_add]
  have e2 : (256 : Nat) ^ (o' + w' + e + w) = 256 ^ o' * 256 ^ w' * (256 ^ e * 256 ^ w) := by
    rw [pow_add, pow_add, pow_add]; ring
  rw [e2, e1]
  rw [show s % (256 ^ o' * 256 ^ w' * 256 ^ e) + x % 256 ^ w * (256 ^ o' * 256 ^ w' * 256 ^ e) +
      s / (256 ^ o' * 256 ^ w' * (256 ^ e * 256 ^ w)) * (256 ^ o' * 256 ^ w' * (256 ^ e * 256 ^ w))
      = s % (256 ^ o' * 256 ^ w' * 256 ^ e) + 256 ^ o' * 256 ^ w' * (x % 256 ^ w * 256 ^ e +
      s / (256 ^ o' * 256 ^ w' * (256 ^ e * 256 ^ w)) * (256 ^ e * 256 ^ w)) by ring]
  rw [Nat.add_mul_mod_self_left, Nat.mod_mul_right_mod]

theorem field_overwrite_above (s off w x o' w' : Nat) (h : off + w ≤ o') :
    field (overwrite s off w x) o' w' = field s o' w' := by
  unfold field overwrite
  obtain ⟨e, rfl⟩ : ∃ e, o' = off + w + e := ⟨o' - (off + w), by omega⟩
  have hB : 0 < 256 ^ (off + w) := by positivity
  have hlt : s % 256 ^ off + x % 256 ^ w * 256 ^ off < 256 ^ (off + w) := by
    have h1 : s % 256 ^ off < 256 ^ off := Nat.mod_lt _ (by positivity)
    have h2 : x % 256 ^ w + 1 ≤ 256 ^ w := Nat.mod_lt _ (by positivity)
    have h3 := Nat.mul_le_mul_right (256 ^ off) h2
    rw [pow_add, Nat.mul_comm (256 ^ off)]
    rw [Nat.add_mul, Nat.one_mul] at h3
    omega
  congr 1
  rw [pow_add 256 (off + w) e, ← Nat.div_div_eq_div_mul, ← Nat.div_div_eq_div_mul]
  congr 1
  rw [show s % 256 ^ off + x % 256 ^ w * 256 ^ off + s / 256 ^ (off + w) * 256 ^ (off + w)
    = (s % 256 ^ off + x % 256 ^ w * 256 ^ off) + 256 ^ (off + w) * (s / 256 ^ (off + w)) by ring]
  rw [Nat.add_mul_div_left _ _ hB, Nat.div_eq_of_lt hlt, zero_add]

theorem field_overwrite_disjoint (s off w x o' w' : Nat) (h : o' + w' ≤ off ∨ off + w ≤ o') :
    field (overwrite s off w x) o' w' = field s o' w' := by
  rcases h with h | h
  · exact field_overwrite_below s off w x o' w' h
  · exact field_overwrite_above s off w x o' w' h


theorem field_two (v off : Nat) : field v off 2 = v / 256 ^ off % 65536 := rfl

theorem field_eight (v off : Nat) : field v off 8 = v / 256 ^ off % 18446744073709551616 := rfl

theorem field_zero_off (v w : Nat) : field v 0 w = v % 256 ^ w := by
  simp [field]

/-! ### Reads and writes of a buffer -/

theorem read16 (d : Bytes) (off : Nat) (h : off + 2 ≤ d.len) :
    (sliceFrom d off >>= leUint16) = Except.ok (field d.val off 2) := by
  have h1 : off ≤ d.len := by omega
  have h2 : 2 ≤ d.len - off := by omega
  simp [sliceFrom, leUint16, h1, h2, field]; rfl

theorem read64 (d : Bytes) (off : Nat) (h : off + 8 ≤ d.len) :
    (sliceFrom d off >>= leUint64) = Except.ok (field d.val off 8) := by
  have h1 : off ≤ d.len := by omega
  have h2 : 8 ≤ d.len - off := by omega
  simp [sliceFrom, leUint64, h1, h2, field]; rfl

theorem readBytes (d : Bytes) (off n : Nat) (h : off + n ≤ d.len) :
    (sliceFrom d off >>= fun b => sliceTo b n) = Except.ok ⟨n, field d.val off n⟩ := by
  have h1 : off ≤ d.len := by omega
  have h2 : n ≤ d.len - off := by omega
  simp [sliceFrom, sliceTo, h1, h2, field]; rfl

theorem put16 (d : Bytes) (off v : Nat) (h : off + 2 ≤ d.len) :
    putUint16At d off v = Except.ok ⟨d.len, overwrite d.val off 2 v⟩ := by
  simp [putUint16At, h]; rfl

theorem put64 (d : Bytes) (off v : Nat) (h : off + 8 ≤ d.len) :
    putUint64At d off v = Except.ok ⟨d.len, overwrite d.val off 8 v⟩ := by
  simp [putUint64At, h]; rfl

theorem copyAt_fits (d : Bytes) (off : Nat) (src : Bytes) (h : off + src.len ≤ d.len) :
    copyAt d off src = Except.ok ⟨d.len, overwrite d.val off src.len src.val⟩ := by
  have h1 : off ≤ d.len := by omega
  have h2 : min (d.len - off) src.len = src.len := by omega
  simp [copyAt, h1, h2]; rfl

theorem field_overwrite_same (s off w x : Nat) :
    field (overwrite s off w x) off w = x % 256 ^ w := by
  have := field_overwrite_inside s off w x 0 w (by omega)
  simpa [field] using this

theorem u16_of_lt {x : Nat} (h : x < 65536) : u16 x = x := Nat.mod_eq_of_lt h

theorem ok_bind {α β : Type} (a : α) (f : α → Res β) : (Except.ok a >>= f) = f a := rfl

theorem sliceFrom_ok (s : Bytes) (lo : Nat) (h : lo ≤ s.len) :
    sliceFrom s lo = Except.ok ⟨s.len - lo, s.val / 256 ^ lo⟩ := by
  simp [sliceFrom, h]; rfl

theorem sliceTo_mk (l v hi : Nat) (h : hi ≤ l) :
    sliceTo ⟨l, v⟩ hi = Except.ok ⟨hi, v % 256 ^ hi⟩ := by
  simp [sliceTo, h]; rfl

theorem leUint16_mk (l v : Nat) (h : 2 ≤ l) :
    leUint16 ⟨l, v⟩ = Except.ok (v % 65536) := by
  simp [leUint16, h]; rfl

theorem leUint64_mk (l v : Nat) (h : 8 ≤ l) :
    leUint64 ⟨l, v⟩ = Except.ok (v % 18446744073709551616) := by
  simp [leUint64, h]; rfl

/-! ### The node codec -/

theorem kvSize_append (a b : List (Nat × Bytes × Bytes)) :
    kvSize (a ++ b) = kvSize a + kvSize b := by
  induction a with
  | nil => simp [kvSize]
  | cons e a ih =>
    obtain ⟨p, k, v⟩ := e
    simp [kvSize, ih]; omega

theorem kvSize_take_succ (es : List (Nat × Bytes × Bytes)) (i ptr : Nat) (key val : Bytes)
    (h : es[i]? = some (ptr, key, val)) :
    kvSize (es.take (i + 1)) = kvSize (es.take i) + (4 + key.len + val.len) := by
  rw [List.take_succ, kvSize_append, h]
  simp [kvSize]

theorem kvSize_take_mono (es : List (Nat × Bytes × Bytes)) (i j : Nat) (h : i ≤ j) :
    kvSize (es.take i) ≤ kvSize (es.take j) := by
  have h1 : es.take i = (es.take j).take i := by
    rw [List.take_take, Nat.min_eq_left h]
  have h2 := kvSize_append ((es.take j).take i) ((es.take j).drop i)
  rw [List.take_append_drop] at h2
  rw [h1]; omega

theorem kvSize_take_le (es : List (Nat × Bytes × Bytes)) (i : Nat) :
    kvSize (es.take i) ≤ kvSize es := by
  have h2 := kvSize_append (es.take i) (es.drop i)
  rw [List.take_append_drop] at h2
  omega

theorem nkeys_eq (node : BNode) (h : 4 ≤ node.data.len) :
    node.nkeys = Except.ok (field node.data.val 2 2) := by
  have h1 : 2 ≤ 4 ∧ 4 ≤ node.data.len := ⟨by omega, h⟩
  simp [BNode.nkeys, slice, leUint16, h1, field]; rfl

theorem btype_eq (node : BNode) (h : 2 ≤ node.data.len) :
    node.btype = Except.ok (field node.data.val 0 2) := by
  simp [BNode.btype, leUint16, h, field]; rfl

theorem assert_true {c : Bool} (h : c = true) : assert c = Except.ok () := by
  subst h; rfl

theorem getPtr_eq (node : BNode) (nk i : Nat) (h4 : 4 ≤ node.data.len)
    (hnk : field node.data.val 2 2 = nk) (hi : i < nk)
    (hlen : HEADER + 8 * i + 8 ≤ node.data.len) (hs : HEADER + 8 * i < 65536) :
    node.getPtr i = Except.ok (field node.data.val (HEADER + 8 * i) 8) := by
  have e : u16 (HEADER + i * 8) = HEADER + 8 * i := by
    rw [u16_of_lt (by omega)]; omega
  unfold BNode.getPtr
  rw [nkeys_eq node h4, hnk]
  simp only [Except.bind, bind, e]
  rw [assert_true (by simpa using hi)]
  exact read64 node.data _ hlen

theorem setPtr_eq (node : BNode) (nk i x : Nat) (h4 : 4 ≤ node.data.len)
    (hnk : field node.data.val 2 2 = nk) (hi : i < nk)
    (hlen : HEADER + 8 * i + 8 ≤ node.data.len) (hs : HEADER + 8 * i < 65536) :
    node.setPtr i x = Except.ok ⟨⟨node.data.len, overwrite node.data.val (HEADER + 8 * i) 8 x⟩⟩ := by
  have e : u16 (HEADER + i * 8) = HEADER + 8 * i := by
    rw [u16_of_lt (by omega)]; omega
  unfold BNode.setPtr
  rw [nkeys_eq node h4, hnk]
  simp only [Except.bind, bind, e]
  rw [assert_true (by simpa using hi), put64 _ _ _ hlen]
  rfl

theorem offsetPos_eq (node : BNode) (nk i : Nat) (h4 : 4 ≤ node.data.len)
    (hnk : field node.data.val 2 2 = nk) (h1 : 1 ≤ i) (hi : i ≤ nk)
    (hs : HEADER + 8 * nk + 2 * i < 65536) :
    offsetPos node i = Except.ok (HEADER + 8 * nk + 2 * (i - 1)) := by
  have e : u16 (HEADER + nk * 8 + 2 * (i - 1)) = HEADER + 8 * nk + 2 * (i - 1) := by
    rw [u16_of_lt (by omega)]; omega
  unfold offsetPos
  rw [nkeys_eq node h4, hnk]
  simp only [Except.bind, bind, e]
  rw [assert_true (by simp; omega)]
  rfl

theorem getOffset_eq (node : BNode) (nk i : Nat) (h4 : 4 ≤ node.data.len)
    (hnk : field node.data.val 2 2 = nk) (h1 : 1 ≤ i) (hi : i ≤ nk)
    (hs : HEADER + 8 * nk + 2 * i < 65536) (hlen : HEADER + 8 * nk + 2 * i ≤ node.data.len) :
    node.getOffset i = Except.ok (field node.data.val (HEADER + 8 * nk + 2 * (i - 1)) 2) := by
  unfold BNode.getOffset
  rw [if_neg (by omega), offsetPos_eq node nk i h4 hnk h1 hi hs]
  exact read16 node.data _ (by omega)

theorem setOffset_eq (node : BNode) (nk i x : Nat) (h4 : 4 ≤ node.data.len)
    (hnk : field node.data.val 2 2 = nk) (h1 : 1 ≤ i) (hi : i ≤ nk)
    (hs : HEADER + 8 * nk + 2 * i < 65536) (hlen : HEADER + 8 * nk + 2 * i ≤ node.data.len) :
    node.setOffset i x = Except.ok
      ⟨⟨node.data.len, overwrite node.data.val (HEADER + 8 * nk + 2 * (i - 1)) 2 x⟩⟩ := by
  unfold BNode.setOffset
  rw [offsetPos_eq node nk i h4 hnk h1 hi hs]
  simp only [Except.bind, bind]
  rw [put16 _ _ _ (by omega)]
  rfl

theorem kvPos_eq (node : BNode) (nk i off : Nat) (h4 : 4 ≤ node.data.len)
    (hnk : field node.data.val 2 2 = nk) (hi : i ≤ nk)
    (hoff : node.getOffset i = Except.ok off) (hs : HEADER + 10 * nk + off < 65536) :
    node.kvPos i = Except.ok (HEADER + 10 * nk + off) := by
  have e : u16 (HEADER + nk * 8 + nk * 2 + off) = HEADER + 10 * nk + off := by
    rw [u16_of_lt (by omega)]; omega
  unfold BNode.kvPos
  rw [nkeys_eq node h4, hnk, hoff]
  simp only [Except.bind, bind, e]
  rw [assert_true (by simpa using hi)]
  rfl

theorem getKey_eq (node : BNode) (nk i pos klen : Nat) (h4 : 4 ≤ node.data.len)
    (hnk : field node.data.val 2 2 = nk) (hi : i ≤ nk)
    (hpos : node.kvPos i = Except.ok pos)
    (hklen : field node.data.val pos 2 = klen)
    (hs : pos + 4 + klen < 65536) (hlen : pos + 4 + klen ≤ node.data.len) :
    node.getKey i = Except.ok ⟨klen, field node.data.val (pos + 4) klen⟩ := by
  unfold BNode.getKey
  rw [nkeys_eq node h4, hnk, hpos, ok_bind, assert_true (by simpa using hi)]
  simp (disch := omega) only [ok_bind, sliceFrom_ok, leUint16_mk, u16_of_lt]
  rw [← field_two, hklen]
  simp (disch := omega) only [ok_bind, sliceFrom_ok, sliceTo_mk]
  rfl

theorem getValue_eq (node : BNode) (nk i pos klen vlen : Nat) (h4 : 4 ≤ node.data.len)
    (hnk : field node.data.val 2 2 = nk) (hi : i ≤ nk)
    (hpos : node.kvPos i = Except.ok pos)
    (hklen : field node.data.val pos 2 = klen)
    (hvlen : field node.data.val (pos + 2) 2 = vlen)
    (hs : pos + 4 + klen + vlen < 65536) (hlen : pos + 4 + klen + vlen ≤ node.data.len) :
    node.getValue i = Except.ok ⟨vlen, field node.data.val (pos + 4 + klen) vlen⟩ := by
  unfold BNode.getValue
  rw [nkeys_eq node h4, hnk, hpos, ok_bind, assert_true (by simpa using hi)]
  simp (disch := omega) only [ok_bind, sliceFrom_ok, leUint16_mk, u16_of_lt, Nat.add_zero]
  rw [← field_two, ← field_two, hklen, hvlen]
  simp (disch := omega) only [ok_bind, sliceFrom_ok, sliceTo_mk, u16_of_lt]
  rfl

theorem setHeader_eq (node : BNode) (t nk : Nat) (h4 : 4 ≤ node.data.len) :
    node.setHeader t nk = Except.ok
      ⟨⟨node.data.len, overwrite (overwrite node.data.val 0 2 t) 2 2 nk⟩⟩ := by
  unfold BNode.setHeader
  rw [put16 _ _ _ (by omega)]
  simp only [Except.bind, bind]
  rw [put16 _ _ _ (by simpa using h4)]
  rfl

theorem HEADER_eq : HEADER = 4 := rfl

section HoldsLemmas

variable {node : BNode} {t nk : Nat} {es : List (Nat × Bytes × Bytes)}

theorem Holds_getOffset (h : node.Holds t nk es) (i : Nat) (hi : i ≤ es.length) :
    node.getOffset i = Except.ok (kvSize (es.take i)) := by
  have hH := HEADER_eq
  have hc := h.count; have hr := h.room; have hs := h.small
  rcases Nat.eq_zero_or_pos i with h0 | h0
  · subst h0; rfl
  · obtain ⟨j, rfl⟩ : ∃ j, i = j + 1 := ⟨i - 1, by omega⟩
    have hj : j < es.length := by omega
    obtain ⟨⟨p, k, v⟩, he⟩ : ∃ e, es[j]? = some e := ⟨es[j], List.getElem?_eq_getElem hj⟩
    have hent := h.entry j p k v he
    rw [getOffset_eq node nk (j + 1) (by omega) h.keys (by omega) (by omega) (by omega) (by omega)]
    rw [Nat.add_sub_cancel, hent.2.1]

theorem Holds_kvPos (h : node.Holds t nk es) (i : Nat) (hi : i ≤ es.length) :
    node.kvPos i = Except.ok (HEADER + 10 * nk + kvSize (es.take i)) := by
  have hH := HEADER_eq
  have hc := h.count; have hr := h.room; have hs := h.small
  have hle := kvSize_take_le es i
  exact kvPos_eq node nk i _ (by omega) h.keys (by omega) (Holds_getOffset h i hi) (by omega)

theorem Holds_getPtr (h : node.Holds t nk es) (i ptr : Nat) (key val : Bytes)
    (he : es[i]? = some (ptr, key, val)) : node.getPtr i = Except.ok ptr := by
  have hH := HEADER_eq
  have hc := h.count; have hr := h.room; have hs := h.small
  have hi : i < es.length := by
    rcases Nat.lt_or_ge i es.length with h1 | h1
    · exact h1
    · rw [List.getElem?_eq_none h1] at he; cases he
  rw [getPtr_eq node nk i (by omega) h.keys (by omega) (by omega) (by omega)]
  rw [(h.entry i ptr key val he).1]

theorem Holds_lt (_h : node.Holds t nk es) (i ptr : Nat) (key val : Bytes)
    (he : es[i]? = some (ptr, key, val)) : i < es.length := by
  rcases Nat.lt_or_ge i es.length with h1 | h1
  · exact h1
  · rw [List.getElem?_eq_none h1] at he; cases he

theorem Holds_getKey (h : node.Holds t nk es) (i ptr : Nat) (key val : Bytes)
    (he : es[i]? = some (ptr, key, val)) : node.getKey i = Except.ok key := by
  have hH := HEADER_eq
  have hc := h.count; have hr := h.room; have hs := h.small
  have hi := Holds_lt h i ptr key val he
  have hent := h.entry i ptr key val he
  have hsucc := kvSize_take_succ es i ptr key val he
  have hle := kvSize_take_le es (i + 1)
  rw [getKey_eq node nk i _ key.len (by omega) h.keys (by omega) (Holds_kvPos h i (by omega))
    hent.2.2.1 (by omega) (by omega), hent.2.2.2.2.1]

theorem Holds_getValue (h : node.Holds t nk es) (i ptr : Nat) (key val : Bytes)
    (he : es[i]? = some (ptr, key, val)) : node.getValue i = Except.ok val := by
  have hH := HEADER_eq
  have hc := h.count; have hr := h.room; have hs := h.small
  have hi := Holds_lt h i ptr key val he
  have hent := h.entry i ptr key val he
  have hsucc := kvSize_take_succ es i ptr key val he
  have hle := kvSize_take_le es (i + 1)
  rw [getValue_eq node nk i _ key.len val.len (by omega) h.keys (by omega)
    (Holds_kvPos h i (by omega)) hent.2.2.1 hent.2.2.2.1 (by omega) (by omega), hent.2.2.2.2.2]

theorem Holds_nkeys (h : node.Holds t nk es) : node.nkeys = Except.ok nk := by
  have hH := HEADER_eq
  have hr := h.room
  rw [nkeys_eq node (by omega), h.keys]

theorem Holds_btype (h : node.Holds t nk es) : node.btype = Except.ok t := by
  have hH := HEADER_eq
  have hr := h.room
  rw [btype_eq node (by omega), h.kind]

theorem Holds_nbytes (h : node.Holds t nk es) (hfull : es.length = nk) :
    node.nbytes = Except.ok (HEADER + 10 * nk + kvSize es) := by
  unfold BNode.nbytes
  rw [Holds_nkeys h, ok_bind, Holds_kvPos h nk (by omega), ← hfull, List.take_length]

end HoldsLemmas

section HoldsWrites

variable {node : BNode} {t nk : Nat} {es : List (Nat × Bytes × Bytes)}

/-- A write outside the header and outside the places of the entries held
keeps them. -/
theorem Holds_write (h : node.Holds t nk es) (off w x : Nat)
    (hfree : (HEADER + 8 * es.length ≤ off ∧ off + w ≤ HEADER + 8 * nk) ∨
      (HEADER + 8 * nk + 2 * es.length ≤ off ∧ off + w ≤ HEADER + 10 * nk) ∨
      HEADER + 10 * nk + kvSize es ≤ off) :
    BNode.Holds ⟨⟨node.data.len, overwrite node.data.val off w x⟩⟩ t nk es := by
  have hH := HEADER_eq
  have hc := h.count
  refine ⟨h.count, h.room, h.small, ?_, ?_, ?_⟩
  · show field (overwrite node.data.val off w x) 0 2 = t
    rw [field_overwrite_disjoint _ _ _ _ _ _ (by omega), h.kind]
  · show field (overwrite node.data.val off w x) 2 2 = nk
    rw [field_overwrite_disjoint _ _ _ _ _ _ (by omega), h.keys]
  · intro i ptr key val he
    have hi := Holds_lt h i ptr key val he
    have hent := h.entry i ptr key val he
    have hsucc := kvSize_take_succ es i ptr key val he
    have hle := kvSize_take_le es (i + 1)
    show field (overwrite node.data.val off w x) _ _ = _ ∧
      field (overwrite node.data.val off w x) _ _ = _ ∧
      field (overwrite node.data.val off w x) _ _ = _ ∧
      field (overwrite node.data.val off w x) _ _ = _ ∧
      field (overwrite node.data.val off w x) _ _ = _ ∧
      field (overwrite node.data.val off w x) _ _ = _
    rw [field_overwrite_disjoint _ _ _ _ _ _ (by omega),
      field_overwrite_disjoint _ _ _ _ _ _ (by omega),
      field_overwrite_disjoint _ _ _ _ _ _ (by omega),
      field_overwrite_disjoint _ _ _ _ _ _ (by omega),
      field_overwrite_disjoint _ _ _ _ _ _ (by omega),
      field_overwrite_disjoint _ _ _ _ _ _ (by omega)]
    exact hent

theorem setHeader_Holds (buf : BNode) (t nk : Nat) (ht : t < 65536) (hnk : nk < 65536)
    (hroom : HEADER + 10 * nk ≤ buf.data.len) (hs : HEADER + 10 * nk < 65536) :
    ∃ node', buf.setHeader t nk = Except.ok node' ∧ node'.Holds t nk [] ∧
      node'.data.len = buf.data.len := by
  have hH := HEADER_eq
  refine ⟨_, setHeader_eq buf t nk (by omega), ⟨by simp, ?_, ?_, ?_, ?_, ?_⟩, rfl⟩
  · simpa [kvSize] using hroom
  · simpa [kvSize] using hs
  · show field (overwrite (overwrite buf.data.val 0 2 t) 2 2 nk) 0 2 = t
    rw [field_overwrite_disjoint _ _ _ _ _ _ (by omega), field_overwrite_same]
    exact Nat.mod_eq_of_lt ht
  · show field (overwrite (overwrite buf.data.val 0 2 t) 2 2 nk) 2 2 = nk
    rw [field_overwrite_same]
    exact Nat.mod_eq_of_lt hnk
  · intro i ptr key val he
    simp at he

end HoldsWrites

theorem mod_pow2_eq {x y : Nat} (h : x < 65536) (e : x = y) : x % 256 ^ 2 = y := by
  subst e; exact Nat.mod_eq_of_lt h

/-- The arithmetic of `nodeAppendKV`: no offset wraps around and every write
lies inside the buffer. -/
theorem nodeAppendKV_arith (len nk j s kl vl pos : Nat) (hlt : j < nk)
    (hroom : 4 + 10 * nk + (s + (4 + kl + vl)) ≤ len)
    (hsmall : 4 + 10 * nk + (s + (4 + kl + vl)) < 65536) (hpos : pos = 4 + 10 * nk + s) :
    (4 ≤ len ∧ 4 + 8 * j + 8 ≤ len ∧ 4 + 8 * j < 65536 ∧ 4 + 8 * j + 8 ≤ 4 + 8 * nk) ∧
    (pos + 0 < 65536 ∧ pos + 2 < 65536 ∧ pos + 4 < 65536 ∧ kl < 65536 ∧ vl < 65536 ∧
      kl + vl < 65536 ∧ pos + 4 + kl < 65536 ∧ s + 4 + (kl + vl) < 65536 ∧ j + 1 < 65536) ∧
    (pos + 2 ≤ len ∧ pos + 2 + 2 ≤ len ∧ pos + 4 + kl ≤ len ∧ pos + 4 + kl + vl ≤ len) ∧
    (1 ≤ j + 1 ∧ j + 1 ≤ nk ∧ 4 + 8 * nk + 2 * (j + 1) < 65536 ∧
      4 + 8 * nk + 2 * (j + 1) ≤ len ∧ 4 + 8 * nk + 2 * j + 2 ≤ 4 + 10 * nk) ∧
    (4 + 10 * nk + s ≤ pos ∧ 4 + 10 * nk + s ≤ pos + 2 ∧ 4 + 10 * nk + s ≤ pos + 4 ∧
      4 + 10 * nk + s ≤ pos + 4 + kl) := by
  omega

theorem nodeAppendKV_Holds {node : BNode} {t nk : Nat} {es : List (Nat × Bytes × Bytes)}
    (h : node.Holds t nk es) (ptr : Nat) (key val : Bytes)
    (hlt : es.length < nk) (hp : ptr < 18446744073709551616)
    (hk : key.val < 256 ^ key.len) (hv : val.val < 256 ^ val.len)
    (hroom : HEADER + 10 * nk + kvSize (es ++ [(ptr, key, val)]) ≤ node.data.len)
    (hsmall : HEADER + 10 * nk + kvSize (es ++ [(ptr, key, val)]) < 65536) :
    ∃ node', nodeAppendKV node es.length ptr key val = Except.ok node' ∧
      node'.Holds t nk (es ++ [(ptr, key, val)]) ∧ node'.data.len = node.data.len := by
  have hS : kvSize (es ++ [(ptr, key, val)]) = kvSize es + (4 + key.len + val.len) := by
    rw [kvSize_append]; simp [kvSize]
  have hroom2 := hroom
  have hsmall2 := hsmall
  rw [hS, HEADER_eq] at hroom2 hsmall2
  obtain ⟨pos, hpos⟩ : ∃ pos, pos = HEADER + 10 * nk + kvSize es := ⟨_, rfl⟩
  have hpos2 := hpos
  rw [HEADER_eq] at hpos2
  obtain ⟨⟨a1, a2, a3, a4⟩, ⟨b0, b1, b2, b3, b4, b5, b6, b7, b8⟩, ⟨c1, c2, c3, c4⟩,
    ⟨d1, d2, d3, d4, d5⟩, ⟨f1, f2, f3, f4⟩⟩ :=
    nodeAppendKV_arith node.data.len nk es.length (kvSize es) key.len val.len pos hlt hroom2
      hsmall2 hpos2
  -- the six writes
  obtain ⟨v1, hv1⟩ : ∃ v1, v1 = overwrite node.data.val (HEADER + 8 * es.length) 8 ptr :=
    ⟨_, rfl⟩
  obtain ⟨v2, hv2⟩ : ∃ v2, v2 = overwrite v1 pos 2 key.len := ⟨_, rfl⟩
  obtain ⟨v3, hv3⟩ : ∃ v3, v3 = overwrite v2 (pos + 2) 2 val.len := ⟨_, rfl⟩
  obtain ⟨v4, hv4⟩ : ∃ v4, v4 = overwrite v3 (pos + 4) key.len key.val := ⟨_, rfl⟩
  obtain ⟨v5, hv5⟩ : ∃ v5, v5 = overwrite v4 (pos + 4 + key.len) val.len val.val := ⟨_, rfl⟩
  obtain ⟨v6, hv6⟩ : ∃ v6, v6 = overwrite v5 (HEADER + 8 * nk + 2 * es.length) 2
    (kvSize es + 4 + (key.len + val.len)) := ⟨_, rfl⟩
  have h1 : BNode.Holds ⟨⟨node.data.len, v1⟩⟩ t nk es := by
    rw [hv1]; exact Holds_write h _ 8 ptr (Or.inl ⟨le_refl _, a4⟩)
  have h2 : BNode.Holds ⟨⟨node.data.len, v2⟩⟩ t nk es := by
    rw [hv2]; exact Holds_write h1 pos 2 key.len (Or.inr (Or.inr f1))
  have h3 : BNode.Holds ⟨⟨node.data.len, v3⟩⟩ t nk es := by
    rw [hv3]; exact Holds_write h2 (pos + 2) 2 val.len (Or.inr (Or.inr f2))
  have h4 : BNode.Holds ⟨⟨node.data.len, v4⟩⟩ t nk es := by
    rw [hv4]; exact Holds_write h3 (pos + 4) key.len key.val (Or.inr (Or.inr f3))
  have h5 : BNode.Holds ⟨⟨node.data.len, v5⟩⟩ t nk es := by
    rw [hv5]
    exact Holds_write h4 (pos + 4 + key.len) val.len val.val (Or.inr (Or.inr f4))
  have h6 : BNode.Holds ⟨⟨node.data.len, v6⟩⟩ t nk es := by
    rw [hv6]; exact Holds_write h5 _ 2 _ (Or.inr (Or.inl ⟨le_refl _, d5⟩))
  have e1 : node.setPtr es.length ptr = Except.ok ⟨⟨node.data.len, v1⟩⟩ := by
    rw [hv1]; exact setPtr_eq node nk es.length ptr a1 h.keys hlt a2 a3
  have epos : BNode.kvPos ⟨⟨node.data.len, v1⟩⟩ es.length = Except.ok pos := by
    rw [Holds_kvPos h1 es.length (le_refl _), List.take_length, hpos]
  have eoff : BNode.getOffset ⟨⟨node.data.len, v5⟩⟩ es.length = Except.ok (kvSize es) := by
    rw [Holds_getOffset h5 es.length (le_refl _), List.take_length]
  have e6 : BNode.setOffset ⟨⟨node.data.len, v5⟩⟩ (es.length + 1)
      (kvSize es + 4 + (key.len + val.len)) = Except.ok ⟨⟨node.data.len, v6⟩⟩ := by
    rw [hv6]
    have := setOffset_eq ⟨⟨node.data.len, v5⟩⟩ nk (es.length + 1)
      (kvSize es + 4 + (key.len + val.len)) a1 h5.keys d1 d2 d3 d4
    rw [Nat.add_sub_cancel] at this
    exact this
  refine ⟨⟨⟨node.data.len, v6⟩⟩, ?_, ?_, rfl⟩
  · have hp0 : u16 (pos + 0) = pos := u16_of_lt b0
    have hp2 : u16 (pos + 2) = pos + 2 := u16_of_lt b1
    have hp4 : u16 (pos + 4) = pos + 4 := u16_of_lt b2
    have hkl : u16 key.len = key.len := u16_of_lt b3
    have hvl : u16 val.len = val.len := u16_of_lt b4
    have hkv : u16 (key.len + val.len) = key.len + val.len := u16_of_lt b5
    have hp5 : u16 (pos + 4 + key.len) = pos + 4 + key.len := u16_of_lt b6
    have ho : u16 (kvSize es + 4 + (key.len + val.len)) = kvSize es + 4 + (key.len + val.len) :=
      u16_of_lt b7
    have hi1 : u16 (es.length + 1) = es.length + 1 := u16_of_lt b8
    have w2 : putUint16At ⟨node.data.len, v1⟩ pos key.len = Except.ok ⟨node.data.len, v2⟩ := by
      rw [hv2]; exact put16 _ _ _ c1
    have w3 : putUint16At ⟨node.data.len, v2⟩ (pos + 2) val.len
        = Except.ok ⟨node.data.len, v3⟩ := by
      rw [hv3]; exact put16 _ _ _ c2
    have w4 : copyAt ⟨node.data.len, v3⟩ (pos + 4) key = Except.ok ⟨node.data.len, v4⟩ := by
      rw [hv4]; exact copyAt_fits _ _ _ c3
    have w5 : copyAt ⟨node.data.len, v4⟩ (pos + 4 + key.len) val
        = Except.ok ⟨node.data.len, v5⟩ := by
      rw [hv5]; exact copyAt_fits _ _ _ c4
    simp only [nodeAppendKV, e1, ok_bind, epos, hp0, hp2, hp4, hkl, hvl, hkv, hp5, hi1, w2, w3,
      w4, w5, eoff, ho, e6]
  · have hc := h.count
    refine ⟨by simp; exact hlt, hroom, hsmall, h6.kind, h6.keys, ?_⟩
    intro i p k v he
    rcases Nat.lt_or_ge i es.length with hi | hi
    · rw [List.getElem?_append_left hi] at he
      have hent := h6.entry i p k v he
      rw [List.take_append_of_le_length (Nat.succ_le_of_lt hi),
        List.take_append_of_le_length (Nat.le_of_lt hi)]
      exact hent
    · have hi2 : i = es.length := by
        rcases Nat.lt_or_ge es.length i with h7 | h7
        · rw [List.getElem?_eq_none (by simp; exact h7)] at he; cases he
        · exact Nat.le_antisymm h7 hi
      subst hi2
      rw [List.getElem?_append_right (le_refl _)] at he
      simp at he
      obtain ⟨rfl, rfl, rfl⟩ := he
      have t1 : List.take (es.length + 1) (es ++ [(ptr, key, val)]) = es ++ [(ptr, key, val)] := by
        rw [List.take_of_length_le (by simp)]
      have t2 : List.take es.length (es ++ [(ptr, key, val)]) = es := by
        rw [List.take_left']; rfl
      rw [t1, t2, hS]
      show field v6 _ _ = _ ∧ field v6 _ _ = _ ∧ field v6 _ _ = _ ∧ field v6 _ _ = _ ∧
        field v6 _ _ = _ ∧ field v6 _ _ = _
      rw [← hpos]
      clear h1 h2 h3 h4 h5 h6 e1 epos eoff e6 hroom hsmall t1 t2 hS h hi
      rw [HEADER_eq] at *
      refine ⟨?_, ?_, ?_, ?_, ?_, ?_⟩
      · rw [hv6, hv5, hv4, hv3, hv2, hv1]
        clear hv1 hv2 hv3 hv4 hv5 hv6 hk hv
        rw [field_overwrite_disjoint _ _ _ _ _ _ (by omega),
          field_overwrite_disjoint _ _ _ _ _ _ (by omega),
          field_overwrite_disjoint _ _ _ _ _ _ (by omega),
          field_overwrite_disjoint _ _ _ _ _ _ (by omega),
          field_overwrite_disjoint _ _ _ _ _ _ (by omega), field_overwrite_same]
        exact Nat.mod_eq_of_lt hp
      · rw [hv6, field_overwrite_same]
        exact mod_pow2_eq b7 (by omega)
      · rw [hv6, hv5, hv4, hv3, hv2]
        clear hv1 hv2 hv3 hv4 hv5 hv6 hk hv hp
        rw [field_overwrite_disjoint _ _ _ _ _ _ (by omega),
          field_overwrite_disjoint _ _ _ _ _ _ (by omega),
          field_overwrite_disjoint _ _ _ _ _ _ (by omega),
          field_overwrite_disjoint _ _ _ _ _ _ (by omega), field_overwrite_same]
        exact mod_pow2_eq b3 rfl
      · rw [hv6, hv5, hv4, hv3]
        clear hv1 hv2 hv3 hv4 hv5 hv6 hk hv hp
        rw [field_overwrite_disjoint _ _ _ _ _ _ (by omega),
          field_overwrite_disjoint _ _ _ _ _ _ (by omega),
          field_overwrite_disjoint _ _ _ _ _ _ (by omega), field_overwrite_same]
        exact mod_pow2_eq b4 rfl
      · rw [hv6, hv5, hv4]
        clear hv1 hv2 hv3 hv4 hv5 hv6 hv hp
        rw [field_overwrite_disjoint _ _ _ _ _ _ (by omega),
          field_overwrite_disjoint _ _ _ _ _ _ (by omega), field_overwrite_same]
        exact Nat.mod_eq_of_lt hk
      · rw [hv6, hv5]
        clear hv1 hv2 hv3 hv4 hv5 hv6 hk hp
        rw [field_overwrite_disjoint _ _ _ _ _ _ (by omega), field_overwrite_same]
        exact Nat.mod_eq_of_lt hv

/-- A change of the buffer confined to a free part of it keeps the entries held. -/
theorem Holds_of_frame {node node' : BNode} {t nk : Nat} {es : List (Nat × Bytes × Bytes)}
    (h : node.Holds t nk es) (hlen : node'.data.len = node.data.len) (lo hi : Nat)
    (hframe : ∀ o w, o + w ≤ lo ∨ hi ≤ o →
      field node'.data.val o w = field node.data.val o w)
    (hfree : (HEADER + 8 * es.length ≤ lo ∧ hi ≤ HEADER + 8 * nk) ∨
      (HEADER + 8 * nk + 2 * es.length ≤ lo ∧ hi ≤ HEADER + 10 * nk) ∨
      HEADER + 10 * nk + kvSize es ≤ lo) :
    node'.Holds t nk es := by
  have hH := HEADER_eq
  have hc := h.count
  refine ⟨h.count, by rw [hlen]; exact h.room, h.small, ?_, ?_, ?_⟩
  · rw [hframe _ _ (by omega), h.kind]
  · rw [hframe _ _ (by omega), h.keys]
  · intro i ptr key val he
    have hi := Holds_lt h i ptr key val he
    have hent := h.entry i ptr key val he
    have hsucc := kvSize_take_succ es i ptr key val he
    have hle := kvSize_take_le es (i + 1)
    rw [hframe _ _ (by omega), hframe _ _ (by omega), hframe _ _ (by omega),
      hframe _ _ (by omega), hframe _ _ (by omega), hframe _ _ (by omega)]
    exact hent

theorem nodeAppendRange_ptrs_spec (old : BNode) (P : Nat → Nat) (nkn dst src n : Nat)
    (hP : ∀ k, k < n → old.getPtr (src + k) = Except.ok (P k))
    (hP64 : ∀ k, P k < 18446744073709551616)
    (hdst : dst + n ≤ nkn) (hsmall : HEADER + 8 * nkn < 65536) (hsrc : src + n < 65536) :
    ∀ (fuel i : Nat) (new : BNode), n - i < fuel → i ≤ n → field new.data.val 2 2 = nkn →
      HEADER + 8 * nkn ≤ new.data.len →
      ∃ new', nodeAppendRange.ptrs old dst src n fuel i new = Except.ok new' ∧
        new'.data.len = new.data.len ∧
        (∀ o w, o + w ≤ HEADER + 8 * (dst + i) ∨ HEADER + 8 * (dst + n) ≤ o →
          field new'.data.val o w = field new.data.val o w) ∧
        (∀ k, i ≤ k → k < n → field new'.data.val (HEADER + 8 * (dst + k)) 8 = P k) := by
  have hH := HEADER_eq
  intro fuel
  induction fuel with
  | zero => intro i new hf; omega
  | succ fuel ih =>
    intro i new hf hi hnk hlen
    unfold nodeAppendRange.ptrs
    by_cases hin : i < n
    · rw [if_pos hin, u16_of_lt (show src + i < 65536 by omega), hP i hin, ok_bind,
        u16_of_lt (show dst + i < 65536 by omega), u16_of_lt (show i + 1 < 65536 by omega),
        setPtr_eq new nkn (dst + i) (P i) (by omega) hnk (by omega) (by omega) (by omega),
        ok_bind]
      obtain ⟨new', e, hl, hfr, hfa⟩ := ih (i + 1)
        ⟨⟨new.data.len, overwrite new.data.val (HEADER + 8 * (dst + i)) 8 (P i)⟩⟩
        (by omega) (by omega)
        (by show field (overwrite _ _ _ _) 2 2 = nkn
            rw [field_overwrite_disjoint _ _ _ _ _ _ (by omega), hnk])
        hlen
      refine ⟨new', e, hl, ?_, ?_⟩
      · intro o w how
        rw [hfr o w (by omega)]
        exact field_overwrite_disjoint _ _ _ _ _ _ (by omega)
      · intro k hik hkn
        rcases Nat.eq_or_lt_of_le hik with h1 | h1
        · subst h1
          rw [hfr _ _ (by omega)]
          show field (overwrite _ _ _ _) _ _ = _
          rw [field_overwrite_same]
          exact Nat.mod_eq_of_lt (hP64 i)
        · exact hfa k (by omega) hkn
    · rw [if_neg hin]
      exact ⟨new, rfl, rfl, fun _ _ _ => rfl, fun k h1 h2 => by omega⟩

theorem sub16_add (b1 o b2 : Nat) (h1 : b2 ≤ o) (h2 : b1 + (o - b2) < 65536) (h3 : o < 65536) :
    sub16 (u16 (b1 + o)) b2 = b1 + (o - b2) := by
  unfold sub16 u16
  omega

theorem nodeAppendRange_offsets_spec (old : BNode) (O : Nat → Nat) (nkn dst src n b1 b2 : Nat)
    (hO : ∀ k, 1 ≤ k → k ≤ n → old.getOffset (src + k) = Except.ok (O k))
    (hO1 : ∀ k, 1 ≤ k → k ≤ n → b2 ≤ O k ∧ O k < 65536 ∧ b1 + (O k - b2) < 65536)
    (hdst : dst + n ≤ nkn) (hsmall : HEADER + 10 * nkn < 65536) (hsrc : src + n < 65536) :
    ∀ (fuel i : Nat) (new : BNode), n + 1 - i < fuel → 1 ≤ i → i ≤ n + 1 →
      field new.data.val 2 2 = nkn → HEADER + 10 * nkn ≤ new.data.len →
      ∃ new', nodeAppendRange.offsets old dst src n b1 b2 fuel i new = Except.ok new' ∧
        new'.data.len = new.data.len ∧
        (∀ o w, o + w ≤ HEADER + 8 * nkn + 2 * (dst + i - 1) ∨
            HEADER + 8 * nkn + 2 * (dst + n) ≤ o →
          field new'.data.val o w = field new.data.val o w) ∧
        (∀ k, i ≤ k → k ≤ n →
          field new'.data.val (HEADER + 8 * nkn + 2 * (dst + k - 1)) 2 = b1 + (O k - b2)) := by
  have hH := HEADER_eq
  intro fuel
  induction fuel with
  | zero => intro i new hf; omega
  | succ fuel ih =>
    intro i new hf h1 hi hnk hlen
    unfold nodeAppendRange.offsets
    by_cases hin : i ≤ n
    · have hOi := hO1 i h1 hin
      rw [if_pos hin, u16_of_lt (show src + i < 65536 by omega), hO i h1 hin, ok_bind,
        u16_of_lt (show dst + i < 65536 by omega), u16_of_lt (show i + 1 < 65536 by omega),
        sub16_add b1 (O i) b2 hOi.1 hOi.2.2 hOi.2.1,
        setOffset_eq new nkn (dst + i) _ (by omega) hnk (by omega) (by omega) (by omega)
          (by omega), ok_bind]
      obtain ⟨new', e, hl, hfr, hfa⟩ := ih (i + 1)
        ⟨⟨new.data.len, overwrite new.data.val (HEADER + 8 * nkn + 2 * (dst + i - 1)) 2
          (b1 + (O i - b2))⟩⟩
        (by omega) (by omega) (by omega)
        (by show field (overwrite _ _ _ _) 2 2 = nkn
            rw [field_overwrite_disjoint _ _ _ _ _ _ (by omega), hnk])
        hlen
      refine ⟨new', e, hl, ?_, ?_⟩
      · intro o w how
        rw [hfr o w (by omega)]
        exact field_overwrite_disjoint _ _ _ _ _ _ (by omega)
      · intro k hik hkn
        rcases Nat.eq_or_lt_of_le hik with h2 | h2
        · subst h2
          rw [hfr _ _ (by omega)]
          show field (overwrite _ _ _ _) _ _ = _
          rw [field_overwrite_same]
          exact mod_pow2_eq (by omega) rfl
        · exact hfa k (by omega) hkn
    · rw [if_neg hin]
      exact ⟨new, rfl, rfl, fun _ _ _ => rfl, fun k h1 h2 => by omega⟩

theorem field_field (v a w d w' : Nat) (h : d + w' ≤ w) :
    field (field v a w) d w' = field v (a + d) w' := by
  unfold field
  rw [mod_field _ _ _ _ h, Nat.div_div_eq_div_mul, ← pow_add]

theorem field_copy (v pos L ov begin_ d w' : Nat) (h : d + w' ≤ L) :
    field (overwrite v pos L (field ov begin_ L)) (pos + d) w' = field ov (begin_ + d) w' := by
  rw [field_overwrite_inside _ _ _ _ _ _ h, field_field _ _ _ _ _ h]

theorem kvSize_drop_take (es : List (Nat × Bytes × Bytes)) (src m : Nat) :
    kvSize (es.take (src + m)) = kvSize (es.take src) + kvSize ((es.drop src).take m) := by
  rw [List.take_add, kvSize_append]

theorem slice_ok (s : Bytes) (lo hi : Nat) (h1 : lo ≤ hi) (h2 : hi ≤ s.len) :
    slice s lo hi = Except.ok ⟨hi - lo, field s.val lo (hi - lo)⟩ := by
  simp [slice, h1, h2]; rfl

theorem nodeAppendRange_Holds {new old : BNode} {tn nkn tl nko : Nat}
    {esn eso : List (Nat × Bytes × Bytes)} (src n : Nat)
    (hold : old.Holds tl nko eso) (hfull : eso.length = nko) (hnew : new.Holds tn nkn esn)
    (hsrc : src + n ≤ nko) (hdst : esn.length + n ≤ nkn)
    (hroom : HEADER + 10 * nkn + kvSize (esn ++ (eso.drop src).take n) ≤ new.data.len)
    (hsmall : HEADER + 10 * nkn + kvSize (esn ++ (eso.drop src).take n) < 65536) :
    ∃ new', nodeAppendRange new old esn.length src n = Except.ok new' ∧
      new'.Holds tn nkn (esn ++ (eso.drop src).take n) ∧ new'.data.len = new.data.len := by
  have hH := HEADER_eq
  rw [kvSize_append] at hroom hsmall
  have hos := hold.small; have hor := hold.room
  have hS := kvSize_drop_take eso src n
  have hSle := kvSize_take_le eso (src + n)
  have hmono : ∀ k, k ≤ n → kvSize (eso.take src) ≤ kvSize (eso.take (src + k)) ∧
      kvSize (eso.take (src + k)) ≤ kvSize (eso.take (src + n)) := fun k hk =>
    ⟨kvSize_take_mono eso _ _ (by omega), kvSize_take_mono eso _ _ (by omega)⟩
  -- pointers
  obtain ⟨new1, e1, hl1, hfr1, hfa1⟩ := nodeAppendRange_ptrs_spec old
    (fun k => field old.data.val (HEADER + 8 * (src + k)) 8) nkn esn.length src n
    (fun k hk => getPtr_eq old nko (src + k) (by omega) hold.keys (by omega) (by omega)
      (by omega))
    (fun k => field_lt _ _ _) hdst (by omega) (by omega) LOOP16 0 new
    (by unfold LOOP16; omega) (by omega) hnew.keys (by have := hnew.room; omega)
  have hH1 : new1.Holds tn nkn esn :=
    Holds_of_frame hnew hl1 _ _ hfr1 (Or.inl ⟨by omega, by omega⟩)
  -- offsets
  obtain ⟨new2, e2, hl2, hfr2, hfa2⟩ := nodeAppendRange_offsets_spec old
    (fun k => kvSize (eso.take (src + k))) nkn esn.length src n (kvSize esn)
    (kvSize (eso.take src))
    (fun k _ hk => Holds_getOffset hold (src + k) (by omega))
    (fun k _ hk => by have := hmono k hk; dsimp only; omega) hdst (by omega) (by omega) LOOP16 1 new1
    (by unfold LOOP16; omega) (by omega) (by omega) hH1.keys (by have := hH1.room; omega)
  have hH2 : new2.Holds tn nkn esn :=
    Holds_of_frame hH1 hl2 _ _ hfr2 (Or.inr (Or.inl ⟨by omega, by omega⟩))
  -- key-values
  obtain ⟨new3, hn3, hH3⟩ : ∃ new3 : BNode, new3 = ⟨⟨new2.data.len, overwrite new2.data.val
        (HEADER + 10 * nkn + kvSize esn)
        (HEADER + 10 * nko + kvSize (eso.take (src + n)) -
          (HEADER + 10 * nko + kvSize (eso.take src)))
        (field old.data.val (HEADER + 10 * nko + kvSize (eso.take src))
          (HEADER + 10 * nko + kvSize (eso.take (src + n)) -
            (HEADER + 10 * nko + kvSize (eso.take src))))⟩⟩ ∧ new3.Holds tn nkn esn :=
    ⟨_, rfl, Holds_write hH2 _ _ _ (Or.inr (Or.inr (le_refl _)))⟩
  refine ⟨new3, ?_, ?_, ?_⟩
  · unfold nodeAppendRange
    rw [Holds_nkeys hold, Holds_nkeys hnew, ok_bind, ok_bind,
      u16_of_lt (show src + n < 65536 by omega),
      u16_of_lt (show esn.length + n < 65536 by omega),
      assert_true (by simpa using hsrc), ok_bind, assert_true (by simpa using hdst), ok_bind,
      e1, ok_bind, Holds_getOffset hH1 esn.length (le_refl _), ok_bind, List.take_length,
      Holds_getOffset hold src (by omega), ok_bind, e2, ok_bind,
      Holds_kvPos hold src (by omega), ok_bind, Holds_kvPos hold (src + n) (by omega), ok_bind,
      Holds_kvPos hH2 esn.length (le_refl _), ok_bind, List.take_length,
      slice_ok _ _ _ (by omega) (by omega), ok_bind,
      copyAt_fits _ _ _ (by show _ + (_ - _) ≤ _; omega), ok_bind, hn3]
    rfl
  · subst hn3
    refine ⟨by simp; omega, by rw [kvSize_append]; show _ ≤ new2.data.len; rw [hl2, hl1]; exact hroom,
      by rw [kvSize_append]; exact hsmall, hH3.kind, hH3.keys, ?_⟩
    intro i p k v he
    rcases Nat.lt_or_ge i esn.length with hi | hi
    · rw [List.getElem?_append_left hi] at he
      have hent := hH3.entry i p k v he
      rw [List.take_append_of_le_length (by omega), List.take_append_of_le_length (by omega)]
      exact hent
    · obtain ⟨j, rfl⟩ : ∃ j, i = esn.length + j := ⟨i - esn.length, by omega⟩
      rw [List.getElem?_append_right (by omega), Nat.add_sub_cancel_left] at he
      have hj : j < n := by
        rcases Nat.lt_or_ge j n with h1 | h1
        · exact h1
        · rw [List.getElem?_eq_none (by simp; omega)] at he; cases he
      rw [List.getElem?_take_of_lt hj, List.getElem?_drop] at he
      have hent := hold.entry (src + j) p k v he
      have hsucc := kvSize_take_succ eso (src + j) p k v he
      have hm1 := hmono j (by omega)
      have hm2 := hmono (j + 1) (by omega)
      have hm3 := hm2
      rw [← Nat.add_assoc] at hm3
      have t1 : kvSize (List.take (esn.length + j + 1) (esn ++ (eso.drop src).take n))
          = kvSize esn + (kvSize (eso.take (src + (j + 1))) - kvSize (eso.take src)) := by
        rw [Nat.add_assoc, List.take_append, kvSize_append, List.take_take,
          Nat.min_eq_left (by omega), kvSize_drop_take eso src (j + 1)]
        omega
      have t2 : kvSize (List.take (esn.length + j) (esn ++ (eso.drop src).take n))
          = kvSize esn + (kvSize (eso.take (src + j)) - kvSize (eso.take src)) := by
        rw [List.take_append, kvSize_append, List.take_take,
          Nat.min_eq_left (by omega), kvSize_drop_take eso src j]
        omega
      rw [t1, t2]
      have hmid := kvSize_drop_take eso src n
      refine ⟨?_, ?_, ?_, ?_, ?_, ?_⟩
      · show field (overwrite _ _ _ _) _ _ = _
        rw [field_overwrite_disjoint _ _ _ _ _ _ (by omega), hfr2 _ _ (by omega),
          hfa1 j (by omega) hj]
        exact hent.1
      · show field (overwrite _ _ _ _) _ _ = _
        rw [field_overwrite_disjoint _ _ _ _ _ _ (by omega)]
        have := hfa2 (j + 1) (by omega) (by omega)
        rw [show esn.length + (j + 1) - 1 = esn.length + j by omega] at this
        exact this
      · show field (overwrite _ _ _ _) _ _ = _
        rw [show HEADER + 10 * nkn + (kvSize esn + (kvSize (eso.take (src + j)) -
            kvSize (eso.take src))) = HEADER + 10 * nkn + kvSize esn +
            (kvSize (eso.take (src + j)) - kvSize (eso.take src)) by omega,
          field_copy _ _ _ _ _ _ _ (by omega),
          show HEADER + 10 * nko + kvSize (eso.take src) +
            (kvSize (eso.take (src + j)) - kvSize (eso.take src))
            = HEADER + 10 * nko + kvSize (eso.take (src + j)) by omega]
        exact hent.2.2.1
      · show field (overwrite _ _ _ _) _ _ = _
        rw [show HEADER + 10 * nkn + (kvSize esn + (kvSize (eso.take (src + j)) -
            kvSize (eso.take src))) + 2 = HEADER + 10 * nkn + kvSize esn +
            (kvSize (eso.take (src + j)) - kvSize (eso.take src) + 2) by omega,
          field_copy _ _ _ _ _ _ _ (by omega),
          show HEADER + 10 * nko + kvSize (eso.take src) +
            (kvSize (eso.take (src + j)) - kvSize (eso.take src) + 2)
            = HEADER + 10 * nko + kvSize (eso.take (src + j)) + 2 by omega]
        exact hent.2.2.2.1
      · show field (overwrite _ _ _ _) _ _ = _
        rw [show HEADER + 10 * nkn + (kvSize esn + (kvSize (eso.take (src + j)) -
            kvSize (eso.take src))) + 4 = HEADER + 10 * nkn + kvSize esn +
            (kvSize (eso.take (src + j)) - kvSize (eso.take src) + 4) by omega,
          field_copy _ _ _ _ _ _ _ (by omega),
          show HEADER + 10 * nko + kvSize (eso.take src) +
            (kvSize (eso.take (src + j)) - kvSize (eso.take src) + 4)
            = HEADER + 10 * nko + kvSize (eso.take (src + j)) + 4 by omega]
        exact hent.2.2.2.2.1
      · show field (overwrite _ _ _ _) _ _ = _
        rw [show HEADER + 10 * nkn + (kvSize esn + (kvSize (eso.take (src + j)) -
            kvSize (eso.take src))) + 4 + k.len = HEADER + 10 * nkn + kvSize esn +
            (kvSize (eso.take (src + j)) - kvSize (eso.take src) + 4 + k.len) by omega,
          field_copy _ _ _ _ _ _ _ (by omega),
          show HEADER + 10 * nko + kvSize (eso.take src) +
            (kvSize (eso.take (src + j)) - kvSize (eso.take src) + 4 + k.len)
            = HEADER + 10 * nko + kvSize (eso.take (src + j)) + 4 + k.len by omega]
        exact hent.2.2.2.2.2
  · subst hn3
    show new2.data.len = new.data.len
    rw [hl2, hl1]

theorem build_entries_Holds (t nk : Nat) :
    ∀ (more es : List (Nat × Bytes × Bytes)) (node : BNode), node.Holds t nk es →
      es.length + more.length ≤ nk →
      (∀ e ∈ more, e.1 < 18446744073709551616 ∧ e.2.1.val < 256 ^ e.2.1.len ∧
        e.2.2.val < 256 ^ e.2.2.len) →
      HEADER + 10 * nk + kvSize (es ++ more) ≤ node.data.len →
      HEADER + 10 * nk + kvSize (es ++ more) < 65536 →
      ∃ node', BNode.build.entries more es.length node = Except.ok node' ∧
        node'.Holds t nk (es ++ more) ∧ node'.data.len = node.data.len := by
  intro more
  induction more with
  | nil =>
    intro es node h _ _ _ _
    exact ⟨node, rfl, by simpa using h, rfl⟩
  | cons e more ih =>
    intro es node h hlen hval hroom hsmall
    obtain ⟨p, k, v⟩ := e
    have hv := hval (p, k, v) (List.mem_cons_self _ _)
    have e1 : es ++ (p, k, v) :: more = (es ++ [(p, k, v)]) ++ more := by simp
    rw [e1] at hroom hsmall
    have hr := hroom; have hs := hsmall
    rw [kvSize_append] at hr hs
    simp only [List.length_cons] at hlen
    obtain ⟨node1, a1, h1, l1⟩ := nodeAppendKV_Holds h p k v (by omega) hv.1 hv.2.1 hv.2.2
      (by omega) (by omega)
    obtain ⟨node2, a2, h2, l2⟩ := ih (es ++ [(p, k, v)]) node1 h1
      (by simp; omega) (fun e he => hval e (List.mem_cons_of_mem _ he))
      (by rw [l1]; exact hroom) hsmall
    refine ⟨node2, ?_, by rw [e1]; exact h2, by rw [l2, l1]⟩
    unfold BNode.build.entries
    rw [a1, ok_bind]
    simpa using a2

theorem entries_Holds (buf : BNode) (t nk : Nat) (es : List (Nat × Bytes × Bytes))
    (ht : t < 65536) (hcount : es.length ≤ nk)
    (hes : ∀ e ∈ es, e.1 < 18446744073709551616 ∧ e.2.1.val < 256 ^ e.2.1.len ∧
      e.2.2.val < 256 ^ e.2.2.len)
    (hroom : HEADER + 10 * nk + kvSize es ≤ buf.data.len)
    (hsmall : HEADER + 10 * nk + kvSize es < 65536) :
    ∃ node, (buf.setHeader t nk >>= BNode.build.entries es 0) = Except.ok node ∧
      node.Holds t nk es ∧ node.data.len = buf.data.len := by
  have hH := HEADER_eq
  obtain ⟨node0, e0, h0, l0⟩ := setHeader_Holds buf t nk ht (by omega) (by omega) (by omega)
  obtain ⟨node1, e1, h1, l1⟩ := build_entries_Holds t nk es [] node0 h0 (by simpa using hcount)
    hes (by rw [l0]; simpa using hroom) (by simpa using hsmall)
  refine ⟨node1, ?_, by simpa using h1, by rw [l1, l0]⟩
  rw [e0, ok_bind]
  simpa using e1

theorem Holds_of_entries (buf : BNode) {node : BNode} {t nk : Nat} {es : List (Nat × Bytes × Bytes)}
    (h : (buf.setHeader t nk >>= BNode.build.entries es 0) = Except.ok node)
    (ht : t < 65536) (hcount : es.length ≤ nk)
    (hes : ∀ e ∈ es, e.1 < 18446744073709551616 ∧ e.2.1.val < 256 ^ e.2.1.len ∧
      e.2.2.val < 256 ^ e.2.2.len)
    (hroom : HEADER + 10 * nk + kvSize es ≤ buf.data.len)
    (hsmall : HEADER + 10 * nk + kvSize es < 65536) : node.Holds t nk es := by
  obtain ⟨node1, e1, h1, _⟩ := entries_Holds buf t nk es ht hcount hes hroom hsmall
  rw [h] at e1
  cases e1
  exact h1

/-! ### Chains of free-list pages -/

theorem FREE_LIST_HEADER_eq : FREE_LIST_HEADER = 20 := rfl

theorem FREE_LIST_CAP_eq : FREE_LIST_CAP = 509 := rfl

theorem pageHolds_iff (node : BNode) (next : Nat) (ptrs : List Nat) :
    pageHolds node next ptrs = true ↔
      ptrs.length ≤ FREE_LIST_CAP ∧ flnSize node = Except.ok ptrs.length ∧
      flnNext node = Except.ok next ∧
      ∀ i, i < ptrs.length → flnPtr node i = Except.ok (ptrs.getD i 0) := by
  simp only [pageHolds, Bool.and_eq_true, decide_eq_true_eq, List.all_eq_true, List.mem_range,
    and_assoc]

theorem isChain_nil (get : Nat → Res BNode) (head : Nat) :
    isChain get head [] = true ↔ head = 0 := by
  simp [isChain]

theorem isChain_cons (get : Nat → Res BNode) (head p : Nat) (ptrs : List Nat)
    (rest : List (Nat × List Nat)) :
    isChain get head ((p, ptrs) :: rest) = true ↔
      head = p ∧ p ≠ 0 ∧ ∃ node, get p = Except.ok node ∧
        pageHolds node (chainHead rest) ptrs = true ∧
        isChain get (chainHead rest) rest = true := by
  simp only [isChain, Bool.and_eq_true, decide_eq_true_eq, and_assoc]
  constructor
  · rintro ⟨h1, h2, h3⟩
    refine ⟨h1, h2, ?_⟩
    cases hg : get p with
    | error e => rw [hg] at h3; cases h3
    | ok node =>
      rw [hg] at h3
      simp only [Bool.and_eq_true] at h3
      exact ⟨node, rfl, h3.1, h3.2⟩
  · rintro ⟨h1, h2, node, hg, h3, h4⟩
    refine ⟨h1, h2, ?_⟩
    rw [hg]
    simp only [Bool.and_eq_true]
    exact ⟨h3, h4⟩

theorem chainTotal_cons (p : Nat) (ptrs : List Nat) (rest : List (Nat × List Nat)) :
    chainTotal ((p, ptrs) :: rest) = ptrs.length + chainTotal rest := by
  simp [chainTotal]

theorem chainPtrs_cons (p : Nat) (ptrs : List Nat) (rest : List (Nat × List Nat)) :
    chainPtrs ((p, ptrs) :: rest) = ptrs.reverse ++ chainPtrs rest := by
  simp [chainPtrs]

section ChainLemmas

variable {σ : Type}

theorem FreeList_Get_loop_spec (fl : FreeList σ) (s : σ) :
    ∀ (pages : List (Nat × List Nat)) (head : Nat) (node : BNode) (topn fuel : Nat),
      isChain (fl.get s) head pages = true → fl.get s head = Except.ok node →
      topn < chainTotal pages → pages.length ≤ fuel →
      ∃ node' topn' size' ptr, FreeList.Get.loop fl s fuel node topn = Except.ok (node', topn') ∧
        flnSize node' = Except.ok size' ∧ flnPtr node' (size' - topn' - 1) = Except.ok ptr ∧
        (chainPtrs pages)[topn]? = some ptr := by
  intro pages
  induction pages with
  | nil =>
    intro head node topn fuel _ _ ht
    simp [chainTotal] at ht
  | cons pg rest ih =>
    intro head node topn fuel hc hg ht hf
    obtain ⟨p, ptrs⟩ := pg
    rw [isChain_cons] at hc
    obtain ⟨rfl, hp0, node0, hg0, hph, hrest⟩ := hc
    rw [hg] at hg0
    cases hg0
    rw [pageHolds_iff] at hph
    obtain ⟨_, hsize, hnext, hptr⟩ := hph
    rw [chainTotal_cons] at ht
    rw [chainPtrs_cons]
    obtain ⟨fuel, rfl⟩ : ∃ f, fuel = f + 1 := ⟨fuel - 1, by simp at hf; omega⟩
    unfold FreeList.Get.loop
    rw [hsize, ok_bind]
    by_cases hle : ptrs.length ≤ topn
    · rw [if_pos hle, hnext, ok_bind]
      cases rest with
      | nil => simp [chainTotal] at ht; omega
      | cons pg2 rest2 =>
        obtain ⟨q, qptrs⟩ := pg2
        have hrest2 := hrest
        rw [isChain_cons] at hrest2
        obtain ⟨hq, hq0, nodeq, hgq, _, _⟩ := hrest2
        have hq' : chainHead ((q, qptrs) :: rest2) = q := rfl
        rw [hq'] at hrest ⊢
        rw [assert_true (by simpa using hq0), ok_bind, hgq, ok_bind]
        obtain ⟨node', topn', size', ptr, e1, e2, e3, e4⟩ :=
          ih q nodeq (topn - ptrs.length) fuel hrest hgq (by omega) (by simp at hf ⊢; omega)
        refine ⟨node', topn', size', ptr, e1, e2, e3, ?_⟩
        rw [List.getElem?_append_right (by simpa using hle), List.length_reverse]
        exact e4
    · rw [if_neg hle]
      have hk : ptrs.length - topn - 1 = ptrs.length - 1 - topn := by omega
      refine ⟨node, topn, ptrs.length, ptrs.getD (ptrs.length - 1 - topn) 0, rfl, hsize,
        by rw [hk]; exact hptr _ (by omega), ?_⟩
      rw [List.getElem?_append_left (by simp; omega), List.getElem?_reverse (by omega),
        List.getD_eq_getElem?_getD, List.getElem?_eq_getElem (by omega)]
      rfl

end ChainLemmas

/-! ### Free-list pages -/

theorem sliceFrom_inv {s b : Bytes} {lo : Nat} (h : sliceFrom s lo = Except.ok b) :
    lo ≤ s.len ∧ b = ⟨s.len - lo, s.val / 256 ^ lo⟩ := by
  unfold sliceFrom at h
  split at h
  · cases h; exact ⟨‹_›, rfl⟩
  · cases h

theorem leUint16_inv {b : Bytes} {x : Nat} (h : leUint16 b = Except.ok x) :
    2 ≤ b.len ∧ x = b.val % 65536 := by
  unfold leUint16 at h
  split at h
  · cases h; exact ⟨‹_›, rfl⟩
  · cases h

theorem leUint64_inv {b : Bytes} {x : Nat} (h : leUint64 b = Except.ok x) :
    8 ≤ b.len ∧ x = b.val % 18446744073709551616 := by
  unfold leUint64 at h
  split at h
  · cases h; exact ⟨‹_›, rfl⟩
  · cases h

theorem flnSize_eq (node : BNode) (h : 4 ≤ node.data.len) :
    flnSize node = Except.ok (field node.data.val 2 2) := by
  unfold flnSize
  exact read16 node.data 2 (by omega)

theorem flnSize_inv {node : BNode} {k : Nat} (h : flnSize node = Except.ok k) :
    4 ≤ node.data.len ∧ field node.data.val 2 2 = k := by
  simp only [flnSize, bind_eq_ok] at h
  obtain ⟨b, h1, h2⟩ := h
  obtain ⟨h3, rfl⟩ := sliceFrom_inv h1
  obtain ⟨h4, rfl⟩ := leUint16_inv h2
  exact ⟨by simp at h4; omega, rfl⟩

theorem flnNext_eq (node : BNode) (h : 20 ≤ node.data.len) :
    flnNext node = Except.ok (field node.data.val 12 8) := by
  unfold flnNext
  exact read64 node.data 12 (by omega)

theorem flnNext_inv {node : BNode} {k : Nat} (h : flnNext node = Except.ok k) :
    20 ≤ node.data.len ∧ field node.data.val 12 8 = k := by
  simp only [flnNext, bind_eq_ok] at h
  obtain ⟨b, h1, h2⟩ := h
  obtain ⟨h3, rfl⟩ := sliceFrom_inv h1
  obtain ⟨h4, rfl⟩ := leUint64_inv h2
  exact ⟨by simp at h4; omega, rfl⟩

theorem flnPtr_eq (node : BNode) (i : Nat) (h4 : 4 ≤ node.data.len)
    (hi : i < field node.data.val 2 2) (hlen : FREE_LIST_HEADER + 8 * i + 8 ≤ node.data.len) :
    flnPtr node i = Except.ok (field node.data.val (FREE_LIST_HEADER + 8 * i) 8) := by
  unfold flnPtr
  rw [flnSize_eq node h4, ok_bind, assert_true (by simpa using hi), ok_bind,
    Nat.mul_comm i 8]
  exact read64 node.data _ hlen

theorem flnPtr_inv {node : BNode} {i p : Nat} (h : flnPtr node i = Except.ok p) :
    i < field node.data.val 2 2 ∧ FREE_LIST_HEADER + 8 * i + 8 ≤ node.data.len ∧
      field node.data.val (FREE_LIST_HEADER + 8 * i) 8 = p := by
  have hF := FREE_LIST_HEADER_eq
  simp only [flnPtr, bind_eq_ok] at h
  obtain ⟨k, hk, u, hu, b, h1, h2⟩ := h
  obtain ⟨_, rfl⟩ := flnSize_inv hk
  obtain ⟨h3, rfl⟩ := sliceFrom_inv h1
  obtain ⟨h4, rfl⟩ := leUint64_inv h2
  have hi : i < field node.data.val 2 2 := by
    unfold assert at hu
    split at hu
    · rename_i hd; exact of_decide_eq_true hd
    · cases hu
  refine ⟨hi, by simp at h4; omega, ?_⟩
  rw [Nat.mul_comm 8 i]
  rfl

theorem flnSetTotal_inv {node node' : BNode} {x : Nat}
    (h : flnSetTotal node x = Except.ok node') :
    12 ≤ node.data.len ∧ node' = ⟨⟨node.data.len, overwrite node.data.val 4 8 x⟩⟩ := by
  simp only [flnSetTotal, bind_eq_ok] at h
  obtain ⟨d, h1, h2⟩ := h
  unfold putUint64At at h1
  split at h1
  · cases h1; cases h2; exact ⟨by omega, rfl⟩
  · cases h1

/-- Writing the total keeps what the page holds. -/
theorem pageHolds_setTotal {node node' : BNode} {next x : Nat} {ptrs : List Nat}
    (h : pageHolds node next ptrs = true) (hs : flnSetTotal node x = Except.ok node') :
    pageHolds node' next ptrs = true := by
  have hF := FREE_LIST_HEADER_eq
  obtain ⟨hlen, rfl⟩ := flnSetTotal_inv hs
  rw [pageHolds_iff] at h ⊢
  obtain ⟨hcap, hsize, hnext, hptr⟩ := h
  obtain ⟨h4, hsz⟩ := flnSize_inv hsize
  obtain ⟨h20, hnx⟩ := flnNext_inv hnext
  have e2 : field (overwrite node.data.val 4 8 x) 2 2 = ptrs.length := by
    rw [field_overwrite_disjoint _ _ _ _ _ _ (by omega), hsz]
  refine ⟨hcap, ?_, ?_, ?_⟩
  · rw [flnSize_eq ⟨⟨node.data.len, overwrite node.data.val 4 8 x⟩⟩ h4]
    exact congrArg Except.ok e2
  · rw [flnNext_eq ⟨⟨node.data.len, overwrite node.data.val 4 8 x⟩⟩ h20]
    show Except.ok (field (overwrite node.data.val 4 8 x) 12 8) = _
    rw [field_overwrite_disjoint _ _ _ _ _ _ (by omega), hnx]
  · intro i hi
    obtain ⟨_, h5, h6⟩ := flnPtr_inv (hptr i hi)
    rw [flnPtr_eq ⟨⟨node.data.len, overwrite node.data.val 4 8 x⟩⟩ i h4
      (by rw [e2]; exact hi) h5]
    show Except.ok (field (overwrite node.data.val 4 8 x) _ 8) = _
    rw [field_overwrite_disjoint _ _ _ _ _ _ (by omega), h6]

theorem pageHolds_ptr_lt {node : BNode} {next : Nat} {ptrs : List Nat}
    (h : pageHolds node next ptrs = true) :
    next < 18446744073709551616 ∧ ∀ q ∈ ptrs, q < 18446744073709551616 := by
  rw [pageHolds_iff] at h
  obtain ⟨_, _, hnext, hptr⟩ := h
  refine ⟨?_, ?_⟩
  · obtain ⟨_, h1⟩ := flnNext_inv hnext
    rw [← h1]; exact field_lt _ _ _
  · intro q hq
    obtain ⟨i, hi, rfl⟩ := List.getElem_of_mem hq
    obtain ⟨_, _, h1⟩ := flnPtr_inv (hptr i hi)
    rw [List.getD_eq_getElem?_getD, List.getElem?_eq_getElem hi] at h1
    simp only [Option.getD_some] at h1
    rw [← h1]; exact field_lt _ _ _

theorem flnSetPtr_eq (node : BNode) (i x : Nat) (h4 : 4 ≤ node.data.len)
    (hi : i < field node.data.val 2 2) (hlen : FREE_LIST_HEADER + 8 * i + 8 ≤ node.data.len) :
    flnSetPtr node i x
      = Except.ok ⟨⟨node.data.len, overwrite node.data.val (FREE_LIST_HEADER + 8 * i) 8 x⟩⟩ := by
  unfold flnSetPtr
  rw [flnSize_eq node h4, ok_bind, assert_true (by simpa using hi), ok_bind,
    Nat.mul_comm i 8]
  show (putUint64At node.data (FREE_LIST_HEADER + 8 * i) x >>= _) = _
  rw [put64 _ _ _ hlen]
  rfl

theorem flnSetHeader_eq (node : BNode) (size next : Nat) (h : 20 ≤ node.data.len) :
    flnSetHeader node size next
      = Except.ok ⟨⟨node.data.len, overwrite (overwrite node.data.val 2 2 size) 12 8 next⟩⟩ := by
  unfold flnSetHeader
  rw [put16 _ _ _ (by omega), ok_bind, put64 _ _ _ (by show 12 + 8 ≤ node.data.len; omega)]
  rfl

/-- The loop `for i := 0; i < size; i++ { flnSetPtr(node, i, freed[i]) }`. -/
theorem flnSetPtr_loop (freed : List Nat) (size next : Nat) (hsize : size ≤ FREE_LIST_CAP) :
    ∀ (k : Nat) (node : BNode), k ≤ size → node.data.len = BTREE_PAGE_SIZE →
      field node.data.val 2 2 = size → field node.data.val 12 8 = next →
      ∃ node', (List.range k).foldlM (fun nd i => flnSetPtr nd i (freed.getD i 0)) node
          = Except.ok node' ∧
        node'.data.len = BTREE_PAGE_SIZE ∧ field node'.data.val 2 2 = size ∧
        field node'.data.val 12 8 = next ∧
        ∀ i, i < k → field node'.data.val (FREE_LIST_HEADER + 8 * i) 8
          = freed.getD i 0 % 18446744073709551616 := by
  have hF := FREE_LIST_HEADER_eq
  have hC := FREE_LIST_CAP_eq
  have hP : BTREE_PAGE_SIZE = 4096 := rfl
  intro k
  induction k with
  | zero =>
    intro node _ hl h2 h12
    exact ⟨node, rfl, hl, h2, h12, fun i hi => by omega⟩
  | succ k ih =>
    intro node hk hl h2 h12
    obtain ⟨node1, e1, hl1, h21, h121, hp1⟩ := ih node (by omega) hl h2 h12
    rw [List.range_succ, List.foldlM_append, e1]
    have e2 := flnSetPtr_eq node1 k (freed.getD k 0) (by omega) (by omega) (by omega)
    refine ⟨⟨⟨node1.data.len,
      overwrite node1.data.val (FREE_LIST_HEADER + 8 * k) 8 (freed.getD k 0)⟩⟩,
      ?_, ?_, ?_, ?_, ?_⟩
    · rw [ok_bind]
      show (flnSetPtr node1 k (freed.getD k 0) >>= _) = _
      rw [e2]
      rfl
    · exact hl1
    · show field (overwrite _ _ _ _) 2 2 = size
      rw [field_overwrite_disjoint _ _ _ _ _ _ (by omega), h21]
    · show field (overwrite _ _ _ _) 12 8 = next
      rw [field_overwrite_disjoint _ _ _ _ _ _ (by omega), h121]
    · intro i hi
      show field (overwrite _ _ _ _) _ 8 = _
      rcases Nat.lt_or_ge i k with h | h
      · rw [field_overwrite_disjoint _ _ _ _ _ _ (by omega), hp1 i h]
      · have : i = k := by omega
        subst this
        rw [field_overwrite_same]
        rfl

/-- The page that `flPush` builds for the first `size` pointers of `freed`. -/
theorem flPush_page (freed : List Nat) (size head : Nat) (hsize : size ≤ FREE_LIST_CAP)
    (hfreed : size ≤ freed.length) (hhead : head < 18446744073709551616) :
    ∃ node, (flnSetHeader ⟨makeBytes BTREE_PAGE_SIZE⟩ (u16 size) head >>= fun node =>
        (List.range size).foldlM (fun nd i => flnSetPtr nd i (freed.getD i 0)) node)
        = Except.ok node ∧
      pageHolds node head ((freed.take size).map (fun q => q % 18446744073709551616))
        = true := by
  have hF := FREE_LIST_HEADER_eq
  have hC := FREE_LIST_CAP_eq
  have hP : BTREE_PAGE_SIZE = 4096 := rfl
  rw [flnSetHeader_eq _ _ _ (by show 20 ≤ BTREE_PAGE_SIZE; omega), ok_bind,
    u16_of_lt (by omega)]
  obtain ⟨node, e, hl, h2, h12, hp⟩ := flnSetPtr_loop freed size head hsize size
    ⟨⟨(makeBytes BTREE_PAGE_SIZE).len,
      overwrite (overwrite (makeBytes BTREE_PAGE_SIZE).val 2 2 size) 12 8 head⟩⟩
    (le_refl _) rfl
    (by show field (overwrite _ _ _ _) 2 2 = size
        rw [field_overwrite_disjoint _ _ _ _ _ _ (by omega), field_overwrite_same]
        exact mod_pow2_eq (by omega) rfl)
    (by show field (overwrite _ _ _ _) 12 8 = head
        rw [field_overwrite_same]
        exact Nat.mod_eq_of_lt hhead)
  refine ⟨node, e, ?_⟩
  have hlen : ((freed.take size).map (fun q => q % 18446744073709551616)).length = size := by
    simp; omega
  rw [pageHolds_iff, hlen]
  refine ⟨hsize, ?_, ?_, ?_⟩
  · rw [flnSize_eq node (by omega), h2]
  · rw [flnNext_eq node (by omega), h12]
  · intro i hi
    rw [flnPtr_eq node i (by omega) (by omega) (by omega), hp i hi]
    congr 1
    rw [List.getD_eq_getElem?_getD, List.getD_eq_getElem?_getD, List.getElem?_map,
      List.getElem?_take_of_lt hi, List.getElem?_eq_getElem (by omega)]
    rfl

theorem isChain_head (get : Nat → Res BNode) (head : Nat) (chain : List (Nat × List Nat))
    (h : isChain get head chain = true) : chainHead chain = head := by
  cases chain with
  | nil => rw [isChain_nil] at h; rw [h]; rfl
  | cons pg rest =>
    obtain ⟨p, ptrs⟩ := pg
    rw [isChain_cons] at h
    rw [h.1]; rfl

theorem isChain_congr (get get' : Nat → Res BNode) :
    ∀ (chain : List (Nat × List Nat)) (head : Nat), (∀ pg ∈ chain, get' pg.1 = get pg.1) →
      isChain get head chain = true → isChain get' head chain = true := by
  intro chain
  induction chain with
  | nil => intro head _ h; rw [isChain_nil] at h ⊢; exact h
  | cons pg rest ih =>
    intro head hg h
    obtain ⟨p, ptrs⟩ := pg
    rw [isChain_cons] at h ⊢
    obtain ⟨h1, h2, node, h3, h4, h5⟩ := h
    refine ⟨h1, h2, node, ?_, h4, ih _ (fun pg hpg => hg pg (List.mem_cons_of_mem _ hpg)) h5⟩
    rw [hg (p, ptrs) (List.mem_cons_self _ _)]
    exact h3

section PushLemmas

variable {σ : Type}

/-- One page more on the chain, hosted at `p`. -/
theorem PushInv_step (fl : FreeList σ) (hw : σ → Nat) (s s' : σ) (head p : Nat)
    (reuse reuse' : List Nat) (chain : List (Nat × List Nat)) (node : BNode) (ptrs : List Nat)
    (inv : fl.PushInv hw s head reuse chain)
    (hnode : pageHolds node head ptrs = true)
    (hget : fl.get s' p = Except.ok node)
    (hframe : ∀ q, q ≠ p → fl.get s' q = fl.get s q)
    (hhw : hw s ≤ hw s') (hp0 : p ≠ 0) (hp64 : p < 18446744073709551616) (hphw : p < hw s')
    (hpc : ∀ pg ∈ chain, p ≠ pg.1)
    (hre : ∀ r ∈ reuse', r ∈ reuse ∧ r ≠ p) (hnd : reuse'.Nodup) :
    fl.PushInv hw s' p reuse' ((p, ptrs) :: chain) := by
  have hch : isChain (fl.get s') head chain = true :=
    isChain_congr (fl.get s) (fl.get s') chain head
      (fun pg hpg => hframe pg.1 (fun e => hpc pg hpg e.symm)) inv.chain_ok
  refine ⟨?_, ?_, ?_, ?_, hnd, hp64, Nat.lt_of_lt_of_le inv.hw_pos hhw⟩
  · rw [isChain_cons, isChain_head _ _ _ inv.chain_ok]
    exact ⟨rfl, hp0, node, hget, hnode, hch⟩
  · intro pg hpg
    rcases List.mem_cons.mp hpg with h | h
    · rw [h]; exact hphw
    · exact Nat.lt_of_lt_of_le (inv.below pg h) hhw
  · rw [List.map_cons, List.nodup_cons]
    refine ⟨?_, inv.distinct⟩
    intro hmem
    obtain ⟨pg, hpg, e⟩ := List.mem_map.mp hmem
    exact hpc pg hpg e.symm
  · intro r hr
    obtain ⟨h1, h2⟩ := hre r hr
    obtain ⟨a, b, c, d⟩ := inv.reuse_ok r h1
    refine ⟨a, b, Nat.lt_of_lt_of_le c hhw, ?_⟩
    intro pg hpg
    rcases List.mem_cons.mp hpg with h | h
    · rw [h]; exact h2
    · exact d pg h

theorem flPush_loop_spec (fl : FreeList σ) (hw : σ → Nat) (hlaw : fl.Lawful hw) :
    ∀ (fuel head : Nat) (s : σ) (freed reuse : List Nat) (chain : List (Nat × List Nat))
      (head' : Nat) (s' : σ) (reuse' : List Nat),
      flPush.loop fl fuel head s freed reuse = Except.ok (head', s', reuse') →
      fl.PushInv hw s head reuse chain →
      hw s + freed.length ≤ 18446744073709551616 →
      ∃ chain', fl.PushInv hw s' head' reuse' chain' ∧
        chainTotal chain' = chainTotal chain + freed.length := by
  intro fuel
  induction fuel with
  | zero => intro head s freed reuse chain head' s' reuse' h; simp [flPush.loop] at h
  | succ fuel ih =>
    intro head s freed reuse chain head' s' reuse' h inv hroom
    unfold flPush.loop at h
    by_cases hf : freed.length > 0
    · rw [if_pos hf] at h
      simp only [bind_eq_ok] at h
      obtain ⟨node1, h1, node2, h2, h3⟩ := h
      have hC := FREE_LIST_CAP_eq
      obtain ⟨size, hsize⟩ : ∃ size,
          size = if freed.length > FREE_LIST_CAP then FREE_LIST_CAP else freed.length :=
        ⟨_, rfl⟩
      have hs1 : size ≤ FREE_LIST_CAP := by rw [hsize]; split <;> omega
      have hs2 : size ≤ freed.length := by rw [hsize]; split <;> omega
      have hs3 : 0 < size := by rw [hsize]; split <;> omega
      rw [← hsize] at h1 h2 h3
      obtain ⟨node, e, hnode⟩ := flPush_page freed size head hs1 hs2 inv.head_lt
      rw [h1, ok_bind, h2] at e
      cases e
      have hlen : (List.map (fun q => q % 18446744073709551616) (List.take size freed)).length
          = size := by simp; omega
      cases reuse with
      | cons r reuse1 =>
        simp only [bind_eq_ok] at h3
        obtain ⟨s1, hu, h4⟩ := h3
        obtain ⟨hr0, hr64, hrhw, hrc⟩ := inv.reuse_ok r (List.mem_cons_self _ _)
        have hnd := List.nodup_cons.mp inv.reuse_nodup
        have huw := hlaw.use_hw _ _ _ _ hu
        have inv1 := PushInv_step fl hw s s1 head r (r :: reuse1) reuse1 chain node2 _ inv hnode
          (hlaw.use_get _ _ _ _ hu) (fun q hq => hlaw.use_frame _ _ _ _ q hu hq)
          (Nat.le_of_eq huw.symm) hr0 hr64 (by omega) hrc
          (fun x hx => ⟨List.mem_cons_of_mem _ hx, fun e => hnd.1 (e ▸ hx)⟩) hnd.2
        obtain ⟨chain', inv', ht⟩ := ih _ _ _ _ _ _ _ _ h4 inv1
          (by rw [List.length_drop]; omega)
        refine ⟨chain', inv', ?_⟩
        rw [ht, chainTotal_cons, hlen, List.length_drop]
        omega
      | nil =>
        simp only [bind_eq_ok] at h3
        obtain ⟨⟨p, s1⟩, hn, h4⟩ := h3
        obtain ⟨hf1, hf2, hf3⟩ := hlaw.new_fresh _ _ _ _ hn (by omega)
        have inv1 := PushInv_step fl hw s s1 head p [] [] chain node2 _ inv hnode
          (hlaw.new_get _ _ _ _ hn) (fun q hq => hlaw.new_frame _ _ _ _ q hn hq)
          (by omega) (by have := inv.hw_pos; omega) (by omega) hf2
          (fun pg hpg => by have := inv.below pg hpg; omega)
          (fun x hx => by cases hx) List.nodup_nil
        obtain ⟨chain', inv', ht⟩ := ih _ _ _ _ _ _ _ _ h4 inv1
          (by show hw s1 + (freed.drop size).length ≤ _; rw [List.length_drop]; omega)
        refine ⟨chain', inv', ?_⟩
        rw [ht, chainTotal_cons, hlen, List.length_drop]
        omega
    · rw [if_neg hf] at h
      cases h
      exact ⟨chain, inv, by omega⟩

end PushLemmas

theorem mapM_length (f : Nat → Res Nat) :
    ∀ (xs l : List Nat), xs.mapM f = Except.ok l → l.length = xs.length := by
  intro xs
  induction xs with
  | nil => intro l h; rw [List.mapM_nil] at h; cases h; rfl
  | cons x xs ih =>
    intro l h
    rw [List.mapM_cons] at h
    simp only [bind_eq_ok] at h
    obtain ⟨y, _, ys, hys, h2⟩ := h
    cases h2
    simp [ih ys hys]

theorem harvest_spec (node : BNode) (next : Nat) (ptrs : List Nat)
    (hph : pageHolds node next ptrs = true) (nfreed : Nat) :
    ∀ (fuel remain : Nat) (reuse : List Nat) (remain' : Nat) (reuse' : List Nat),
      remain ≤ ptrs.length →
      FreeList.Update.harvest node nfreed fuel remain reuse = Except.ok (remain', reuse') →
      remain' ≤ remain ∧ ∃ H, reuse' = reuse ++ H ∧ H.reverse.Sublist (ptrs.take remain) := by
  rw [pageHolds_iff] at hph
  obtain ⟨_, _, _, hptr⟩ := hph
  intro fuel
  induction fuel with
  | zero =>
    intro remain reuse remain' reuse' _ h
    unfold FreeList.Update.harvest at h
    cases h
    exact ⟨le_refl _, [], by simp, by simp⟩
  | succ fuel ih =>
    intro remain reuse remain' reuse' hr h
    unfold FreeList.Update.harvest at h
    split at h
    · rename_i hc
      simp only [bind_eq_ok] at h
      obtain ⟨p, hp, h2⟩ := h
      rw [hptr (remain - 1) (by omega)] at hp
      cases hp
      obtain ⟨h3, H, h4, h5⟩ := ih (remain - 1) _ remain' reuse' (by omega) h2
      refine ⟨by omega, ptrs.getD (remain - 1) 0 :: H, by rw [h4]; simp, ?_⟩
      have e : ptrs.take remain = ptrs.take (remain - 1) ++ [ptrs.getD (remain - 1) 0] := by
        have : remain = (remain - 1) + 1 := by omega
        rw [this, List.take_succ, Nat.add_sub_cancel, List.getD_eq_getElem?_getD,
          List.getElem?_eq_getElem (by omega)]
        rfl
      rw [e, List.reverse_cons]
      exact List.Sublist.append h5 (List.Sublist.refl _)
    · cases h
      exact ⟨le_refl _, [], by simp, by simp⟩

theorem isChain_nonempty (get : Nat → Res BNode) (head : Nat) (chain : List (Nat × List Nat))
    (h : isChain get head chain = true) (h0 : head ≠ 0) :
    ∃ ptrs rest node, chain = (head, ptrs) :: rest ∧ get head = Except.ok node ∧
      pageHolds node (chainHead rest) ptrs = true ∧
      isChain get (chainHead rest) rest = true := by
  cases chain with
  | nil => rw [isChain_nil] at h; exact absurd h h0
  | cons pg rest =>
    obtain ⟨p, ptrs⟩ := pg
    rw [isChain_cons] at h
    obtain ⟨rfl, _, node, h1, h2, h3⟩ := h
    exact ⟨ptrs, rest, node, rfl, h1, h2, h3⟩

theorem flatMap_cons_ptrs (p : Nat) (ptrs : List Nat) (rest : List (Nat × List Nat)) :
    ((p, ptrs) :: rest).flatMap (fun pg => pg.2) = ptrs ++ rest.flatMap (fun pg => pg.2) := by
  simp

section UpdateLemmas

variable {σ : Type}

theorem Update_loop_spec (fl : FreeList σ) (s : σ) (pages : List (Nat × List Nat))
    (bound : Nat) :
    ∀ (fuel : Nat) (st st' : UpdateState) (rest : List (Nat × List Nat)),
      fl.UpdateInv s pages bound st rest →
      FreeList.Update.loop fl s fuel st = Except.ok st' →
      ∃ rest', fl.UpdateInv s pages bound st' rest' := by
  intro fuel
  induction fuel with
  | zero => intro st st' rest _ h; simp [FreeList.Update.loop] at h
  | succ fuel ih =>
    intro st st' rest inv h
    unfold FreeList.Update.loop at h
    split at h
    · rename_i hc
      obtain ⟨ptrs, rest', node0, rfl, hg, hph, hch⟩ :=
        isChain_nonempty _ _ _ inv.chain_ok hc.1
      have hph' := (pageHolds_iff _ _ _).mp hph
      obtain ⟨vis, hvis⟩ := inv.suffix
      have hnd := inv.nodup
      rw [flatMap_cons_ptrs, ← List.append_assoc] at hnd
      have hsz := inv.size
      rw [chainTotal_cons] at hsz
      simp only [List.length_cons] at hsz
      have htot := inv.total
      rw [chainTotal_cons] at htot
      simp only [bind_eq_ok] at h
      obtain ⟨node, h1, size, h2, ⟨popn, freed, reuse⟩, h3, size2, h4, head, h5, h6⟩ := h
      rw [hg] at h1
      cases h1
      rw [hph'.2.1] at h2 h4
      cases h2
      cases h4
      rw [hph'.2.2.1] at h5
      cases h5
      refine ih _ st' rest' ?_ h6
      have hsuf : ∃ visited, pages = visited ++ rest' :=
        ⟨vis ++ [(st.head, ptrs)], by rw [hvis]; simp⟩
      have hlt := (pageHolds_ptr_lt hph).1
      split at h3
      · -- the whole page is consumed
        cases h3
        refine ⟨hch, ?_, hsuf, inv.reuse_in, ?_, ?_, hlt⟩
        · show st.total - (ptrs.length : Int) = _
          rw [htot]; push_cast; ring
        · exact List.Nodup.sublist
            (List.Sublist.append (List.sublist_append_left _ _) (List.Sublist.refl _)) hnd
        · show (st.freed ++ [st.head]).length + _ + _ ≤ bound
          simp only [List.length_append, List.length_singleton]
          omega
      · -- a part of the page is left
        simp only [bind_eq_ok] at h3
        obtain ⟨⟨remain, reuse1⟩, h7, rest1, h8, h9⟩ := h3
        cases h9
        obtain ⟨hrem, H, hH, hsub⟩ := harvest_spec node0 (chainHead rest') ptrs hph _ _ _ _ _ _
          (Nat.sub_le _ _) h7
        have hlen := mapM_length _ _ _ h8
        rw [List.length_range] at hlen
        have hsub2 : H.reverse.Sublist ptrs := hsub.trans (List.take_sublist _ _)
        refine ⟨hch, ?_, hsuf, ?_, ?_, ?_, hlt⟩
        · show st.total - (ptrs.length : Int) = _
          rw [htot]; push_cast; ring
        · intro r hr
          show r < _ ∧ _
          rw [hH] at hr
          rcases List.mem_append.mp hr with h10 | h10
          · exact inv.reuse_in r h10
          · have hm : r ∈ ptrs := hsub2.subset (List.mem_reverse.mpr h10)
            exact ⟨(pageHolds_ptr_lt hph).2 r hm, (st.head, ptrs),
              by rw [hvis]; simp, hm⟩
        · show (reuse1 ++ _).Nodup
          rw [hH]
          have hp : (st.reuse ++ H.reverse ++ rest'.flatMap (fun pg => pg.2)).Perm
              (st.reuse ++ H ++ rest'.flatMap (fun pg => pg.2)) :=
            List.Perm.append_right _ (List.Perm.append_left _ (List.reverse_perm H))
          exact hp.nodup_iff.mp (List.Nodup.sublist
            (List.Sublist.append (List.Sublist.append (List.Sublist.refl _) hsub2)
              (List.Sublist.refl _)) hnd)
        · show (st.freed ++ [st.head] ++ rest1).length + _ + _ ≤ bound
          simp only [List.length_append, List.length_singleton]
          omega
    · cases h
      exact ⟨rest, inv⟩

end UpdateLemmas

theorem u64OfInt_natCast (n : Nat) (h : n < 18446744073709551616) : u64OfInt (n : Int) = n := by
  unfold u64OfInt
  rw [Int.emod_eq_of_lt (by positivity) (by exact_mod_cast h)]
  simp

theorem intOfU64_small (n : Nat) (h : n < 9223372036854775808) : intOfU64 n = (n : Int) := by
  unfold intOfU64
  rw [if_pos h]

section UpdateSpec

variable {σ : Type}

theorem Lawful_with_head (fl : FreeList σ) (hw : σ → Nat) (hlaw : fl.Lawful hw) (head : Nat) :
    FreeList.Lawful { fl with head := head } hw :=
  ⟨hlaw.use_get, hlaw.use_frame, hlaw.use_hw, hlaw.new_get, hlaw.new_frame, hlaw.new_fresh,
    hlaw.put_get, hlaw.put_frame⟩

/-- A node that reads as another one, byte for byte, holds the same pointers. -/
theorem pageHolds_of_fields {node node' : BNode} {next : Nat} {ptrs : List Nat}
    (hl : node'.data.len = node.data.len)
    (hf : ∀ off w, off + w ≤ node.data.len →
      field node'.data.val off w = field node.data.val off w)
    (h : pageHolds node next ptrs = true) : pageHolds node' next ptrs = true := by
  have hF := FREE_LIST_HEADER_eq
  rw [pageHolds_iff] at h ⊢
  obtain ⟨hcap, hsize, hnext, hptr⟩ := h
  obtain ⟨h4, hsz⟩ := flnSize_inv hsize
  obtain ⟨h20, hnx⟩ := flnNext_inv hnext
  have e2 : field node'.data.val 2 2 = ptrs.length := by
    rw [hf 2 2 (by omega), hsz]
  refine ⟨hcap, ?_, ?_, ?_⟩
  · rw [flnSize_eq node' (by omega), e2]
  · rw [flnNext_eq node' (by omega), hf 12 8 (by omega), hnx]
  · intro i hi
    obtain ⟨_, h5, h6⟩ := flnPtr_inv (hptr i hi)
    rw [flnPtr_eq node' i (by omega) (by rw [e2]; exact hi) (by omega),
      hf _ 8 (by omega), h6]

/-- The total written by `Update` on the head of a chain makes `Total()` the sum of
the sizes. -/
theorem setTotal_spec (fl : FreeList σ) (hw : σ → Nat) (hlaw : fl.Lawful hw) (s s' : σ)
    (head total : Nat) (reuse : List Nat) (chain : List (Nat × List Nat)) (node node' : BNode)
    (inv : fl.PushInv hw s head reuse chain) (htotal : chainTotal chain = total)
    (hsmall : total < 9223372036854775808)
    (hget : fl.get s head = Except.ok node)
    (hset : flnSetTotal node (u64OfInt (total : Int)) = Except.ok node')
    (hput : fl.put s head node' = Except.ok s') :
    isChain (fl.get s') head chain = true ∧
      FreeList.Total { fl with head := head } s' = Except.ok (chainTotal chain : Int) := by
  cases chain with
  | nil =>
    have h0 := (isChain_nil _ _).mp inv.chain_ok
    subst h0
    exact ⟨by simp [isChain], by simp [FreeList.Total, chainTotal]; rfl⟩
  | cons pg rest =>
    obtain ⟨p, ptrs⟩ := pg
    have hc := inv.chain_ok
    rw [isChain_cons] at hc
    obtain ⟨rfl, hp0, node0, hg0, hph, hrest⟩ := hc
    rw [hget] at hg0
    cases hg0
    obtain ⟨hlen, hn'⟩ := flnSetTotal_inv hset
    obtain ⟨node2, hget', hl2, hf2⟩ := hlaw.put_get _ _ node node' _ hget
      (by rw [hn']) hput
    have hl3 : node'.data.len = node.data.len := by rw [hn']
    have hnd := inv.distinct
    rw [List.map_cons, List.nodup_cons] at hnd
    have hrest' : isChain (fl.get s') (chainHead rest) rest = true :=
      isChain_congr (fl.get s) (fl.get s') rest _
        (fun pg hpg => hlaw.put_frame _ _ _ _ pg.1 hput
          (fun e => hnd.1 (List.mem_map.mpr ⟨pg, hpg, e⟩))) hrest
    refine ⟨?_, ?_⟩
    · rw [isChain_cons]
      exact ⟨rfl, hp0, node2, hget',
        pageHolds_of_fields hl2 hf2 (pageHolds_setTotal hph hset), hrest'⟩
    · unfold FreeList.Total
      rw [if_neg hp0]
      show (fl.get s' head >>= _) = _
      rw [hget', ok_bind]
      rw [sliceFrom_ok _ _ (by omega), ok_bind,
        leUint64_mk _ _ (by show 8 ≤ node2.data.len - 4; omega), ok_bind]
      show Except.ok (intOfU64 (field node2.data.val 4 8)) = _
      rw [hf2 4 8 (by omega), hn']
      show Except.ok (intOfU64 (field (overwrite _ _ _ _) 4 8)) = _
      rw [field_overwrite_same, u64OfInt_natCast _ (by omega),
        Nat.mod_eq_of_lt (by show total < 18446744073709551616; omega),
        intOfU64_small _ hsmall, htotal]

theorem Update_spec (fl : FreeList σ) (hw : σ → Nat) (s s' : σ) (pages : List (Nat × List Nat))
    (popn fuel : Nat) (freed : List Nat) (fl' : FreeList σ)
    (hlaw : fl.Lawful hw)
    (hchain : isChain (fl.get s) fl.head pages = true)
    (htotal : fl.Total s = Except.ok (chainTotal pages : Int))
    (hhead : fl.head < 18446744073709551616) (hhw : 0 < hw s)
    (hbelow : ∀ pg ∈ pages, pg.1 < hw s ∧ ∀ q ∈ pg.2, q ≠ 0 ∧ q < hw s ∧ ∀ pg' ∈ pages, q ≠ pg'.1)
    (hpages : (pages.map Prod.fst).Nodup)
    (hptrs : (pages.flatMap (fun pg => pg.2)).Nodup)
    (hbig : chainTotal pages + pages.length + freed.length < 9223372036854775808)
    (hroom : hw s + chainTotal pages + pages.length + freed.length ≤ 18446744073709551616)
    (hret : fl.Update s fuel popn freed = Except.ok (fl', s')) :
    ∃ pages', isChain (fl.get s') fl'.head pages' = true ∧
      FreeList.Total { fl with head := fl'.head } s' = Except.ok (chainTotal pages' : Int) := by
  unfold FreeList.Update at hret
  simp only [bind_eq_ok] at hret
  obtain ⟨t, ht, _, _, hret⟩ := hret
  rw [htotal] at ht
  cases ht
  split at hret
  · simp only [pure, Except.pure, Except.ok.injEq, Prod.mk.injEq] at hret
    obtain ⟨rfl, rfl⟩ := hret
    exact ⟨pages, hchain, htotal⟩
  · simp only [bind_eq_ok] at hret
    obtain ⟨t2, ht2, st, hloop, _, _, ⟨fl2, s2⟩, hpush, node, hget, node', hset, s3, hput,
      hfin⟩ := hret
    rw [htotal] at ht2
    cases ht2
    simp only [pure, Except.pure, Except.ok.injEq, Prod.mk.injEq] at hfin
    obtain ⟨rfl, rfl⟩ := hfin
    -- the outer loop
    obtain ⟨rest, inv⟩ := Update_loop_spec fl s pages
      (freed.length + chainTotal pages + pages.length) fuel _ st pages
      ⟨hchain, rfl, ⟨[], rfl⟩, (fun r hr => by cases hr), (by simpa using hptrs), le_refl _,
        hhead⟩
      hloop
    obtain ⟨vis, hvis⟩ := inv.suffix
    have hmem : ∀ pg ∈ rest, pg ∈ pages := fun pg hpg => by
      rw [hvis]; exact List.mem_append_right _ hpg
    -- the pages pushed
    unfold flPush at hpush
    simp only [bind_eq_ok] at hpush
    obtain ⟨⟨head2, s2', reuse2⟩, hpl, _, _, hp2⟩ := hpush
    simp only [pure, Except.pure, Except.ok.injEq, Prod.mk.injEq] at hp2
    obtain ⟨rfl, rfl⟩ := hp2
    have pinv : FreeList.PushInv { fl with head := st.head } hw s st.head st.reuse rest := by
      refine ⟨inv.chain_ok, fun pg hpg => (hbelow pg (hmem pg hpg)).1, ?_, ?_,
        (List.nodup_append.mp inv.nodup).1, inv.head_lt, hhw⟩
      · rw [hvis, List.map_append] at hpages
        exact (List.nodup_append.mp hpages).2.1
      · intro r hr
        obtain ⟨h64, pg, hpg, hq⟩ := inv.reuse_in r hr
        obtain ⟨h0, hlt, hne⟩ := (hbelow pg hpg).2 r hq
        exact ⟨h0, h64, hlt, fun pg' hpg' => hne pg' (hmem pg' hpg')⟩
    have hsz := inv.size
    obtain ⟨chain', pinv', hct⟩ := flPush_loop_spec { fl with head := st.head } hw
      (Lawful_with_head fl hw hlaw st.head) _ _ _ _ _ _ _ _ _ hpl pinv (by omega)
    have htot := inv.total
    have hx : st.total + (st.freed.length : Int) = ((chainTotal chain' : Nat) : Int) := by
      rw [htot, hct]; push_cast; ring
    rw [hx] at hset
    have pinv2 : fl.PushInv hw s2' head2 reuse2 chain' :=
      ⟨pinv'.chain_ok, pinv'.below, pinv'.distinct, pinv'.reuse_ok, pinv'.reuse_nodup,
        pinv'.head_lt, pinv'.hw_pos⟩
    obtain ⟨h1, h2⟩ := setTotal_spec fl hw hlaw s2' s3 head2 (chainTotal chain') reuse2 chain'
      node node' pinv2 rfl (by omega) hget hset hput
    exact ⟨chain', h1, h2⟩

end UpdateSpec

/-! ### The page manager of `kv.go` under the free list -/

theorem mapGet_mapSet_same (ptr : Nat) (page : Option Bytes) :
    ∀ (m : List (Nat × Option Bytes)), mapGet (mapSet m ptr page) ptr = some page
  | [] => by simp [mapSet, mapGet]
  | (k, v) :: m => by
    unfold mapSet
    by_cases h : k = ptr
    · rw [if_pos h]
      simp [mapGet, h]
    · rw [if_neg h]
      simp only [mapGet, if_neg h]
      exact mapGet_mapSet_same ptr page m

theorem mapGet_mapSet_other (ptr q : Nat) (page : Option Bytes) (hq : q ≠ ptr) :
    ∀ (m : List (Nat × Option Bytes)), mapGet (mapSet m ptr page) q = mapGet m q
  | [] => by
    have hk : ¬ ptr = q := fun e => hq e.symm
    simp [mapSet, mapGet, hk]
  | (k, v) :: m => by
    unfold mapSet
    by_cases h : k = ptr
    · rw [if_pos h]
      have hk : ¬ k = q := fun e => hq (e.symm.trans h)
      simp only [mapGet, if_neg hk]
    · rw [if_neg h]
      simp only [mapGet]
      rw [mapGet_mapSet_other ptr q page hq m]

/-- A chunk replaced by one of the same length is found as before. -/
theorem pageGetMapped_find_set (c' : Bytes) : ∀ (chunks : List Bytes) (i start k ptr : Nat),
    (∀ c, chunks[i]? = some c → c'.len = c.len) →
    pageGetMapped.find (chunks.set i c') start k ptr = pageGetMapped.find chunks start k ptr
  | [], _, _, _, _, _ => rfl
  | c :: rest, 0, start, k, ptr, h => by
    have e : c'.len = c.len := h c (by simp)
    simp only [List.set_cons_zero, pageGetMapped.find, e]
  | c :: rest, i + 1, start, k, ptr, h => by
    simp only [List.set_cons_succ, pageGetMapped.find]
    rw [pageGetMapped_find_set c' rest i _ _ _ (fun c hc => h c (by simpa using hc))]

/-- The chunk found holds the whole page. -/
theorem pageGetMapped_find_fits : ∀ (chunks : List Bytes) (start k ptr j off : Nat),
    pageGetMapped.find chunks start k ptr = Except.ok (j, off) → start ≤ ptr →
    k ≤ j ∧ j - k < chunks.length ∧
      off + BTREE_PAGE_SIZE ≤ (chunks.getD (j - k) Bytes.nil).len
  | [], _, _, _, _, _, h, _ => by cases h
  | c :: rest, start, k, ptr, j, off, h, hs => by
    have hP : BTREE_PAGE_SIZE = 4096 := rfl
    simp only [pageGetMapped.find] at h
    split at h
    · rename_i hlt
      simp only [pure, Except.pure, Except.ok.injEq, Prod.mk.injEq] at h
      obtain ⟨rfl, rfl⟩ := h
      rw [hP] at hlt ⊢
      refine ⟨Nat.le_refl _, by simp, ?_⟩
      rw [Nat.sub_self]
      show _ ≤ c.len
      omega
    · rename_i hge
      obtain ⟨h1, h2, h3⟩ := pageGetMapped_find_fits rest _ (k + 1) ptr j off h (by omega)
      have e : j - k = (j - (k + 1)) + 1 := by omega
      refine ⟨by omega, by rw [List.length_cons]; omega, ?_⟩
      rw [e]
      exact h3

/-- Two pages found in the same chunk lie as many pages apart as their numbers. -/
theorem pageGetMapped_find_same : ∀ (chunks : List Bytes) (start k p q j op oq : Nat),
    pageGetMapped.find chunks start k p = Except.ok (j, op) →
    pageGetMapped.find chunks start k q = Except.ok (j, oq) → start ≤ p → start ≤ q →
    op + BTREE_PAGE_SIZE * q = oq + BTREE_PAGE_SIZE * p
  | [], _, _, _, _, _, _, _, h, _, _, _ => by cases h
  | c :: rest, start, k, p, q, j, op, oq, hp, hq, sp, sq => by
    have hP : BTREE_PAGE_SIZE = 4096 := rfl
    simp only [pageGetMapped.find] at hp hq
    split at hp
    · simp only [pure, Except.pure, Except.ok.injEq, Prod.mk.injEq] at hp
      obtain ⟨rfl, rfl⟩ := hp
      split at hq
      · simp only [pure, Except.pure, Except.ok.injEq, Prod.mk.injEq] at hq
        rw [← hq.2, hP]
        omega
      · have := (pageGetMapped_find_fits rest _ (k + 1) q k oq hq (by omega)).1
        omega
    · split at hq
      · simp only [pure, Except.pure, Except.ok.injEq, Prod.mk.injEq] at hq
        have := (pageGetMapped_find_fits rest _ (k + 1) p j op hp (by omega)).1
        omega
      · exact pageGetMapped_find_same rest _ (k + 1) p q j op oq hp hq (by omega) (by omega)

theorem pageGetMapped_eq (db : KV) (ptr k off : Nat)
    (h : pageGetMapped.find db.chunks 0 0 ptr = Except.ok (k, off)) :
    pageGetMapped db ptr
      = Except.ok ⟨⟨BTREE_PAGE_SIZE, field (db.chunks.getD k Bytes.nil).val off BTREE_PAGE_SIZE⟩⟩ := by
  obtain ⟨_, _, h3⟩ := pageGetMapped_find_fits _ _ _ _ _ _ h (Nat.zero_le _)
  rw [Nat.sub_zero] at h3
  unfold pageGetMapped
  rw [h, ok_bind]
  dsimp only
  rw [slice_ok _ _ _ (by omega) h3, ok_bind, Nat.add_sub_cancel_left]
  rfl

theorem pageGetMapped_inv {db : KV} {ptr : Nat} {node : BNode}
    (h : pageGetMapped db ptr = Except.ok node) :
    ∃ k off, pageGetMapped.find db.chunks 0 0 ptr = Except.ok (k, off) := by
  unfold pageGetMapped at h
  simp only [bind_eq_ok] at h
  obtain ⟨⟨k, off⟩, h1, _⟩ := h
  exact ⟨k, off, h1⟩

theorem pageCopyMapped_eq (db : KV) (ptr k off : Nat) (page : Bytes)
    (h : pageGetMapped.find db.chunks 0 0 ptr = Except.ok (k, off)) :
    pageCopyMapped db ptr page
      = Except.ok { db with chunks := (db.chunks.set k
          (Bytes.mk (db.chunks.getD k Bytes.nil).len
            (overwrite (db.chunks.getD k Bytes.nil).val off (min BTREE_PAGE_SIZE page.len)
              page.val))) } := by
  obtain ⟨_, _, h3⟩ := pageGetMapped_find_fits _ _ _ _ _ _ h (Nat.zero_le _)
  rw [Nat.sub_zero] at h3
  unfold pageCopyMapped
  rw [h, ok_bind]
  dsimp only
  rw [slice_ok _ _ _ (by omega) h3, ok_bind]
  unfold copyAt
  rw [if_pos (by omega)]
  have e : min ((db.chunks.getD k Bytes.nil).len - off)
      (min (off + BTREE_PAGE_SIZE - off) page.len) = min BTREE_PAGE_SIZE page.len := by
    omega
  simp only [e]
  rfl

theorem pageCopyMapped_inv {db db' : KV} {ptr : Nat} {page : Bytes}
    (h : pageCopyMapped db ptr page = Except.ok db') :
    ∃ k off, pageGetMapped.find db.chunks 0 0 ptr = Except.ok (k, off) := by
  unfold pageCopyMapped at h
  simp only [bind_eq_ok] at h
  obtain ⟨⟨k, off⟩, h1, _⟩ := h
  exact ⟨k, off, h1⟩

theorem pageAppend_inv {s s' : KV} {node : BNode} {p : Nat}
    (h : KV.pageAppend s node = Except.ok (p, s')) :
    p = u64 (s.flushed + s.nappend) ∧
      s' = { s with nappend := s.nappend + 1,
                    updates := mapSet s.updates (u64 (s.flushed + s.nappend)) (some node.data) } := by
  unfold KV.pageAppend at h
  simp only [bind_eq_ok] at h
  obtain ⟨_, _, h⟩ := h
  simp only [pure, Except.pure, Except.ok.injEq, Prod.mk.injEq] at h
  exact ⟨h.1.symm, h.2.symm⟩

theorem pageGet_pending (s : KV) (p : Nat) (data : Bytes)
    (h : mapGet s.updates p = some (some data)) : KV.pageGet s p = Except.ok ⟨data⟩ := by
  unfold KV.pageGet
  rw [h]
  rfl

theorem pageGet_mapped (s : KV) (p : Nat) (h : mapGet s.updates p = none) :
    KV.pageGet s p = pageGetMapped s p := by
  unfold KV.pageGet
  rw [h]

theorem pageGet_chunks (s : KV) (cs : List Bytes) (q : Nat)
    (h : mapGet s.updates q = none) :
    KV.pageGet { s with chunks := cs } q = pageGetMapped { s with chunks := cs } q :=
  pageGet_mapped { s with chunks := cs } q h

/-- The page manager of `kv.go`, as `KV.Open` wires it to the free list, keeps
the contract of the free list in every state of the store, the high-water mark
being `page.flushed + page.nappend`. -/
theorem KV.free_lawful (db : KV) : db.free.Lawful (fun s => s.flushed + s.nappend) := by
  have hP : BTREE_PAGE_SIZE = 4096 := rfl
  refine ⟨?_, ?_, ?_, ?_, ?_, ?_, ?_, ?_⟩
  · intro s p node s' h
    change KV.pageUse s p node = Except.ok s' at h
    simp only [KV.pageUse, pure, Except.pure, Except.ok.injEq] at h
    subst h
    exact pageGet_pending _ p node.data (mapGet_mapSet_same _ _ _)
  · intro s p node s' q h hq
    change KV.pageUse s p node = Except.ok s' at h
    simp only [KV.pageUse, pure, Except.pure, Except.ok.injEq] at h
    subst h
    show KV.pageGet _ q = KV.pageGet s q
    unfold KV.pageGet
    dsimp only
    rw [mapGet_mapSet_other _ _ _ hq]
    rfl
  · intro s p node s' h
    change KV.pageUse s p node = Except.ok s' at h
    simp only [KV.pageUse, pure, Except.pure, Except.ok.injEq] at h
    subst h
    rfl
  · intro s node p s' h
    obtain ⟨rfl, rfl⟩ := pageAppend_inv h
    exact pageGet_pending _ _ node.data (mapGet_mapSet_same _ _ _)
  · intro s node p s' q h hq
    obtain ⟨rfl, rfl⟩ := pageAppend_inv h
    show KV.pageGet _ q = KV.pageGet s q
    unfold KV.pageGet
    dsimp only
    rw [mapGet_mapSet_other _ _ _ hq]
    rfl
  · intro s node p s' h hlt
    obtain ⟨rfl, rfl⟩ := pageAppend_inv h
    dsimp only at hlt ⊢
    unfold u64
    rw [Nat.mod_eq_of_lt hlt]
    omega
  · intro s p node0 node s' hget hlen hput
    change KV.pageGet s p = Except.ok node0 at hget
    change KV.pagePut s p node = Except.ok s' at hput
    unfold KV.pagePut at hput
    cases hm : mapGet s.updates p with
    | some page =>
      rw [hm] at hput
      cases page with
      | none => cases hput
      | some data =>
        simp only [pure, Except.pure, Except.ok.injEq] at hput
        subst hput
        exact ⟨node, pageGet_pending _ p node.data (mapGet_mapSet_same _ _ _), rfl,
          fun _ _ _ => rfl⟩
    | none =>
      rw [hm] at hput
      dsimp only at hput
      rw [pageGet_mapped s p hm] at hget
      obtain ⟨k, off, hfind⟩ := pageGetMapped_inv hget
      obtain ⟨_, hk, hfit⟩ := pageGetMapped_find_fits _ _ _ _ _ _ hfind (Nat.zero_le _)
      rw [Nat.sub_zero] at hk hfit
      rw [pageGetMapped_eq s p k off hfind] at hget
      simp only [Except.ok.injEq] at hget
      have hl0 : node0.data.len = BTREE_PAGE_SIZE := by rw [← hget]
      rw [pageCopyMapped_eq s p k off node.data hfind] at hput
      simp only [Except.ok.injEq] at hput
      subst hput
      have hfind' : pageGetMapped.find
          (s.chunks.set k (Bytes.mk (s.chunks.getD k Bytes.nil).len
            (overwrite (s.chunks.getD k Bytes.nil).val off (min BTREE_PAGE_SIZE node.data.len)
              node.data.val))) 0 0 p = Except.ok (k, off) := by
        rw [pageGetMapped_find_set _ _ _ _ _ _ (fun c hc => by
          rw [List.getD_eq_getElem?_getD, hc]; rfl)]
        exact hfind
      have hg' := pageGetMapped_eq { s with chunks := (s.chunks.set k
        (Bytes.mk (s.chunks.getD k Bytes.nil).len
          (overwrite (s.chunks.getD k Bytes.nil).val off (min BTREE_PAGE_SIZE node.data.len)
            node.data.val))) } p k off hfind'
      refine ⟨_, (pageGet_chunks s _ p hm).trans hg', ?_, ?_⟩
      · show BTREE_PAGE_SIZE = node.data.len
        rw [hlen, hl0]
      · intro o w how
        have hnl : node.data.len = BTREE_PAGE_SIZE := by rw [hlen, hl0]
        show field (field (List.getD (s.chunks.set k _) k Bytes.nil).val off BTREE_PAGE_SIZE) o w
          = _
        rw [List.getD_eq_getElem?_getD, List.getElem?_set_self hk]
        show field (field (overwrite _ _ _ _) off BTREE_PAGE_SIZE) o w = _
        rw [hnl, Nat.min_self, field_overwrite_same]
        rw [hnl] at how
        exact mod_field _ _ _ _ how
  · intro s p node s' q hput hq
    change KV.pagePut s p node = Except.ok s' at hput
    show KV.pageGet s' q = KV.pageGet s q
    unfold KV.pagePut at hput
    cases hm : mapGet s.updates p with
    | some page =>
      rw [hm] at hput
      cases page with
      | none => cases hput
      | some data =>
        simp only [pure, Except.pure, Except.ok.injEq] at hput
        subst hput
        unfold KV.pageGet
        dsimp only
        rw [mapGet_mapSet_other _ _ _ hq]
        rfl
    | none =>
      rw [hm] at hput
      dsimp only at hput
      obtain ⟨k, off, hfind⟩ := pageCopyMapped_inv hput
      obtain ⟨_, hk, hfit⟩ := pageGetMapped_find_fits _ _ _ _ _ _ hfind (Nat.zero_le _)
      rw [Nat.sub_zero] at hk hfit
      rw [pageCopyMapped_eq s p k off node.data hfind] at hput
      simp only [Except.ok.injEq] at hput
      subst hput
      cases hq' : mapGet s.updates q with
      | some page =>
        unfold KV.pageGet
        dsimp only
        rw [hq']
      | none =>
        rw [pageGet_chunks s _ q hq', pageGet_mapped s q hq']
        have hset : ∀ ptr, pageGetMapped.find
            (s.chunks.set k (Bytes.mk (s.chunks.getD k Bytes.nil).len
              (overwrite (s.chunks.getD k Bytes.nil).val off
                (min BTREE_PAGE_SIZE node.data.len) node.data.val))) 0 0 ptr
            = pageGetMapped.find s.chunks 0 0 ptr := fun ptr =>
          pageGetMapped_find_set _ _ _ _ _ _ (fun c hc => by
            rw [List.getD_eq_getElem?_getD, hc]; rfl)
        cases hfq : pageGetMapped.find s.chunks 0 0 q with
        | error e =>
          unfold pageGetMapped
          dsimp only
          rw [hset q, hfq]
          rfl
        | ok r =>
          obtain ⟨kq, oq⟩ := r
          obtain ⟨_, hkq, hfitq⟩ := pageGetMapped_find_fits _ _ _ _ _ _ hfq (Nat.zero_le _)
          rw [Nat.sub_zero] at hkq hfitq
          rw [pageGetMapped_eq s q kq oq hfq,
            pageGetMapped_eq _ q kq oq (by rw [← hfq]; exact hset q)]
          congr 3
          show field (List.getD (s.chunks.set k _) kq Bytes.nil).val oq BTREE_PAGE_SIZE = _
          by_cases hkk : kq = k
          · subst hkk
            have hsame := pageGetMapped_find_same _ _ _ _ _ _ _ _ hfind hfq (Nat.zero_le _)
              (Nat.zero_le _)
            rw [List.getD_eq_getElem?_getD, List.getElem?_set_self hk]
            show field (overwrite _ _ _ _) oq BTREE_PAGE_SIZE = _
            have hmin : min BTREE_PAGE_SIZE node.data.len ≤ BTREE_PAGE_SIZE := Nat.min_le_left _ _
            rw [hP] at hsame hmin ⊢
            exact field_overwrite_disjoint _ _ _ _ _ _ (by omega)
          · rw [List.getD_eq_getElem?_getD, List.getElem?_set_ne (fun e => hkk e.symm),
              ← List.getD_eq_getElem?_getD]

/-- No list of pages is the chain from a page that links to itself. -/
theorem isChain_self_loop (get : Nat → Res BNode) (head : Nat) (node : BNode)
    (hget : get head = Except.ok node) (hnext : flnNext node = Except.ok head) (h0 : head ≠ 0) :
    ∀ pages, isChain get head pages = false := by
  intro pages
  induction pages with
  | nil => simp [isChain, h0]
  | cons pg rest ih =>
    obtain ⟨p, ptrs⟩ := pg
    cases hc : isChain get head ((p, ptrs) :: rest) with
    | false => rfl
    | true =>
      rw [isChain_cons] at hc
      obtain ⟨rfl, _, node0, hg, hph, hrest⟩ := hc
      rw [hget] at hg
      cases hg
      rw [pageHolds_iff] at hph
      rw [hnext] at hph
      have e : head = chainHead rest := by
        have := hph.2.2.1
        simp only [Except.ok.injEq] at this
        exact this
      rw [← e, ih] at hrest
      cases hrest

/-! ### The order of byte slices -/

theorem leBytes_length : ∀ (w v : Nat), (leBytes w v).length = w
  | 0, _ => rfl
  | w + 1, v => by simp [leBytes, leBytes_length w]

theorem leBytes_eq_iff : ∀ (w v v' : Nat),
    leBytes w v = leBytes w v' ↔ v % 256 ^ w = v' % 256 ^ w
  | 0, v, v' => by simp [leBytes, Nat.mod_one]
  | w + 1, v, v' => by
    simp only [leBytes, List.cons.injEq, leBytes_eq_iff w]
    rw [Nat.pow_succ, Nat.mul_comm, Nat.mod_mul, Nat.mod_mul]
    constructor
    · rintro ⟨h1, h2⟩
      rw [h1, h2]
    · intro h
      have h1 : (v % 256 + 256 * (v / 256 % 256 ^ w)) % 256
          = (v' % 256 + 256 * (v' / 256 % 256 ^ w)) % 256 := by rw [h]
      have h2 : (v % 256 + 256 * (v / 256 % 256 ^ w)) / 256
          = (v' % 256 + 256 * (v' / 256 % 256 ^ w)) / 256 := by rw [h]
      constructor
      · omega
      · omega

theorem lexCompare_self : ∀ (a : List Nat), lexCompare a a = 0
  | [] => rfl
  | x :: xs => by simp [lexCompare, lexCompare_self xs]

theorem lexCompare_eq_zero : ∀ (a b : List Nat), lexCompare a b = 0 → a = b
  | [], [], _ => rfl
  | [], _ :: _, h => by simp [lexCompare] at h
  | _ :: _, [], h => by simp [lexCompare] at h
  | x :: xs, y :: ys, h => by
    simp only [lexCompare] at h
    split at h
    · simp at h
    · split at h
      · simp at h
      · have : x = y := by omega
        rw [this, lexCompare_eq_zero xs ys h]

theorem lexCompare_swap : ∀ (a b : List Nat), lexCompare b a = - lexCompare a b
  | [], [] => rfl
  | [], _ :: _ => rfl
  | _ :: _, [] => rfl
  | x :: xs, y :: ys => by
    simp only [lexCompare]
    by_cases h1 : x < y
    · have h2 : ¬ y < x := by omega
      simp [h1, h2]
    · by_cases h2 : y < x
      · simp [h1, h2]
      · simp [h1, h2, lexCompare_swap xs ys]

theorem lexCompare_trans : ∀ (a b c : List Nat),
    lexCompare a b < 0 → lexCompare b c < 0 → lexCompare a c < 0
  | [], [], _, h, _ => by simp [lexCompare] at h
  | [], _ :: _, [], _, h => by simp [lexCompare] at h
  | [], _ :: _, _ :: _, _, _ => by simp [lexCompare]
  | _ :: _, [], _, h, _ => by simp [lexCompare] at h
  | _ :: _, _ :: _, [], _, h => by simp [lexCompare] at h
  | x :: xs, y :: ys, z :: zs, h1, h2 => by
    simp only [lexCompare] at h1 h2 ⊢
    by_cases a1 : x < y
    · by_cases a2 : y < z
      · have : x < z := by omega
        simp [this]
      · by_cases a3 : z < y
        · simp [a2, a3] at h2
        · have : x < z := by omega
          simp [this]
    · by_cases a4 : y < x
      · simp [a1, a4] at h1
      · simp only [a1, a4, if_false] at h1
        have e : x = y := by omega
        subst e
        by_cases a2 : x < z
        · simp [a2]
        · by_cases a3 : z < x
          · simp [a2, a3] at h2
          · simp only [a2, a3, if_false] at h2 ⊢
            exact lexCompare_trans xs ys zs h1 h2

theorem bytesCompare_swap (a b : Bytes) : bytesCompare b a = - bytesCompare a b :=
  lexCompare_swap _ _

theorem bytesCompare_trans (a b c : Bytes) (h1 : bytesCompare a b < 0)
    (h2 : bytesCompare b c < 0) : bytesCompare a c < 0 :=
  lexCompare_trans _ _ _ h1 h2

theorem bytesCompare_eq_zero_iff (a b : Bytes) :
    bytesCompare a b = 0 ↔ bytesEqual a b = true := by
  unfold bytesCompare bytesEqual Bytes.toList
  constructor
  · intro h
    have e := lexCompare_eq_zero _ _ h
    have hl : a.len = b.len := by
      have := congrArg List.length e
      rwa [leBytes_length, leBytes_length] at this
    rw [hl] at e
    have := (leBytes_eq_iff _ _ _).1 e
    simp [hl, this]
  · intro h
    simp only [Bool.and_eq_true, decide_eq_true_eq] at h
    obtain ⟨hl, hv⟩ := h
    rw [hl] at hv ⊢
    rw [(leBytes_eq_iff _ _ _).2 hv]
    exact lexCompare_self _

theorem bytesEqual_iff_eq (a b : Bytes) (ha : a.val < 256 ^ a.len) (hb : b.val < 256 ^ b.len) :
    bytesEqual a b = true ↔ a = b := by
  unfold bytesEqual
  simp only [Bool.and_eq_true, decide_eq_true_eq]
  constructor
  · rintro ⟨hl, hv⟩
    rw [Nat.mod_eq_of_lt ha, Nat.mod_eq_of_lt hb] at hv
    cases a; cases b
    simp only at hl hv
    rw [hl, hv]
  · rintro rfl
    exact ⟨rfl, rfl⟩

theorem bytesCompare_eq_zero_iff_eq (a b : Bytes) (ha : a.val < 256 ^ a.len)
    (hb : b.val < 256 ^ b.len) : bytesCompare a b = 0 ↔ a = b :=
  (bytesCompare_eq_zero_iff a b).trans (bytesEqual_iff_eq a b ha hb)

theorem bytesCompare_self (a : Bytes) : bytesCompare a a = 0 := lexCompare_self _

/-! ### The entries of a leaf -/

theorem Leaf.pos_le (key : Bytes) : ∀ rest, Leaf.pos key rest ≤ rest.length
  | [] => Nat.le_refl _
  | e :: rest => by
    have := Leaf.pos_le key rest
    simp only [Leaf.pos, List.length_cons]
    split
    · omega
    · split <;> omega

theorem bytesEqual_false_of_lt {a b : Bytes} (h : bytesCompare a b < 0) :
    bytesEqual a b = false := by
  cases c : bytesEqual a b with
  | false => rfl
  | true =>
    have := (bytesCompare_eq_zero_iff a b).2 c
    omega

theorem bytesEqual_false_of_ne {a b : Bytes} (h2 : ¬ bytesCompare a b = 0) :
    bytesEqual a b = false := by
  cases c : bytesEqual a b with
  | false => rfl
  | true => exact absurd ((bytesCompare_eq_zero_iff a b).2 c) h2

/-- The entry at the index that the lookup returns has the key `key` exactly
when the loop stops on such an entry; `prev` is the entry in front of `rest`. -/
theorem Leaf.hit_spec (key : Bytes) : ∀ (rest : List (Nat × Bytes × Bytes))
    (prev : Nat × Bytes × Bytes), bytesEqual key prev.2.1 = false →
    ∃ e, (prev :: rest)[Leaf.pos key rest]? = some e ∧
      bytesEqual key e.2.1 = Leaf.hit key rest
  | [], prev, h => ⟨prev, rfl, h⟩
  | e :: rest, prev, h => by
    simp only [Leaf.pos, Leaf.hit]
    by_cases c1 : bytesCompare key e.2.1 < 0
    · simp only [c1, if_true]
      obtain ⟨e', h1, h2⟩ := Leaf.hit_spec key rest e (bytesEqual_false_of_lt c1)
      exact ⟨e', by simpa using h1, h2⟩
    · by_cases c2 : bytesCompare key e.2.1 = 0
      · refine ⟨e, by simp [c2], ?_⟩
        rw [(bytesCompare_eq_zero_iff _ _).1 c2]
        simp [c2]
      · simp only [c1, c2, if_false, decide_False]
        exact ⟨prev, rfl, h⟩

theorem Leaf.pos_pos_of_hit (key : Bytes) : ∀ (rest : List (Nat × Bytes × Bytes)),
    Leaf.hit key rest = true → 1 ≤ Leaf.pos key rest
  | [], h => by simp [Leaf.hit] at h
  | e :: rest, h => by
    simp only [Leaf.pos]
    split
    · omega
    · split
      · omega
      · rename_i c1 c2
        simp [Leaf.hit, c1, c2] at h

theorem Leaf.ins_of_miss (key val : Bytes) : ∀ (rest : List (Nat × Bytes × Bytes)),
    Leaf.hit key rest = false →
    rest.take (Leaf.pos key rest) ++ (0, key, val) :: rest.drop (Leaf.pos key rest)
      = Leaf.ins key val rest
  | [], _ => rfl
  | e :: rest, h => by
    simp only [Leaf.pos, Leaf.ins, Leaf.hit] at h ⊢
    by_cases c1 : bytesCompare key e.2.1 < 0
    · simp only [c1, if_true] at h ⊢
      simp only [List.take_succ_cons, List.drop_succ_cons, List.cons_append,
        Leaf.ins_of_miss key val rest h]
    · by_cases c2 : bytesCompare key e.2.1 = 0
      · simp [c1, c2] at h
      · simp [c1, c2]

theorem Leaf.ins_of_hit (key val : Bytes) : ∀ (rest : List (Nat × Bytes × Bytes)),
    Leaf.hit key rest = true →
    rest.take (Leaf.pos key rest - 1) ++ (0, key, val) :: rest.drop (Leaf.pos key rest)
      = Leaf.ins key val rest
  | [], h => by simp [Leaf.hit] at h
  | e :: rest, h => by
    simp only [Leaf.pos, Leaf.ins, Leaf.hit] at h ⊢
    by_cases c1 : bytesCompare key e.2.1 < 0
    · simp only [c1, if_true] at h ⊢
      have hp := Leaf.pos_pos_of_hit key rest h
      have e1 : Leaf.pos key rest + 1 - 1 = (Leaf.pos key rest - 1) + 1 := by omega
      rw [e1]
      simp only [List.take_succ_cons, List.drop_succ_cons, List.cons_append,
        Leaf.ins_of_hit key val rest h]
    · by_cases c2 : bytesCompare key e.2.1 = 0
      · simp [c1, c2]
      · simp [c1, c2] at h

theorem Leaf.del_of_miss (key : Bytes) : ∀ (rest : List (Nat × Bytes × Bytes)),
    Leaf.hit key rest = false → Leaf.del key rest = none
  | [], _ => rfl
  | e :: rest, h => by
    simp only [Leaf.del, Leaf.hit] at h ⊢
    by_cases c1 : bytesCompare key e.2.1 < 0
    · simp only [c1, if_true] at h ⊢
      rw [Leaf.del_of_miss key rest h]
      rfl
    · by_cases c2 : bytesCompare key e.2.1 = 0
      · simp [c1, c2] at h
      · simp [c1, c2]

theorem Leaf.del_of_hit (key : Bytes) : ∀ (rest : List (Nat × Bytes × Bytes)),
    Leaf.hit key rest = true →
    Leaf.del key rest
      = some (rest.take (Leaf.pos key rest - 1) ++ rest.drop (Leaf.pos key rest))
  | [], h => by simp [Leaf.hit] at h
  | e :: rest, h => by
    simp only [Leaf.pos, Leaf.del, Leaf.hit] at h ⊢
    by_cases c1 : bytesCompare key e.2.1 < 0
    · simp only [c1, if_true] at h ⊢
      have hp := Leaf.pos_pos_of_hit key rest h
      have e1 : Leaf.pos key rest + 1 - 1 = (Leaf.pos key rest - 1) + 1 := by omega
      rw [e1, Leaf.del_of_hit key rest h]
      simp only [List.take_succ_cons, List.drop_succ_cons, List.cons_append, Option.map_some']
    · by_cases c2 : bytesCompare key e.2.1 = 0
      · simp [c1, c2]
      · simp [c1, c2] at h

theorem Leaf.look_of_miss (key : Bytes) : ∀ (rest : List (Nat × Bytes × Bytes)),
    Leaf.hit key rest = false → Leaf.look key rest = none
  | [], _ => rfl
  | e :: rest, h => by
    simp only [Leaf.look, Leaf.hit] at h ⊢
    by_cases c1 : bytesCompare key e.2.1 < 0
    · simp only [c1, if_true] at h ⊢
      exact Leaf.look_of_miss key rest h
    · by_cases c2 : bytesCompare key e.2.1 = 0
      · simp [c1, c2] at h
      · simp [c1, c2]

theorem Leaf.look_of_hit (key : Bytes) : ∀ (rest : List (Nat × Bytes × Bytes))
    (prev : Nat × Bytes × Bytes), Leaf.hit key rest = true →
    ∃ e, (prev :: rest)[Leaf.pos key rest]? = some e ∧ Leaf.look key rest = some e.2.2
  | [], _, h => by simp [Leaf.hit] at h
  | e :: rest, prev, h => by
    simp only [Leaf.pos, Leaf.look, Leaf.hit] at h ⊢
    by_cases c1 : bytesCompare key e.2.1 < 0
    · simp only [c1, if_true] at h ⊢
      obtain ⟨e', h1, h2⟩ := Leaf.look_of_hit key rest e h
      exact ⟨e', by simpa using h1, h2⟩
    · by_cases c2 : bytesCompare key e.2.1 = 0
      · exact ⟨e, by simp [c2], by simp [c2]⟩
      · simp [c1, c2] at h

theorem Leaf.hit_eq_del (key : Bytes) (rest : List (Nat × Bytes × Bytes)) :
    Leaf.hit key rest = (Leaf.del key rest).isSome := by
  cases h : Leaf.hit key rest with
  | false => rw [Leaf.del_of_miss key rest h]; rfl
  | true => rw [Leaf.del_of_hit key rest h]; rfl

/-! ### Sorted leaves and the reference map -/

theorem bytesCompare_congr_right {a b : Bytes} (c : Bytes) (h : bytesCompare a b = 0) :
    bytesCompare c a = bytesCompare c b := by
  unfold bytesCompare at h ⊢
  rw [lexCompare_eq_zero _ _ h]

theorem bytesCompare_lt_of_gt {a b : Bytes} (h1 : ¬ bytesCompare a b < 0)
    (h2 : ¬ bytesCompare a b = 0) : bytesCompare b a < 0 := by
  rw [bytesCompare_swap a b]
  omega

theorem bytes_ne_of_lt {a b : Bytes} (h : bytesCompare a b < 0) : a ≠ b := by
  rintro rfl
  rw [bytesCompare_self] at h
  omega

/-- All the entries from the one on which the loop stops on have smaller keys. -/
theorem Leaf.lt_of_stop {key : Bytes} {e : Nat × Bytes × Bytes}
    {rest : List (Nat × Bytes × Bytes)}
    (hp : (e :: rest).Pairwise (fun a b => bytesCompare b.2.1 a.2.1 < 0))
    (h1 : ¬ bytesCompare key e.2.1 < 0) (h2 : ¬ bytesCompare key e.2.1 = 0) :
    ∀ b ∈ e :: rest, bytesCompare b.2.1 key < 0 := by
  have he := bytesCompare_lt_of_gt h1 h2
  intro b hb
  rcases List.mem_cons.1 hb with rfl | hb
  · exact he
  · exact bytesCompare_trans _ _ _ ((List.pairwise_cons.1 hp).1 b hb) he

theorem Leaf.lt_of_eq {key : Bytes} {e : Nat × Bytes × Bytes}
    {rest : List (Nat × Bytes × Bytes)}
    (hp : (e :: rest).Pairwise (fun a b => bytesCompare b.2.1 a.2.1 < 0))
    (h : bytesCompare key e.2.1 = 0) :
    ∀ b ∈ rest, bytesCompare b.2.1 key < 0 := by
  intro b hb
  rw [bytesCompare_congr_right b.2.1 h]
  exact (List.pairwise_cons.1 hp).1 b hb

theorem Leaf.mem_ins (key val : Bytes) : ∀ (rest : List (Nat × Bytes × Bytes))
    (b : Nat × Bytes × Bytes), b ∈ Leaf.ins key val rest → b = (0, key, val) ∨ b ∈ rest
  | [], b, h => by
    simp only [Leaf.ins, List.mem_singleton] at h
    exact Or.inl h
  | e :: rest, b, h => by
    simp only [Leaf.ins] at h
    split at h
    · rcases List.mem_cons.1 h with rfl | h
      · exact Or.inr (List.mem_cons_self _ _)
      · rcases Leaf.mem_ins key val rest b h with h | h
        · exact Or.inl h
        · exact Or.inr (List.mem_cons_of_mem _ h)
    · split at h
      · rcases List.mem_cons.1 h with rfl | h
        · exact Or.inl rfl
        · exact Or.inr (List.mem_cons_of_mem _ h)
      · rcases List.mem_cons.1 h with rfl | h
        · exact Or.inl rfl
        · exact Or.inr h

theorem Leaf.ins_pairwise (key val : Bytes) : ∀ (rest : List (Nat × Bytes × Bytes)),
    rest.Pairwise (fun a b => bytesCompare b.2.1 a.2.1 < 0) →
    (Leaf.ins key val rest).Pairwise (fun a b => bytesCompare b.2.1 a.2.1 < 0)
  | [], _ => List.pairwise_singleton _ _
  | e :: rest, hp => by
    simp only [Leaf.ins]
    by_cases c1 : bytesCompare key e.2.1 < 0
    · simp only [c1, if_true]
      refine List.pairwise_cons.2 ⟨?_, Leaf.ins_pairwise key val rest (List.pairwise_cons.1 hp).2⟩
      intro b hb
      rcases Leaf.mem_ins key val rest b hb with rfl | hb
      · exact c1
      · exact (List.pairwise_cons.1 hp).1 b hb
    · by_cases c2 : bytesCompare key e.2.1 = 0
      · rw [if_neg c1, if_pos c2]
        exact List.pairwise_cons.2 ⟨Leaf.lt_of_eq hp c2, (List.pairwise_cons.1 hp).2⟩
      · rw [if_neg c1, if_neg c2]
        exact List.pairwise_cons.2 ⟨Leaf.lt_of_stop hp c1 c2, hp⟩

theorem Leaf.ins_sorted (key val : Bytes) (hk : key.val < 256 ^ key.len)
    (rest : List (Nat × Bytes × Bytes)) (h : Leaf.Sorted rest) :
    Leaf.Sorted (Leaf.ins key val rest) := by
  refine ⟨?_, Leaf.ins_pairwise key val rest h.decreasing⟩
  intro b hb
  rcases Leaf.mem_ins key val rest b hb with rfl | hb
  · exact hk
  · exact h.slices b hb

theorem Leaf.del_sublist (key : Bytes) : ∀ (rest r : List (Nat × Bytes × Bytes)),
    Leaf.del key rest = some r → r.Sublist rest
  | [], r, h => by simp [Leaf.del] at h
  | e :: rest, r, h => by
    simp only [Leaf.del] at h
    split at h
    · cases hd : Leaf.del key rest with
      | none => rw [hd] at h; simp at h
      | some r' =>
        rw [hd] at h
        simp only [Option.map_some', Option.some.injEq] at h
        subst h
        exact (Leaf.del_sublist key rest r' hd).cons₂ e
    · split at h
      · simp only [Option.some.injEq] at h
        subst h
        exact List.sublist_cons_self _ _
      · simp at h

theorem Leaf.del_sorted (key : Bytes) (rest r : List (Nat × Bytes × Bytes))
    (h : Leaf.Sorted rest) (hd : Leaf.del key rest = some r) : Leaf.Sorted r :=
  ⟨fun b hb => h.slices b ((Leaf.del_sublist key rest r hd).subset hb),
    h.decreasing.sublist (Leaf.del_sublist key rest r hd)⟩

theorem Leaf.toMap_cons (e : Nat × Bytes × Bytes) (rest : List (Nat × Bytes × Bytes)) :
    Leaf.toMap (e :: rest) = (e.2.1, e.2.2) :: Leaf.toMap rest := rfl

theorem RefMap.find_cons (k v : Bytes) (m : RefMap) (key : Bytes) :
    RefMap.find ((k, v) :: m) key = if key = k then some v else RefMap.find m key := rfl

theorem RefMap.remove_cons (k v : Bytes) (m : RefMap) (key : Bytes) :
    RefMap.remove ((k, v) :: m) key
      = if k = key then RefMap.remove m key else (k, v) :: RefMap.remove m key := by
  unfold RefMap.remove
  by_cases h : k = key
  · simp [List.filter_cons, h]
  · simp [List.filter_cons, h]

theorem Leaf.remove_of_lt (key : Bytes) : ∀ (rest : List (Nat × Bytes × Bytes)),
    (∀ b ∈ rest, bytesCompare b.2.1 key < 0) →
    RefMap.remove (Leaf.toMap rest) key = Leaf.toMap rest
  | [], _ => rfl
  | e :: rest, h => by
    rw [Leaf.toMap_cons, RefMap.remove_cons,
      if_neg (bytes_ne_of_lt (h e (List.mem_cons_self _ _))),
      Leaf.remove_of_lt key rest (fun b hb => h b (List.mem_cons_of_mem _ hb))]

theorem Leaf.find_of_lt (key : Bytes) : ∀ (rest : List (Nat × Bytes × Bytes)),
    (∀ b ∈ rest, bytesCompare b.2.1 key < 0) →
    RefMap.find (Leaf.toMap rest) key = none
  | [], _ => rfl
  | e :: rest, h => by
    rw [Leaf.toMap_cons, RefMap.find_cons,
      if_neg (bytes_ne_of_lt (h e (List.mem_cons_self _ _))).symm,
      Leaf.find_of_lt key rest (fun b hb => h b (List.mem_cons_of_mem _ hb))]

/-- On a sorted leaf the lookup of the code finds the binding of the key. -/
theorem Leaf.look_eq_find (key : Bytes) (hk : key.val < 256 ^ key.len) :
    ∀ (rest : List (Nat × Bytes × Bytes)), Leaf.Sorted rest →
    Leaf.look key rest = RefMap.find (Leaf.toMap rest) key
  | [], _ => rfl
  | e :: rest, h => by
    have hs : Leaf.Sorted rest :=
      ⟨fun b hb => h.slices b (List.mem_cons_of_mem _ hb), (List.pairwise_cons.1 h.decreasing).2⟩
    simp only [Leaf.look]
    rw [Leaf.toMap_cons, RefMap.find_cons]
    by_cases c1 : bytesCompare key e.2.1 < 0
    · rw [if_pos c1, if_neg (bytes_ne_of_lt c1)]
      exact Leaf.look_eq_find key hk rest hs
    · by_cases c2 : bytesCompare key e.2.1 = 0
      · rw [if_neg c1, if_pos c2,
          if_pos ((bytesCompare_eq_zero_iff_eq _ _ hk (h.slices e (List.mem_cons_self _ _))).1 c2)]
      · have hlt := Leaf.lt_of_stop h.decreasing c1 c2
        rw [if_neg c1, if_neg c2,
          if_neg (bytes_ne_of_lt (hlt e (List.mem_cons_self _ _))).symm,
          Leaf.find_of_lt key rest (fun b hb => hlt b (List.mem_cons_of_mem _ hb))]

/-- The bindings after `treeInsert` are those of `put`, in another order. -/
theorem Leaf.toMap_ins (key val : Bytes) (hk : key.val < 256 ^ key.len) :
    ∀ (rest : List (Nat × Bytes × Bytes)), Leaf.Sorted rest →
    (Leaf.toMap (Leaf.ins key val rest)).Perm (RefMap.put (Leaf.toMap rest) key val)
  | [], _ => List.Perm.refl _
  | e :: rest, h => by
    have hs : Leaf.Sorted rest :=
      ⟨fun b hb => h.slices b (List.mem_cons_of_mem _ hb), (List.pairwise_cons.1 h.decreasing).2⟩
    simp only [Leaf.ins]
    unfold RefMap.put
    rw [Leaf.toMap_cons, RefMap.remove_cons]
    by_cases c1 : bytesCompare key e.2.1 < 0
    · rw [if_pos c1, if_neg (bytes_ne_of_lt c1).symm, Leaf.toMap_cons]
      exact ((Leaf.toMap_ins key val hk rest hs).cons _).trans (List.Perm.swap _ _ _)
    · by_cases c2 : bytesCompare key e.2.1 = 0
      · have he := (bytesCompare_eq_zero_iff_eq _ _ hk (h.slices e (List.mem_cons_self _ _))).1 c2
        rw [if_neg c1, if_pos c2, if_pos he.symm, Leaf.toMap_cons,
          Leaf.remove_of_lt key rest (Leaf.lt_of_eq h.decreasing c2)]
      · have hlt := Leaf.lt_of_stop h.decreasing c1 c2
        rw [if_neg c1, if_neg c2, if_neg (bytes_ne_of_lt (hlt e (List.mem_cons_self _ _))),
          Leaf.remove_of_lt key rest (fun b hb => hlt b (List.mem_cons_of_mem _ hb))]
        rfl

/-- The bindings after a `treeDelete` that finds the key are those of `remove`. -/
theorem Leaf.toMap_del (key : Bytes) (hk : key.val < 256 ^ key.len) :
    ∀ (rest r : List (Nat × Bytes × Bytes)), Leaf.Sorted rest →
    Leaf.del key rest = some r → Leaf.toMap r = RefMap.remove (Leaf.toMap rest) key
  | [], r, _, hd => by simp [Leaf.del] at hd
  | e :: rest, r, h, hd => by
    have hs : Leaf.Sorted rest :=
      ⟨fun b hb => h.slices b (List.mem_cons_of_mem _ hb), (List.pairwise_cons.1 h.decreasing).2⟩
    simp only [Leaf.del] at hd
    rw [Leaf.toMap_cons, RefMap.remove_cons]
    by_cases c1 : bytesCompare key e.2.1 < 0
    · rw [if_pos c1] at hd
      rw [if_neg (bytes_ne_of_lt c1).symm]
      cases hd' : Leaf.del key rest with
      | none => rw [hd'] at hd; simp at hd
      | some r' =>
        rw [hd'] at hd
        simp only [Option.map_some', Option.some.injEq] at hd
        subst hd
        rw [Leaf.toMap_cons, Leaf.toMap_del key hk rest r' hs hd']
    · by_cases c2 : bytesCompare key e.2.1 = 0
      · have he := (bytesCompare_eq_zero_iff_eq _ _ hk (h.slices e (List.mem_cons_self _ _))).1 c2
        rw [if_neg c1, if_pos c2] at hd
        simp only [Option.some.injEq] at hd
        subst hd
        rw [if_pos he.symm, Leaf.remove_of_lt key rest (Leaf.lt_of_eq h.decreasing c2)]
      · rw [if_neg c1, if_neg c2] at hd
        simp at hd

/-- A lookup that misses: the key is not bound. -/
theorem Leaf.find_of_miss (key : Bytes) (hk : key.val < 256 ^ key.len)
    (rest : List (Nat × Bytes × Bytes)) (h : Leaf.Sorted rest)
    (hm : Leaf.hit key rest = false) : RefMap.find (Leaf.toMap rest) key = none := by
  rw [← Leaf.look_eq_find key hk rest h]
  exact Leaf.look_of_miss key rest hm

/-- A lookup that hits: the key is bound. -/
theorem Leaf.find_of_hit (key : Bytes) (hk : key.val < 256 ^ key.len)
    (rest : List (Nat × Bytes × Bytes)) (h : Leaf.Sorted rest)
    (hm : Leaf.hit key rest = true) : (RefMap.find (Leaf.toMap rest) key).isSome = true := by
  rw [← Leaf.look_eq_find key hk rest h]
  obtain ⟨e, _, h2⟩ := Leaf.look_of_hit key rest (0, Bytes.nil, Bytes.nil) hm
  rw [h2]
  rfl

/-! ### The reference map -/

theorem RefMap.find_perm {l l' : RefMap} (h : l.Perm l') (key : Bytes) :
    (l.map Prod.fst).Nodup → RefMap.find l key = RefMap.find l' key := by
  induction h with
  | nil => intro _; rfl
  | cons x _ ih =>
    intro hn
    obtain ⟨k, v⟩ := x
    rw [RefMap.find_cons, RefMap.find_cons, ih (List.nodup_cons.1 hn).2]
  | swap x y l =>
    intro hn
    obtain ⟨k, v⟩ := x
    obtain ⟨k', v'⟩ := y
    simp only [List.map_cons, List.nodup_cons, List.mem_cons, not_or] at hn
    rw [RefMap.find_cons, RefMap.find_cons, RefMap.find_cons, RefMap.find_cons]
    by_cases c1 : key = k
    · by_cases c2 : key = k'
      · exact absurd (c2.symm.trans c1) hn.1.1
      · rw [if_neg c2, if_pos c1, if_pos c1]
    · rw [if_neg c1, if_neg c1]
  | trans h1 _ ih1 ih2 =>
    intro hn
    rw [ih1 hn, ih2 ((h1.map Prod.fst).nodup_iff.1 hn)]

theorem Leaf.toMap_nodup (rest : List (Nat × Bytes × Bytes)) (h : Leaf.Sorted rest) :
    ((Leaf.toMap rest).map Prod.fst).Nodup := by
  unfold Leaf.toMap
  rw [List.map_map]
  refine (List.pairwise_map.2 ?_ : List.Pairwise (· ≠ ·) _)
  refine h.decreasing.imp ?_
  intro a b hab
  exact (bytes_ne_of_lt hab).symm

theorem RefMap.put_perm {l l' : RefMap} (h : l.Perm l') (key val : Bytes) :
    (RefMap.put l key val).Perm (RefMap.put l' key val) :=
  (h.filter _).cons _

theorem RefMap.remove_perm {l l' : RefMap} (h : l.Perm l') (key : Bytes) :
    (RefMap.remove l key).Perm (RefMap.remove l' key) :=
  h.filter _

theorem RefMap.leafBytes_perm {l l' : RefMap} (h : l.Perm l') :
    RefMap.leafBytes l = RefMap.leafBytes l' := by
  unfold RefMap.leafBytes
  rw [h.length_eq, (h.map _).sum_eq]

theorem Leaf.leafBytes_toMap (rest : List (Nat × Bytes × Bytes)) :
    RefMap.leafBytes (Leaf.toMap rest)
      = HEADER + 10 * (rest.length + 1) + kvSize ((0, Bytes.nil, Bytes.nil) :: rest) := by
  have h : ∀ l : List (Nat × Bytes × Bytes),
      ((Leaf.toMap l).map (fun e => 4 + e.1.len + e.2.len)).sum = kvSize l := by
    intro l
    induction l with
    | nil => rfl
    | cons e l ih =>
      obtain ⟨p, k, v⟩ := e
      simp only [Leaf.toMap_cons, List.map_cons, List.sum_cons, kvSize, ih]
  unfold RefMap.leafBytes
  rw [h]
  simp only [Leaf.toMap, List.length_map, kvSize, Bytes.nil]
  omega

/-! ### The lookup in a leaf -/

theorem nodeLookupLE_loop_spec {node : BNode} {t nk : Nat} {all : List (Nat × Bytes × Bytes)}
    (h : node.Holds t nk all) (hfull : all.length = nk) (key : Bytes) :
    ∀ (fuel i : Nat), nk - i < fuel → 1 ≤ i →
      nodeLookupLE.loop node key nk fuel i (i - 1)
        = Except.ok (i - 1 + Leaf.pos key (all.drop i)) := by
  have hH := HEADER_eq
  have hs := h.small
  intro fuel
  induction fuel with
  | zero => intro i hf; omega
  | succ fuel ih =>
    intro i hf hi
    unfold nodeLookupLE.loop
    by_cases hin : i < nk
    · have hd : all.drop i = all[i] :: all.drop (i + 1) :=
        List.drop_eq_getElem_cons (by omega)
      have hg : all[i]? = some (all[i].1, all[i].2.1, all[i].2.2) := by
        rw [List.getElem?_eq_getElem (by omega)]
      rw [if_pos hin, Holds_getKey h i _ _ _ hg, ok_bind, hd]
      simp only [Leaf.pos]
      by_cases c1 : bytesCompare key all[i].2.1 < 0
      · have c3 : ¬ bytesCompare key all[i].2.1 ≥ 0 := by omega
        have c4 : bytesCompare key all[i].2.1 ≤ 0 := by omega
        rw [if_pos c1, if_neg c3, if_pos c4, u16_of_lt (show i + 1 < 65536 by omega)]
        have := ih (i + 1) (by omega) (by omega)
        rw [Nat.add_sub_cancel] at this
        rw [this]
        congr 1
        omega
      · have c3 : bytesCompare key all[i].2.1 ≥ 0 := by omega
        rw [if_neg c1, if_pos c3]
        by_cases c2 : bytesCompare key all[i].2.1 = 0
        · have c4 : bytesCompare key all[i].2.1 ≤ 0 := by omega
          rw [if_pos c2, if_pos c4]
          show Except.ok i = Except.ok (i - 1 + 1)
          congr 1
          omega
        · have c4 : ¬ bytesCompare key all[i].2.1 ≤ 0 := by omega
          rw [if_neg c2, if_neg c4]
          rfl
    · rw [if_neg hin, List.drop_eq_nil_of_le (by omega)]
      rfl

/-- On a leaf `nodeLookupLE` returns the index described by `Leaf.pos`. -/
theorem nodeLookupLE_leaf {node : BNode} {t : Nat} {prev : Nat × Bytes × Bytes}
    {rest : List (Nat × Bytes × Bytes)}
    (h : node.Holds t (rest.length + 1) (prev :: rest)) (key : Bytes) :
    nodeLookupLE node key = Except.ok (Leaf.pos key rest) := by
  have hs := h.small
  unfold nodeLookupLE
  rw [Holds_nkeys h, ok_bind]
  have := nodeLookupLE_loop_spec h (by simp) key LOOP16 1 (by unfold LOOP16; omega)
    (Nat.le_refl _)
  rw [this]
  simp

/-! ### The rewrites of a leaf -/

theorem sub16_of_le {a b : Nat} (h1 : b ≤ a) (h2 : a < 65536) : sub16 a b = a - b := by
  unfold sub16 u16
  omega

theorem kvSize_take_add_drop (es : List (Nat × Bytes × Bytes)) (i : Nat) :
    kvSize (es.take i) + kvSize (es.drop i) = kvSize es := by
  rw [← kvSize_append, List.take_append_drop]

theorem kvSize_cons (e : Nat × Bytes × Bytes) (es : List (Nat × Bytes × Bytes)) :
    kvSize (e :: es) = 4 + e.2.1.len + e.2.2.len + kvSize es := by
  obtain ⟨p, k, v⟩ := e
  rfl

theorem kvSize_drop_le (es : List (Nat × Bytes × Bytes)) (i j : Nat) (h : i ≤ j) :
    kvSize (es.drop j) ≤ kvSize (es.drop i) := by
  have h1 := kvSize_take_add_drop es i
  have h2 := kvSize_take_add_drop es j
  have h3 := kvSize_take_mono es i j h
  omega

/-- The function `leafInsert` writes the entries of `old` with `(0, key, value)` put in at
`index`. -/
theorem leafInsert_Holds {old : BNode} {t nk : Nat} {all : List (Nat × Bytes × Bytes)}
    (hold : old.Holds t nk all) (hfull : all.length = nk) (buf : BNode) (idx : Nat)
    (key val : Bytes) (hidx : idx ≤ nk)
    (hk : key.val < 256 ^ key.len) (hv : val.val < 256 ^ val.len)
    (hroom : HEADER + 10 * (nk + 1) + kvSize all + (4 + key.len + val.len) ≤ buf.data.len)
    (hsmall : HEADER + 10 * (nk + 1) + kvSize all + (4 + key.len + val.len) < 65536) :
    ∃ new, leafInsert buf old idx key val = Except.ok new ∧
      new.Holds BNODE_LEAF (nk + 1) (all.take idx ++ (0, key, val) :: all.drop idx) ∧
      new.data.len = buf.data.len := by
  have hH := HEADER_eq
  have s1 := kvSize_take_add_drop all idx
  have hlt : (all.take idx).length = idx := by
    rw [List.length_take, hfull]; omega
  have hdt : (all.drop idx).take (nk - idx) = all.drop idx :=
    List.take_of_length_le (by rw [List.length_drop, hfull])
  have s2 : kvSize (all.take idx ++ [(0, key, val)]) = kvSize (all.take idx) +
      (4 + key.len + val.len) := by
    rw [kvSize_append]; simp [kvSize]
  have s3 : kvSize (all.take idx ++ [(0, key, val)] ++ all.drop idx) = kvSize all +
      (4 + key.len + val.len) := by
    rw [kvSize_append, s2]; omega
  unfold leafInsert
  rw [Holds_nkeys hold, ok_bind, u16_of_lt (show nk + 1 < 65536 by omega)]
  obtain ⟨n1, e1, h1, l1⟩ := setHeader_Holds buf BNODE_LEAF (nk + 1) (by decide) (by omega)
    (by omega) (by omega)
  rw [e1, ok_bind]
  obtain ⟨n2, e2, h2, l2⟩ := nodeAppendRange_Holds 0 idx hold hfull h1 (by omega)
    (by simp only [List.length_nil]; omega)
    (by simp only [List.nil_append, List.drop_zero]; omega)
    (by simp only [List.nil_append, List.drop_zero]; omega)
  simp only [List.length_nil, List.nil_append, List.drop_zero] at e2 h2
  rw [e2, ok_bind]
  obtain ⟨n3, e3, h3, l3⟩ := nodeAppendKV_Holds h2 0 key val (by omega) (by decide) hk hv
    (by rw [s2]; omega) (by rw [s2]; omega)
  rw [hlt] at e3
  rw [e3, ok_bind, ok_bind, u16_of_lt (show idx + 1 < 65536 by omega),
    sub16_of_le hidx (by omega)]
  obtain ⟨n4, e4, h4, l4⟩ := nodeAppendRange_Holds idx (nk - idx) hold hfull h3 (by omega)
    (by rw [List.length_append, hlt, List.length_singleton]; omega)
    (by rw [hdt, s3]; omega) (by rw [hdt, s3]; omega)
  rw [List.length_append, hlt, List.length_singleton] at e4
  rw [hdt] at h4
  refine ⟨n4, e4, ?_, by omega⟩
  rw [List.append_assoc] at h4
  exact h4

/-- The function `leafUpdate` writes the entries of `old` with `(0, key, value)` in the place
of the entry at `index`. -/
theorem leafUpdate_Holds {old : BNode} {t nk : Nat} {all : List (Nat × Bytes × Bytes)}
    (hold : old.Holds t nk all) (hfull : all.length = nk) (buf : BNode) (idx : Nat)
    (key val : Bytes) (hidx : idx < nk)
    (hk : key.val < 256 ^ key.len) (hv : val.val < 256 ^ val.len)
    (hroom : HEADER + 10 * nk + kvSize all + (4 + key.len + val.len) ≤ buf.data.len)
    (hsmall : HEADER + 10 * nk + kvSize all + (4 + key.len + val.len) < 65536) :
    ∃ new, leafUpdate buf old idx key val = Except.ok new ∧
      new.Holds BNODE_LEAF nk (all.take idx ++ (0, key, val) :: all.drop (idx + 1)) ∧
      new.data.len = buf.data.len := by
  have hH := HEADER_eq
  have s1 := kvSize_take_add_drop all idx
  have s0 := kvSize_drop_le all idx (idx + 1) (by omega)
  have hlt : (all.take idx).length = idx := by
    rw [List.length_take, hfull]; omega
  have hdt : (all.drop (idx + 1)).take (nk - idx - 1) = all.drop (idx + 1) :=
    List.take_of_length_le (by rw [List.length_drop, hfull]; omega)
  have s2 : kvSize (all.take idx ++ [(0, key, val)]) = kvSize (all.take idx) +
      (4 + key.len + val.len) := by
    rw [kvSize_append]; simp [kvSize]
  have s3 : kvSize (all.take idx ++ [(0, key, val)] ++ all.drop (idx + 1)) ≤ kvSize all +
      (4 + key.len + val.len) := by
    rw [kvSize_append, s2]; omega
  unfold leafUpdate
  rw [Holds_nkeys hold, ok_bind]
  obtain ⟨n1, e1, h1, l1⟩ := setHeader_Holds buf BNODE_LEAF nk (by decide) (by omega)
    (by omega) (by omega)
  rw [e1, ok_bind]
  obtain ⟨n2, e2, h2, l2⟩ := nodeAppendRange_Holds 0 idx hold hfull h1 (by omega)
    (by simp only [List.length_nil]; omega)
    (by simp only [List.nil_append, List.drop_zero]; omega)
    (by simp only [List.nil_append, List.drop_zero]; omega)
  simp only [List.length_nil, List.nil_append, List.drop_zero] at e2 h2
  rw [e2, ok_bind]
  obtain ⟨n3, e3, h3, l3⟩ := nodeAppendKV_Holds h2 0 key val (by omega) (by decide) hk hv
    (by rw [s2]; omega) (by rw [s2]; omega)
  rw [hlt] at e3
  rw [e3, ok_bind, ok_bind, u16_of_lt (show idx + 1 < 65536 by omega),
    sub16_of_le (Nat.le_of_lt hidx) (by omega), sub16_of_le (by omega) (by omega)]
  obtain ⟨n4, e4, h4, l4⟩ := nodeAppendRange_Holds (idx + 1) (nk - idx - 1) hold hfull h3
    (by omega) (by rw [List.length_append, hlt, List.length_singleton]; omega)
    (by rw [hdt]; omega) (by rw [hdt]; omega)
  rw [List.length_append, hlt, List.length_singleton] at e4
  rw [hdt] at h4
  refine ⟨n4, e4, ?_, by omega⟩
  rw [List.append_assoc] at h4
  exact h4

/-- The function `leafDelete` writes the entries of `old` without the entry at `index`. -/
theorem leafDelete_Holds {old : BNode} {t nk : Nat} {all : List (Nat × Bytes × Bytes)}
    (hold : old.Holds t nk all) (hfull : all.length = nk) (buf : BNode) (idx : Nat)
    (hidx : idx < nk)
    (hroom : HEADER + 10 * (nk - 1) + kvSize all ≤ buf.data.len) :
    ∃ new, leafDelete buf old idx = Except.ok new ∧
      new.Holds BNODE_LEAF (nk - 1) (all.take idx ++ all.drop (idx + 1)) ∧
      new.data.len = buf.data.len := by
  have hH := HEADER_eq
  have hs := hold.small
  have s1 := kvSize_take_add_drop all idx
  have s0 := kvSize_drop_le all idx (idx + 1) (by omega)
  have hlt : (all.take idx).length = idx := by
    rw [List.length_take, hfull]; omega
  have hdt : (all.drop (idx + 1)).take (nk - (idx + 1)) = all.drop (idx + 1) :=
    List.take_of_length_le (by rw [List.length_drop, hfull])
  have s3 : kvSize (all.take idx ++ all.drop (idx + 1)) ≤ kvSize all := by
    rw [kvSize_append]; omega
  unfold leafDelete
  rw [Holds_nkeys hold, ok_bind, sub16_of_le (show 1 ≤ nk by omega) (by omega)]
  obtain ⟨n1, e1, h1, l1⟩ := setHeader_Holds buf BNODE_LEAF (nk - 1) (by decide) (by omega)
    (by omega) (by omega)
  rw [e1, ok_bind]
  obtain ⟨n2, e2, h2, l2⟩ := nodeAppendRange_Holds 0 idx hold hfull h1 (by omega)
    (by simp only [List.length_nil]; omega)
    (by simp only [List.nil_append, List.drop_zero]; omega)
    (by simp only [List.nil_append, List.drop_zero]; omega)
  simp only [List.length_nil, List.nil_append, List.drop_zero] at e2 h2
  rw [e2, ok_bind, ok_bind, u16_of_lt (show idx + 1 < 65536 by omega),
    sub16_of_le (show idx + 1 ≤ nk by omega) (by omega)]
  obtain ⟨n4, e4, h4, l4⟩ := nodeAppendRange_Holds (idx + 1) (nk - (idx + 1)) hold hfull h2
    (by omega) (by rw [hlt]; omega)
    (by rw [hdt]; omega) (by rw [hdt]; omega)
  rw [hlt] at e4
  rw [hdt] at h4
  exact ⟨n4, e4, h4, by omega⟩

/-- A node keeps its entries when its buffer is cut behind them. -/
theorem Holds_truncate {node : BNode} {t nk : Nat} {es : List (Nat × Bytes × Bytes)}
    (h : node.Holds t nk es) (hfull : es.length = nk) (n : Nat)
    (hn : HEADER + 10 * nk + kvSize es ≤ n) :
    BNode.Holds ⟨⟨n, node.data.val % 256 ^ n⟩⟩ t nk es := by
  have hH := HEADER_eq
  have hf : ∀ off w, off + w ≤ n →
      field (node.data.val % 256 ^ n) off w = field node.data.val off w :=
    fun off w hw => mod_field _ _ _ _ hw
  refine ⟨h.count, hn, h.small, ?_, ?_, ?_⟩
  · show field (node.data.val % 256 ^ n) 0 2 = t
    rw [hf 0 2 (by omega)]; exact h.kind
  · show field (node.data.val % 256 ^ n) 2 2 = nk
    rw [hf 2 2 (by omega)]; exact h.keys
  · intro i ptr key val he
    have hi : i < es.length := Holds_lt h i ptr key val he
    obtain ⟨a1, a2, a3, a4, a5, a6⟩ := h.entry i ptr key val he
    have t1 := kvSize_take_succ es i ptr key val he
    have t2 := kvSize_take_le es (i + 1)
    show field (node.data.val % 256 ^ n) _ _ = _ ∧ field (node.data.val % 256 ^ n) _ _ = _ ∧
      field (node.data.val % 256 ^ n) _ _ = _ ∧ field (node.data.val % 256 ^ n) _ _ = _ ∧
      field (node.data.val % 256 ^ n) _ _ = _ ∧ field (node.data.val % 256 ^ n) _ _ = _
    rw [hf _ _ (by omega), hf _ _ (by omega), hf _ _ (by omega), hf _ _ (by omega),
      hf _ _ (by omega), hf _ _ (by omega)]
    exact ⟨a1, a2, a3, a4, a5, a6⟩

/-! ### The calls of the tree on a leaf -/

section LeafCalls

variable {σ : Type}

theorem Leaf.ins_length (key val : Bytes) (rest : List (Nat × Bytes × Bytes)) :
    (Leaf.ins key val rest).length
      = if Leaf.hit key rest = true then rest.length else rest.length + 1 := by
  have hp := Leaf.pos_le key rest
  cases h : Leaf.hit key rest with
  | false =>
    rw [← Leaf.ins_of_miss key val rest h]
    simp only [List.length_append, List.length_take, List.length_cons, List.length_drop]
    simp
    omega
  | true =>
    have h1 := Leaf.pos_pos_of_hit key rest h
    rw [← Leaf.ins_of_hit key val rest h]
    simp only [List.length_append, List.length_take, List.length_cons, List.length_drop]
    simp
    omega

theorem bytesEqual_nil {key : Bytes} (h : 0 < key.len) : bytesEqual key Bytes.nil = false := by
  unfold bytesEqual Bytes.nil
  have : ¬ key.len = 0 := by omega
  simp [this]

/-- The call of `treeInsert` on a leaf that fits in a page: the rewritten leaf holds the
entries of `Leaf.ins`. -/
theorem treeInsert_leaf (tree : BTree σ) (s : σ) (fuel : Nat) {node : BNode}
    {rest : List (Nat × Bytes × Bytes)}
    (h : node.Holds BNODE_LEAF (rest.length + 1) ((0, Bytes.nil, Bytes.nil) :: rest))
    (hpage : HEADER + 10 * (rest.length + 1) + kvSize ((0, Bytes.nil, Bytes.nil) :: rest)
      ≤ BTREE_PAGE_SIZE)
    (key val : Bytes) (hvalid : (TreeOp.insert key val).valid) :
    ∃ new, treeInsert tree (fuel + 1) s node key val = Except.ok (new, s) ∧
      new.Holds BNODE_LEAF ((Leaf.ins key val rest).length + 1)
        ((0, Bytes.nil, Bytes.nil) :: Leaf.ins key val rest) ∧
      new.data.len = 2 * BTREE_PAGE_SIZE := by
  obtain ⟨hk0, hk1, hv1, hk, hv⟩ := hvalid
  have hH := HEADER_eq
  have hP : BTREE_PAGE_SIZE = 4096 := rfl
  have hK : BTREE_MAX_KEY_SIZE = 1000 := rfl
  have hV : BTREE_MAX_VAL_SIZE = 3000 := rfl
  have hp := Leaf.pos_le key rest
  have hlen := Leaf.ins_length key val rest
  obtain ⟨e, hge, heq⟩ := Leaf.hit_spec key rest (0, Bytes.nil, Bytes.nil) (bytesEqual_nil hk0)
  unfold treeInsert
  rw [nodeLookupLE_leaf h key, ok_bind, Holds_btype h, ok_bind, if_pos rfl,
    Holds_getKey h _ e.1 e.2.1 e.2.2 hge, ok_bind, heq]
  cases hh : Leaf.hit key rest with
  | true =>
    rw [if_pos rfl]
    have h1 := Leaf.pos_pos_of_hit key rest hh
    obtain ⟨new, e1, h2, l2⟩ := leafUpdate_Holds h (by simp)
      ⟨makeBytes (2 * BTREE_PAGE_SIZE)⟩ (Leaf.pos key rest) key val (by omega) hk hv
      (by show _ ≤ 2 * BTREE_PAGE_SIZE; omega) (by omega)
    rw [e1, ok_bind]
    refine ⟨new, rfl, ?_, l2⟩
    rw [hlen, hh, if_pos rfl, ← Leaf.ins_of_hit key val rest hh]
    have e2 : Leaf.pos key rest = (Leaf.pos key rest - 1) + 1 := by omega
    rw [e2] at h2
    simp only [List.take_succ_cons, List.drop_succ_cons, List.cons_append] at h2
    rw [← e2] at h2
    exact h2
  | false =>
    rw [if_neg (by simp), u16_of_lt (show Leaf.pos key rest + 1 < 65536 by omega)]
    obtain ⟨new, e1, h2, l2⟩ := leafInsert_Holds h (by simp)
      ⟨makeBytes (2 * BTREE_PAGE_SIZE)⟩ (Leaf.pos key rest + 1) key val (by omega) hk hv
      (by show _ ≤ 2 * BTREE_PAGE_SIZE; omega) (by omega)
    rw [e1, ok_bind]
    refine ⟨new, rfl, ?_, l2⟩
    rw [hlen, hh, if_neg (by simp), ← Leaf.ins_of_miss key val rest hh]
    simp only [List.take_succ_cons, List.drop_succ_cons, List.cons_append] at h2
    exact h2

/-- The call of `treeDelete` on a leaf: the rewritten leaf holds the entries of `Leaf.del`;
the empty node is returned when the key is not found. -/
theorem treeDelete_leaf (tree : BTree σ) (s : σ) (fuel : Nat) {node : BNode}
    {rest : List (Nat × Bytes × Bytes)}
    (h : node.Holds BNODE_LEAF (rest.length + 1) ((0, Bytes.nil, Bytes.nil) :: rest))
    (hpage : HEADER + 10 * (rest.length + 1) + kvSize ((0, Bytes.nil, Bytes.nil) :: rest)
      ≤ BTREE_PAGE_SIZE)
    (key : Bytes) (hk0 : 0 < key.len) :
    (Leaf.del key rest = none ∧
      treeDelete tree (fuel + 1) s node key = Except.ok (⟨Bytes.nil⟩, s)) ∨
    (∃ r new, Leaf.del key rest = some r ∧
      treeDelete tree (fuel + 1) s node key = Except.ok (new, s) ∧
      new.Holds BNODE_LEAF (r.length + 1) ((0, Bytes.nil, Bytes.nil) :: r) ∧
      new.data.len = BTREE_PAGE_SIZE) := by
  have hH := HEADER_eq
  have hP : BTREE_PAGE_SIZE = 4096 := rfl
  have hp := Leaf.pos_le key rest
  obtain ⟨e, hge, heq⟩ := Leaf.hit_spec key rest (0, Bytes.nil, Bytes.nil) (bytesEqual_nil hk0)
  unfold treeDelete
  rw [nodeLookupLE_leaf h key, ok_bind, Holds_btype h, ok_bind, if_pos rfl,
    Holds_getKey h _ e.1 e.2.1 e.2.2 hge, ok_bind, heq]
  cases hh : Leaf.hit key rest with
  | true =>
    right
    rw [if_pos rfl]
    have h1 := Leaf.pos_pos_of_hit key rest hh
    obtain ⟨new, e1, h2, l2⟩ := leafDelete_Holds h (by simp)
      ⟨makeBytes BTREE_PAGE_SIZE⟩ (Leaf.pos key rest) (by omega)
      (by show _ ≤ BTREE_PAGE_SIZE; omega)
    refine ⟨_, new, Leaf.del_of_hit key rest hh, ?_, ?_, l2⟩
    · dsimp only
      rw [e1, ok_bind]
      rfl
    have e2 : Leaf.pos key rest = (Leaf.pos key rest - 1) + 1 := by omega
    rw [e2] at h2
    simp only [List.take_succ_cons, List.drop_succ_cons, List.cons_append,
      Nat.add_sub_cancel] at h2
    rw [← e2] at h2
    have e3 : (rest.take (Leaf.pos key rest - 1) ++ rest.drop (Leaf.pos key rest)).length + 1
        = rest.length := by
      simp only [List.length_append, List.length_take, List.length_drop]
      omega
    rw [e3]
    exact h2
  | false =>
    left
    rw [if_neg (by simp)]
    exact ⟨Leaf.del_of_miss key rest hh, rfl⟩

/-- The call of `treeGet` on a leaf returns the value that `Leaf.look` describes. -/
theorem treeGet_leaf (tree : BTree σ) (s : σ) (fuel : Nat) {node : BNode}
    {rest : List (Nat × Bytes × Bytes)}
    (h : node.Holds BNODE_LEAF (rest.length + 1) ((0, Bytes.nil, Bytes.nil) :: rest))
    (key : Bytes) (hk0 : 0 < key.len) (hk1 : key.len ≤ BTREE_MAX_KEY_SIZE) :
    treeGet tree s (fuel + 1) node key = Except.ok (Leaf.look key rest) := by
  obtain ⟨e, hge, heq⟩ := Leaf.hit_spec key rest (0, Bytes.nil, Bytes.nil) (bytesEqual_nil hk0)
  unfold treeGet
  rw [assert_true (by simpa using hk1), ok_bind, nodeLookupLE_leaf h key, ok_bind,
    Holds_btype h, ok_bind, if_pos rfl, Holds_getKey h _ e.1 e.2.1 e.2.2 hge, ok_bind, heq]
  cases hh : Leaf.hit key rest with
  | true =>
    obtain ⟨e', hge', hl⟩ := Leaf.look_of_hit key rest (0, Bytes.nil, Bytes.nil) hh
    rw [hge] at hge'
    cases hge'
    rw [if_pos rfl, hl]
    unfold leafGet
    rw [Holds_getValue h _ e.1 e.2.1 e.2.2 hge, ok_bind]
    rfl
  | false =>
    rw [if_neg (by simp), Leaf.look_of_miss key rest hh]
    rfl

/-- The call of `nodeSplit3` on a node that fits in a page returns it, cut to a page. -/
theorem nodeSplit3_fits {node : BNode} {t nk : Nat} {es : List (Nat × Bytes × Bytes)}
    (h : node.Holds t nk es) (hfull : es.length = nk)
    (hfit : HEADER + 10 * nk + kvSize es ≤ BTREE_PAGE_SIZE)
    (hlen : BTREE_PAGE_SIZE ≤ node.data.len) :
    nodeSplit3 node = Except.ok (1, [⟨⟨BTREE_PAGE_SIZE, node.data.val % 256 ^ BTREE_PAGE_SIZE⟩⟩,
      ⟨Bytes.nil⟩, ⟨Bytes.nil⟩]) := by
  unfold nodeSplit3
  rw [Holds_nbytes h hfull, ok_bind, if_pos hfit]
  obtain ⟨⟨l, v⟩⟩ := node
  rw [sliceTo_mk l v _ hlen, ok_bind]
  rfl

end LeafCalls

/-! ### The calls of the tree over a lawful page manager -/

section TreeCalls

variable {σ : Type}

theorem RefMap.remove_of_find_none (key : Bytes) : ∀ (m : RefMap),
    RefMap.find m key = none → RefMap.remove m key = m
  | [], _ => rfl
  | (k, v) :: m, h => by
    rw [RefMap.find_cons] at h
    by_cases c : key = k
    · rw [if_pos c] at h
      cases h
    · rw [if_neg c] at h
      rw [RefMap.remove_cons, if_neg (fun e => c e.symm), RefMap.remove_of_find_none key m h]

/-- The call `Insert` on a tree that is a single leaf (or empty), when the leaf of the new
bindings fits in a page: the call returns a root that is not 0, and the tree is
a single leaf that holds the bindings of `put`. -/
theorem BTree.Insert_leaf (tree : BTree σ) (room : σ → Nat) (hlaw : tree.Lawful room)
    (s : σ) (m : RefMap) (fuel : Nat) (key val : Bytes)
    (hvalid : (TreeOp.insert key val).valid)
    (hinv : tree.Holds s tree.root m)
    (hfit : (m.put key val).leafBytes ≤ BTREE_PAGE_SIZE) (hroom : 0 < room s) :
    ∃ root' s', tree.Insert s (fuel + 1) key val = Except.ok (root', s') ∧ root' ≠ 0 ∧
      tree.Holds s' root' (m.put key val) ∧ room s ≤ room s' + 1 := by
  have hv := hvalid
  obtain ⟨hk0, hk1, hv1, hk, hvv⟩ := hv
  have hH := HEADER_eq
  have hP : BTREE_PAGE_SIZE = 4096 := rfl
  have hK : BTREE_MAX_KEY_SIZE = 1000 := rfl
  have hV : BTREE_MAX_VAL_SIZE = 3000 := rfl
  unfold BTree.Insert
  rw [assert_true (decide_eq_true (by omega : key.len ≠ 0)), ok_bind,
    assert_true (decide_eq_true hk1), ok_bind, assert_true (decide_eq_true hv1), ok_bind]
  rcases hinv with ⟨hr0, hm⟩ | ⟨hr, node, rest, hget, hlen, hh, hsorted, hperm⟩
  · rw [if_pos hr0]
    obtain ⟨n1, e1, h1, l1⟩ := setHeader_Holds ⟨makeBytes BTREE_PAGE_SIZE⟩ BNODE_LEAF 2
      (by decide) (by decide) (by show _ ≤ BTREE_PAGE_SIZE; omega) (by omega)
    obtain ⟨n2, e2, h2, l2⟩ := nodeAppendKV_Holds h1 0 Bytes.nil Bytes.nil (by decide)
      (by decide) (by decide) (by decide)
      (by rw [l1]; show _ ≤ BTREE_PAGE_SIZE; simp [kvSize, Bytes.nil]; omega)
      (by simp [kvSize, Bytes.nil]; omega)
    obtain ⟨n3, e3, h3, l3⟩ := nodeAppendKV_Holds h2 0 key val (by decide)
      (by decide) hk hvv
      (by rw [l2, l1]; show _ ≤ BTREE_PAGE_SIZE; simp [kvSize, Bytes.nil]; omega)
      (by simp [kvSize, Bytes.nil]; omega)
    simp only [List.length_nil, List.nil_append, List.length_singleton] at e2 e3 h2 h3
    dsimp only
    rw [e1, ok_bind, e2, ok_bind, e3, ok_bind]
    obtain ⟨p, s', hnew, hp, hget', hroom'⟩ := hlaw.new_ok s n3 hroom
      (by rw [l3, l2, l1]; exact Nat.le_refl _)
    refine ⟨p, s', hnew, hp, Or.inr ⟨hp, n3, [(0, key, val)], hget', by rw [l3, l2, l1]; rfl,
      h3, ⟨?_, List.pairwise_singleton _ _⟩, ?_⟩, hroom'⟩
    · intro e he
      rw [List.mem_singleton.1 he]
      exact hk
    · rw [hm]
      exact List.Perm.refl _
  · rw [if_neg hr, hget, ok_bind]
    obtain ⟨s1, hdel, hroom1⟩ := hlaw.del_ok s tree.root
    rw [hdel, ok_bind]
    have hpage : HEADER + 10 * (rest.length + 1) + kvSize ((0, Bytes.nil, Bytes.nil) :: rest)
        ≤ BTREE_PAGE_SIZE := by
      have := hh.room
      omega
    obtain ⟨new, enew, hnewH, lnew⟩ := treeInsert_leaf tree s1 fuel hh hpage key val hvalid
    rw [enew, ok_bind]
    have hperm' : (Leaf.toMap (Leaf.ins key val rest)).Perm (m.put key val) :=
      (Leaf.toMap_ins key val hk rest hsorted).trans (RefMap.put_perm hperm key val)
    have hfit' : HEADER + 10 * ((Leaf.ins key val rest).length + 1)
        + kvSize ((0, Bytes.nil, Bytes.nil) :: Leaf.ins key val rest) ≤ BTREE_PAGE_SIZE := by
      rw [← Leaf.leafBytes_toMap, RefMap.leafBytes_perm hperm']
      exact hfit
    dsimp only
    rw [nodeSplit3_fits hnewH (by simp) hfit' (by rw [lnew]; omega), ok_bind]
    dsimp only
    rw [if_neg (by decide)]
    obtain ⟨p, s', hnew, hp, hget', hroom'⟩ := hlaw.new_ok s1
      ⟨⟨BTREE_PAGE_SIZE, new.data.val % 256 ^ BTREE_PAGE_SIZE⟩⟩ (by omega) (Nat.le_refl _)
    refine ⟨p, s', hnew, hp, Or.inr ⟨hp, _, Leaf.ins key val rest, hget', rfl,
      Holds_truncate hnewH (by simp) _ hfit', Leaf.ins_sorted key val hk rest hsorted, hperm'⟩,
      by omega⟩

/-- The call `Delete` on a tree that is a single leaf (or empty): the call returns
whether the key was bound, and the tree is a single leaf (or empty) that holds
the bindings of `remove`. -/
theorem BTree.Delete_leaf (tree : BTree σ) (room : σ → Nat) (hlaw : tree.Lawful room)
    (s : σ) (m : RefMap) (fuel : Nat) (key : Bytes)
    (hvalid : (TreeOp.delete key).valid)
    (hinv : tree.Holds s tree.root m) (hroom : 0 < room s) :
    ∃ root' s', tree.Delete s (fuel + 1) key
        = Except.ok ((RefMap.find m key).isSome, root', s') ∧
      (root' = 0 ↔ tree.root = 0) ∧
      tree.Holds s' root' (m.remove key) ∧ room s ≤ room s' + 1 := by
  obtain ⟨hk0, hk1, hk⟩ := hvalid
  have hH := HEADER_eq
  have hP : BTREE_PAGE_SIZE = 4096 := rfl
  unfold BTree.Delete
  rw [assert_true (decide_eq_true (by omega : key.len ≠ 0)), ok_bind,
    assert_true (decide_eq_true hk1), ok_bind]
  rcases hinv with ⟨hr0, hm⟩ | ⟨hr, node, rest, hget, hlen, hh, hsorted, hperm⟩
  · rw [if_pos hr0, hm]
    exact ⟨tree.root, s, rfl, Iff.rfl, Or.inl ⟨hr0, rfl⟩, by omega⟩
  · rw [if_neg hr, hget, ok_bind]
    have hpage : HEADER + 10 * (rest.length + 1) + kvSize ((0, Bytes.nil, Bytes.nil) :: rest)
        ≤ BTREE_PAGE_SIZE := by
      have := hh.room
      omega
    have hfind : RefMap.find m key = RefMap.find (Leaf.toMap rest) key :=
      (RefMap.find_perm hperm key (Leaf.toMap_nodup rest hsorted)).symm
    rcases treeDelete_leaf tree s fuel hh hpage key hk0 with ⟨hd, e⟩ | ⟨r, new, hd, e, hnewH, lnew⟩
    · have hmiss : Leaf.hit key rest = false := by rw [Leaf.hit_eq_del, hd]; rfl
      have hnone := Leaf.find_of_miss key hk rest hsorted hmiss
      rw [e, ok_bind]
      dsimp only
      rw [if_pos (by rfl), hfind, hnone]
      refine ⟨tree.root, s, rfl, Iff.rfl, Or.inr ⟨hr, node, rest, hget, hlen, hh, hsorted, ?_⟩,
        by omega⟩
      have := RefMap.remove_perm hperm key
      rwa [RefMap.remove_of_find_none key _ hnone] at this
    · have hhit : Leaf.hit key rest = true := by rw [Leaf.hit_eq_del, hd]; rfl
      have hsome := Leaf.find_of_hit key hk rest hsorted hhit
      rw [e, ok_bind]
      dsimp only
      rw [if_neg (by rw [lnew]; decide)]
      obtain ⟨s1, hdel, hroom1⟩ := hlaw.del_ok s tree.root
      rw [hdel, ok_bind, Holds_btype hnewH, ok_bind, if_neg (by decide)]
      obtain ⟨p, s', hnew, hp, hget', hroom'⟩ := hlaw.new_ok s1 new (by omega)
        (Nat.le_of_eq lnew)
      simp only [pure, Except.pure, ok_bind, Bool.false_eq_true, if_false]
      rw [hnew, ok_bind, hfind, hsome]
      refine ⟨p, s', rfl, ⟨fun h => absurd h hp, fun h => absurd h hr⟩,
        Or.inr ⟨hp, new, r, hget', lnew, hnewH, Leaf.del_sorted key rest r hsorted hd, ?_⟩,
        by omega⟩
      rw [Leaf.toMap_del key hk rest r hsorted hd]
      exact RefMap.remove_perm hperm key

/-- The call `Get` on a tree that is a single leaf returns the binding of the key. -/
theorem BTree.Get_leaf (tree : BTree σ) (s : σ) (m : RefMap) (fuel : Nat) (key : Bytes)
    (hvalid : (TreeOp.delete key).valid)
    (hinv : tree.Holds s tree.root m) (hroot : tree.root ≠ 0) :
    tree.Get s (fuel + 1) key
      = Except.ok (RefMap.find m key, (RefMap.find m key).isSome) := by
  obtain ⟨hk0, hk1, hk⟩ := hvalid
  unfold BTree.Get
  rw [assert_true (decide_eq_true hk1), ok_bind]
  rcases hinv with ⟨hr0, _⟩ | ⟨hr, node, rest, hget, hlen, hh, hsorted, hperm⟩
  · exact absurd hr0 hroot
  · rw [hget, ok_bind, treeGet_leaf tree s fuel hh key hk0 hk1, ok_bind,
      Leaf.look_eq_find key hk rest hsorted,
      RefMap.find_perm hperm key (Leaf.toMap_nodup rest hsorted)]
    rfl

end TreeCalls

/-! ### Sequences of calls on a single leaf -/

section Calls

variable {σ : Type}

theorem BTree.Lawful_with_root {tree : BTree σ} {room : σ → Nat} (h : tree.Lawful room)
    (root : Nat) : BTree.Lawful { tree with root := root } room :=
  ⟨h.new_ok, h.del_ok⟩

/-- A sequence of valid calls, made on a tree that is a single leaf (or empty)
and such that after every call the leaf of the bindings fits in a page: every
call returns, the `Delete` calls return what the reference map says, and the
tree is again a single leaf (or empty) that holds the bindings of the map. -/
theorem BTree.calls_leaf (tree : BTree σ) (room : σ → Nat) (hlaw : tree.Lawful room)
    (fuel : Nat) : ∀ (ops : List TreeOp) (root : Nat) (s : σ) (m : RefMap),
    (∀ op ∈ ops, op.valid) → RefMap.fits ops m → tree.Holds s root m →
    ops.length ≤ room s →
    ∃ root' s', tree.calls (fuel + 1) ops root s
        = Except.ok ((RefMap.calls ops m).1, root', s') ∧
      tree.Holds s' root' (RefMap.calls ops m).2 ∧
      (root' = 0 ↔ root = 0 ∧ ∀ op ∈ ops, ∃ key, op = TreeOp.delete key)
  | [], root, s, m, _, _, hinv, _ =>
    ⟨root, s, rfl, hinv, ⟨fun h => ⟨h, fun _ h' => absurd h' (List.not_mem_nil _)⟩, fun h => h.1⟩⟩
  | TreeOp.insert key val :: rest, root, s, m, hvalid, hfits, hinv, hroom => by
    have hv := hvalid _ (List.mem_cons_self _ _)
    obtain ⟨root1, s1, e1, hroot1, hinv1, hroom1⟩ :=
      BTree.Insert_leaf { tree with root := root } room (BTree.Lawful_with_root hlaw root)
        s m fuel key val hv hinv hfits.1 (by simp only [List.length_cons] at hroom; omega)
    obtain ⟨root', s', e', hinv', hroot'⟩ := BTree.calls_leaf tree room hlaw fuel rest root1 s1
      (m.put key val) (fun op hop => hvalid op (List.mem_cons_of_mem _ hop)) hfits.2 hinv1
      (by simp only [List.length_cons] at hroom; omega)
    refine ⟨root', s', ?_, hinv', ?_⟩
    · unfold BTree.calls
      rw [e1, ok_bind]
      exact e'
    · constructor
      · intro h
        exact absurd (hroot'.1 h).1 hroot1
      · intro h
        obtain ⟨k, hk⟩ := h.2 _ (List.mem_cons_self _ _)
        cases hk
  | TreeOp.delete key :: rest, root, s, m, hvalid, hfits, hinv, hroom => by
    have hv := hvalid _ (List.mem_cons_self _ _)
    obtain ⟨root1, s1, e1, hroot1, hinv1, hroom1⟩ :=
      BTree.Delete_leaf { tree with root := root } room (BTree.Lawful_with_root hlaw root)
        s m fuel key hv hinv (by simp only [List.length_cons] at hroom; omega)
    obtain ⟨root', s', e', hinv', hroot'⟩ := BTree.calls_leaf tree room hlaw fuel rest root1 s1
      (m.remove key) (fun op hop => hvalid op (List.mem_cons_of_mem _ hop)) hfits.2 hinv1
      (by simp only [List.length_cons] at hroom; omega)
    refine ⟨root', s', ?_, hinv', ?_⟩
    · unfold BTree.calls
      rw [e1, ok_bind]
      dsimp only
      rw [e', ok_bind]
      rfl
    · rw [hroot', hroot1]
      constructor
      · rintro ⟨h1, h2⟩
        refine ⟨h1, fun op hop => ?_⟩
        rcases List.mem_cons.1 hop with rfl | hop
        · exact ⟨key, rfl⟩
        · exact h2 op hop
      · rintro ⟨h1, h2⟩
        exact ⟨h1, fun op hop => h2 op (List.mem_cons_of_mem _ hop)⟩

end Calls

/-! ### The page manager of `kv.go` -/

/-- The page manager of the store keeps the contract of the tree as long as no
free list is in use and the page numbers stay below `2 ^ 64`. -/
theorem KV.tree_lawful (fuel : Nat) (db : KV) : (db.tree fuel).Lawful KV.room := by
  constructor
  · intro s node hroom hlen
    unfold KV.room at hroom
    split at hroom
    · rename_i hc
      obtain ⟨hhead, hpos⟩ := hc
      have hlt : s.flushed + s.nappend < 18446744073709551616 := by omega
      have hnew : KV.pageNew fuel s node = Except.ok (s.flushed + s.nappend,
          { s with nappend := s.nappend + 1,
                   updates := mapSet s.updates (s.flushed + s.nappend) (some node.data) }) := by
        unfold KV.pageNew FreeList.Total KV.free
        rw [assert_true (decide_eq_true hlen), ok_bind]
        simp only [hhead, if_true, pure, Except.pure, ok_bind]
        rw [if_neg (by omega)]
        unfold u64
        rw [Nat.mod_eq_of_lt hlt]
      refine ⟨_, _, hnew, by omega, ?_, ?_⟩
      · show KV.pageGet _ _ = _
        unfold KV.pageGet
        simp only [mapGet_mapSet_same]
        rfl
      · unfold KV.room
        simp only [hhead, true_and]
        rw [if_pos hpos, if_pos (by omega)]
        omega
    · omega
  · intro s p
    exact ⟨_, rfl, Nat.le_refl _⟩

/-! ### A single leaf refines a finite map -/

/-- A single-leaf tree refines a finite map.  Over a page manager that keeps its
contract and has room for one page per call, let `ops` be a sequence of `Insert`
and `Delete` calls whose arguments pass the asserts, made on the empty tree
(root 0), such that after every call the leaf of the bindings fits in a page.
Then every call returns and every `Delete(key)` returns whether `key` was bound
in the reference map; the root is 0 exactly when no `Insert` was made; and when
the root is not 0 it is a leaf page whose `nbytes()` is the size of the leaf of
the bindings, and `Get(key)` returns, for every key that is a non-empty byte
slice within `BTREE_MAX_KEY_SIZE`, the value bound to it in the reference map
(and whether there is one). -/
theorem BTree.single_leaf_refines_map {σ : Type} (tree : BTree σ) (room : σ → Nat)
    (hlaw : tree.Lawful room) (s : σ) (fuel : Nat) (ops : List TreeOp)
    (hvalid : ∀ op ∈ ops, op.valid) (hfits : RefMap.fits ops [])
    (hroom : ops.length ≤ room s) :
    ∃ root' s',
      tree.calls (fuel + 1) ops 0 s = Except.ok ((RefMap.calls ops []).1, root', s') ∧
      (root' = 0 ↔ ∀ op ∈ ops, ∃ key, op = TreeOp.delete key) ∧
      (root' ≠ 0 →
        (∃ node, tree.get s' root' = Except.ok node ∧ node.btype = Except.ok BNODE_LEAF ∧
          node.nbytes = Except.ok (RefMap.calls ops []).2.leafBytes) ∧
        ∀ key, (TreeOp.delete key).valid →
          BTree.Get { tree with root := root' } s' (fuel + 1) key
            = Except.ok ((RefMap.calls ops []).2.find key,
                ((RefMap.calls ops []).2.find key).isSome)) := by
  obtain ⟨root', s', e, hinv, hroot⟩ := BTree.calls_leaf tree room hlaw fuel ops 0 s []
    hvalid hfits (Or.inl ⟨rfl, rfl⟩) hroom
  refine ⟨root', s', e, ?_, ?_⟩
  · rw [hroot]
    exact ⟨fun h => h.2, fun h => ⟨rfl, h⟩⟩
  · intro hne
    refine ⟨?_, fun key hkey =>
      BTree.Get_leaf { tree with root := root' } s' _ fuel key hkey hinv hne⟩
    rcases hinv with ⟨h0, _⟩ | ⟨_, node, rest, hget, _, hh, _, hperm⟩
    · exact absurd h0 hne
    · refine ⟨node, hget, Holds_btype hh, ?_⟩
      rw [Holds_nbytes hh (by simp), ← RefMap.leafBytes_perm hperm, Leaf.leafBytes_toMap]

/-- The tree of a fresh store of `kv.go` on the calls Insert("a", "x"),
Insert("b", "y"), Delete("a"), Delete("c"), Insert("b", "") : the `Delete` calls
return true and false, and `Get` agrees with the reference map, which binds "b"
to the empty value and nothing else. -/
theorem KV.single_leaf_example :
    ∃ root' db',
      (KV.fresh.tree 8).calls 8
        [TreeOp.insert (Bytes.ofList [97]) (Bytes.ofList [120]),
          TreeOp.insert (Bytes.ofList [98]) (Bytes.ofList [121]),
          TreeOp.delete (Bytes.ofList [97]), TreeOp.delete (Bytes.ofList [99]),
          TreeOp.insert (Bytes.ofList [98]) Bytes.nil] 0 KV.fresh
        = Except.ok ([true, false], root', db') ∧
      root' ≠ 0 ∧
      BTree.Get { KV.fresh.tree 8 with root := root' } db' 8 (Bytes.ofList [97])
        = Except.ok (none, false) ∧
      BTree.Get { KV.fresh.tree 8 with root := root' } db' 8 (Bytes.ofList [98])
        = Except.ok (some Bytes.nil, true) := by
  obtain ⟨root', db', e, hroot, hget⟩ := BTree.single_leaf_refines_map (KV.fresh.tree 8)
    KV.room (KV.tree_lawful 8 KV.fresh) KV.fresh 7
    [TreeOp.insert (Bytes.ofList [97]) (Bytes.ofList [120]),
      TreeOp.insert (Bytes.ofList [98]) (Bytes.ofList [121]),
      TreeOp.delete (Bytes.ofList [97]), TreeOp.delete (Bytes.ofList [99]),
      TreeOp.insert (Bytes.ofList [98]) Bytes.nil]
    (by
      intro op hop
      simp only [List.mem_cons, List.mem_singleton, List.not_mem_nil, or_false] at hop
      rcases hop with rfl | rfl | rfl | rfl | rfl <;> decide)
    (by decide) (by decide)
  have hne : root' ≠ 0 := by
    intro h
    obtain ⟨key, hk⟩ := hroot.1 h _ (List.mem_cons_self _ _)
    cases hk
  exact ⟨root', db', e, hne, (hget hne).2 (Bytes.ofList [97]) (by decide),
    (hget hne).2 (Bytes.ofList [98]) (by decide)⟩

/-! ## Theorems -/

/-- C1 (fails on the code). Into the empty tree of a fresh store: Insert("a", v)
returns and Insert("b", w), with `v` and `w` of 2500 bytes each, panics (the root
leaf overflows and the loop of `nodeSplit2` runs below index 0); likewise seven
inserts of the distinct keys "k\x01", ..., "k\x07" with values of 500 bytes
return and the eighth one, of "k\x08", panics.  No `Get` can follow.  The same
holds for the calls of `Set`, flush included. -/
theorem C1_insert_that_splits_the_root_leaf_panics :
    (KV.treeInserts 8 [(Bytes.ofList [97], makeBytes 2500)] KV.fresh).isOk = true ∧
    KV.treeInserts 8
      [(Bytes.ofList [97], makeBytes 2500), (Bytes.ofList [98], makeBytes 2500)] KV.fresh
      = Except.error Fail.panic ∧
    (KV.treeInserts 8
      ((List.range 7).map (fun i => (Bytes.ofList [107, i + 1], makeBytes 500)))
      KV.fresh).isOk = true ∧
    KV.treeInserts 8
      ((List.range 8).map (fun i => (Bytes.ofList [107, i + 1], makeBytes 500)))
      KV.fresh = Except.error Fail.panic ∧
    (KV.Sets OS.ok 8 [(Bytes.ofList [97], makeBytes 2500)] KV.fresh).isOk = true ∧
    KV.Sets OS.ok 8
      [(Bytes.ofList [97], makeBytes 2500), (Bytes.ofList [98], makeBytes 2500)] KV.fresh
      = Except.error Fail.panic := by
  decide!

/-- C2 (fails on the code). After Insert("c", 2050 bytes), Insert("a", [1]),
Insert("b", 2050 bytes), which all return and leave an internal root over two
leaves, Get("a") returns `[1]`; the call Insert("a", [2]) then rewrites the second
child and installs it under the separator `old.getKey(0)` (the empty key), and
the following Get("a") descends into the first child and returns absent instead
of the last value `[2]`.  The same holds for the calls of `Set`, flush included. -/
theorem C2_last_value_lost_under_second_child :
    (do
      let db ← KV.treeInserts 8
        [(Bytes.ofList [99], makeBytes 2050), (Bytes.ofList [97], Bytes.ofList [1]),
          (Bytes.ofList [98], makeBytes 2050)] KV.fresh
      let before ← db.Get 8 (Bytes.ofList [97])
      let db ← KV.treeInsert 8 db (Bytes.ofList [97]) (Bytes.ofList [2])
      let after ← db.Get 8 (Bytes.ofList [97])
      pure (before, after))
      = Except.ok ((some (Bytes.ofList [1]), true), (none, false)) ∧
    (do
      let db ← KV.Sets OS.ok 8
        [(Bytes.ofList [99], makeBytes 2050), (Bytes.ofList [97], Bytes.ofList [1]),
          (Bytes.ofList [98], makeBytes 2050)] KV.fresh
      let before ← db.Get 8 (Bytes.ofList [97])
      let (err, db) ← KV.Set OS.ok db 8 (Bytes.ofList [97]) (Bytes.ofList [2])
      let after ← db.Get 8 (Bytes.ofList [97])
      pure (before, err, after))
      = Except.ok ((some (Bytes.ofList [1]), true), none, (none, false)) := by
  decide!

/-- C3 (fails on the code). After Insert("d", 2050 bytes), Insert("a", ""),
Insert("c", 2050 bytes), Insert("b", ""), which all return, the first
Delete("c") of the inserted key "c" returns false: the last insert installed the
rewritten second child under the separator `old.getKey(0)` (the empty key), so
the lookup no longer reaches the leaf holding "c".  The same holds for the calls
of `Set` and `Del`, flush included. -/
theorem C3_first_delete_of_inserted_key_returns_false :
    (do
      let db ← KV.treeInserts 8
        [(Bytes.ofList [100], makeBytes 2050), (Bytes.ofList [97], Bytes.nil),
          (Bytes.ofList [99], makeBytes 2050), (Bytes.ofList [98], Bytes.nil)] KV.fresh
      let (deleted, _) ← KV.treeDelete 8 db (Bytes.ofList [99])
      pure deleted) = Except.ok false ∧
    (do
      let db ← KV.Sets OS.ok 8
        [(Bytes.ofList [100], makeBytes 2050), (Bytes.ofList [97], Bytes.nil),
          (Bytes.ofList [99], makeBytes 2050), (Bytes.ofList [98], Bytes.nil)] KV.fresh
      let (deleted, err, _) ← KV.Del OS.ok db 8 (Bytes.ofList [99])
      pure (deleted, err)) = Except.ok (false, none) := by
  decide!

/-- C4 (fails on the code). `Get` has no guard for `root = 0` (`Delete` has
one): it reads page 0, the master page, as a node.  For every store whose tree is
empty (`root = 0`, no pending page 0) and whose first mapped chunk starts with a
page carrying the signature of the master page, and for every key, `Get` panics
instead of returning absent: the bytes "16" at offset 2 give `nkeys = 13873` and
the first `getKey(1)` slices the page at offset 45452. -/
theorem C4_Get_on_empty_tree_panics (db : KV) (fuel : Nat) (key chunk : Bytes)
    (rest : List Bytes) (hroot : db.root = 0) (hupd : mapGet db.updates 0 = none)
    (hchunks : db.chunks = chunk :: rest) (hlen : BTREE_PAGE_SIZE ≤ chunk.len)
    (hsig : sliceTo chunk 16 = Except.ok DB_SIG) :
    db.Get (fuel + 1) key = Except.error Fail.panic := by
  obtain ⟨d, hd, hdl, hnk⟩ := masterPage_nkeys chunk hlen hsig
  have hpos : 0 < 0 + chunk.len / BTREE_PAGE_SIZE := by
    have := Nat.div_pos hlen (by decide : 0 < BTREE_PAGE_SIZE)
    omega
  have hget : KV.pageGet db 0 = Except.ok ⟨d⟩ := by
    simp only [KV.pageGet, hupd, pageGetMapped, hchunks, pageGetMapped.find, hpos, if_true,
      bind, Except.bind, pure, Except.pure, List.getD_cons_zero, Nat.sub_self, Nat.mul_zero]
    rw [hd]
  have hlook := nodeLookupLE_panics ⟨d⟩ key hnk hdl
  simp only [KV.Get, BTree.Get, KV.tree, hroot, hget, treeGet, hlook, bind, Except.bind]
  by_cases hk : key.len ≤ BTREE_MAX_KEY_SIZE
  · simp [assert, hk]
    rfl
  · simp [assert, hk]

theorem C4_Get_on_empty_tree_panics_witness :
    (KV.reopened.root = 0 ∧ mapGet KV.reopened.updates 0 = none ∧
      BTREE_PAGE_SIZE ≤ (64 * 2 ^ 20 : Nat) ∧
      sliceTo ⟨64 * 2 ^ 20, KV.emptyMaster⟩ 16 = Except.ok DB_SIG) ∧
    KV.reopened.Get 1 (Bytes.ofList [99, 97, 116]) = Except.error Fail.panic :=
  ⟨⟨rfl, rfl, by decide, by decide!⟩,
    C4_Get_on_empty_tree_panics KV.reopened 0 (Bytes.ofList [99, 97, 116])
      ⟨64 * 2 ^ 20, KV.emptyMaster⟩ [] rfl rfl rfl (by decide) (by decide!)⟩

section

variable {σ : Type}

/-- C5. A failed delete changes nothing: for every tree, store and key, with the
calls of `new` and `del` counted, if `Delete(key)` returns false then `tree.root`
is unchanged, the store is unchanged and both counters are unchanged (no call of
`new`, no call of `del`); and at every depth of the recursion a `treeDelete` that
reports "not found" (the empty node `BNode{}`) has left the store and both
counters unchanged. -/
theorem C5_failed_delete_changes_nothing (tree : BTree σ) (s : σ) (nnew ndel fuel : Nat)
    (key : Bytes) :
    (∀ root' s', tree.counting.Delete (s, nnew, ndel) fuel key = Except.ok (false, root', s') →
      root' = tree.root ∧ s' = (s, nnew, ndel)) ∧
    (∀ node r s', treeDelete tree.counting fuel (s, nnew, ndel) node key = Except.ok (r, s') →
      r.data.len = 0 → s' = (s, nnew, ndel)) := by
  refine ⟨?_, fun node r s' h hr => treeDelete_empty _ key fuel _ _ node r h hr⟩
  intro root' s' h
  simp only [BTree.Delete, bind_eq_ok] at h
  obtain ⟨_, _, _, _, h⟩ := h
  split at h
  · simp only [pure, Except.pure, Except.ok.injEq, Prod.mk.injEq, true_and] at h
    exact ⟨h.1.symm, h.2.symm⟩
  · simp only [bind_eq_ok] at h
    obtain ⟨rootNode, _, ⟨updated, s1⟩, h1, h2⟩ := h
    simp only at h2
    split at h2
    · rename_i hu
      simp only [pure, Except.pure, Except.ok.injEq, Prod.mk.injEq, true_and] at h2
      refine ⟨h2.1.symm, ?_⟩
      rw [← h2.2]
      exact treeDelete_empty _ key fuel _ _ _ _ h1 hu
    · exfalso
      simp only [bind_eq_ok] at h2
      obtain ⟨_, _, _, _, single, _, h3⟩ := h2
      split at h3
      · simp only [bind_eq_ok] at h3
        obtain ⟨_, _, h4⟩ := h3
        cases h4
      · simp only [bind_eq_ok] at h3
        obtain ⟨⟨_, _⟩, _, h4⟩ := h3
        simp [pure, Except.pure] at h4

end

theorem C5_failed_delete_changes_nothing_witness :
    (KV.twoLeaves.tree 8).counting.Delete (KV.twoLeaves, 0, 0) 8 (Bytes.ofList [100])
      = Except.ok (false, 5, (KV.twoLeaves, 0, 0)) ∧
    (5 = (KV.twoLeaves.tree 8).root ∧ ((KV.twoLeaves, 0, 0) : KV × Nat × Nat) = (KV.twoLeaves, 0, 0)) :=
  ⟨by decide!,
    (C5_failed_delete_changes_nothing (KV.twoLeaves.tree 8) KV.twoLeaves 0 0 8 (Bytes.ofList [100])).1 5
      (KV.twoLeaves, 0, 0) (by decide!)⟩

/-- C6 (fails on the code). On the well-formed leaf
`"" | "b" -> 2500 bytes | "a" -> 2500 bytes` (5048 bytes, in a buffer of two
pages) `nodeSplit3` panics: the loop of `nodeSplit2` passes index 0 and reads
`getOffset(65535)`.  On the well-formed leaf
`"" | "c" -> 2050 bytes | "b" -> 2050 bytes | "a" -> 2050 bytes` (6213 bytes) it
returns two pieces, the second one with `nbytes() = 4134`, more than a page. -/
theorem C6_nodeSplit3_panics_or_overflows :
    (do
      let node ← BNode.build (2 * BTREE_PAGE_SIZE) BNODE_LEAF
        [(0, Bytes.nil, Bytes.nil), (0, Bytes.ofList [98], makeBytes 2500),
          (0, Bytes.ofList [97], makeBytes 2500)]
      pure (← node.nbytes)) = Except.ok 5048 ∧
    (do
      let node ← BNode.build (2 * BTREE_PAGE_SIZE) BNODE_LEAF
        [(0, Bytes.nil, Bytes.nil), (0, Bytes.ofList [98], makeBytes 2500),
          (0, Bytes.ofList [97], makeBytes 2500)]
      nodeSplit3 node) = Except.error Fail.panic ∧
    (do
      let node ← BNode.build (2 * BTREE_PAGE_SIZE) BNODE_LEAF
        [(0, Bytes.nil, Bytes.nil), (0, Bytes.ofList [99], makeBytes 2050),
          (0, Bytes.ofList [98], makeBytes 2050), (0, Bytes.ofList [97], makeBytes 2050)]
      let (n, pieces) ← nodeSplit3 node
      let right := pieces.getD 1 ⟨Bytes.nil⟩
      pure (← node.nbytes, n, right.data.len, ← right.nbytes))
      = Except.ok (6213, 2, 4096, 4134) := by
  decide!

/-- C7. Master page validation: for an empty file `masterLoad` returns nil and
sets `page.flushed = 1`; for a non-empty file whose first chunk `data` has at
least 40 bytes, with `root`, `used`, `free_head` the numbers read little-endian
at offsets 16, 24, 32, either the first 16 bytes equal the signature and
`1 <= used <= file / PAGE_SIZE` and `root < used`, and `masterLoad` returns nil
and sets `tree.root = root`, `page.flushed = used`, `free.head = free_head`; or
this condition fails and `masterLoad` returns an error and leaves the store
unchanged. -/
theorem C7_masterLoad_validates_master_page (db : KV) (data : Bytes) (rest : List Bytes)
    (hchunks : db.chunks = data :: rest) (hlen : 40 ≤ data.len)
    (hfile : db.file < 9223372036854775808) :
    (db.file = 0 → masterLoad db = Except.ok (none, { db with flushed := 1 })) ∧
    (db.file ≠ 0 →
      (masterLoad db =
          Except.ok (none,
            { db with root := data.u64At 16, flushed := data.u64At 24, head := data.u64At 32 }) ∧
        sliceTo data 16 = Except.ok DB_SIG ∧ 1 ≤ data.u64At 24 ∧
          data.u64At 24 ≤ db.file / BTREE_PAGE_SIZE ∧ data.u64At 16 < data.u64At 24) ∨
      ((∃ err, masterLoad db = Except.ok (some err, db)) ∧
        ¬ (sliceTo data 16 = Except.ok DB_SIG ∧ 1 ≤ data.u64At 24 ∧
          data.u64At 24 ≤ db.file / BTREE_PAGE_SIZE ∧ data.u64At 16 < data.u64At 24))) :=
  masterLoad_spec db data rest hchunks hlen hfile

theorem C7_masterLoad_validates_master_page_witness :
    (KV.reopened.chunks = [⟨64 * 2 ^ 20, KV.emptyMaster⟩] ∧ 40 ≤ (64 * 2 ^ 20 : Nat) ∧
      KV.reopened.file < 9223372036854775808 ∧ KV.reopened.file ≠ 0) ∧
    ((masterLoad KV.reopened =
          Except.ok (none,
            { KV.reopened with
              root := (⟨64 * 2 ^ 20, KV.emptyMaster⟩ : Bytes).u64At 16,
              flushed := (⟨64 * 2 ^ 20, KV.emptyMaster⟩ : Bytes).u64At 24,
              head := (⟨64 * 2 ^ 20, KV.emptyMaster⟩ : Bytes).u64At 32 }) ∧
        sliceTo ⟨64 * 2 ^ 20, KV.emptyMaster⟩ 16 = Except.ok DB_SIG ∧
          1 ≤ (⟨64 * 2 ^ 20, KV.emptyMaster⟩ : Bytes).u64At 24 ∧
          (⟨64 * 2 ^ 20, KV.emptyMaster⟩ : Bytes).u64At 24
            ≤ KV.reopened.file / BTREE_PAGE_SIZE ∧
          (⟨64 * 2 ^ 20, KV.emptyMaster⟩ : Bytes).u64At 16
            < (⟨64 * 2 ^ 20, KV.emptyMaster⟩ : Bytes).u64At 24) ∨
      ((∃ err, masterLoad KV.reopened = Except.ok (some err, KV.reopened)) ∧
        ¬ (sliceTo ⟨64 * 2 ^ 20, KV.emptyMaster⟩ 16 = Except.ok DB_SIG ∧
          1 ≤ (⟨64 * 2 ^ 20, KV.emptyMaster⟩ : Bytes).u64At 24 ∧
          (⟨64 * 2 ^ 20, KV.emptyMaster⟩ : Bytes).u64At 24
            ≤ KV.reopened.file / BTREE_PAGE_SIZE ∧
          (⟨64 * 2 ^ 20, KV.emptyMaster⟩ : Bytes).u64At 16
            < (⟨64 * 2 ^ 20, KV.emptyMaster⟩ : Bytes).u64At 24))) :=
  ⟨⟨rfl, by decide, by decide, by decide⟩,
    (C7_masterLoad_validates_master_page KV.reopened ⟨64 * 2 ^ 20, KV.emptyMaster⟩ [] rfl
      (by decide) (by decide)).2 (by decide)⟩

/-- C9 (fails on the code). The store `KV.pendingLeaf` has a pending page.  When
`fp.WriteAt` of the master page fails, `flushPages` returns the error and the
`updates` map is empty; when the second `fp.Sync()` fails, `flushPages` returns
the error, the `updates` map is empty and the master page has been written. -/
theorem C9_late_failure_clears_the_batch :
    KV.pendingLeaf.updates ≠ [] ∧
    (flushPages ⟨true, none, true, false, true⟩ 8 KV.pendingLeaf).map
        (fun r => (r.1, r.2.updates, decide (r.2.fp = KV.pendingLeaf.fp)))
      = Except.ok (some KVError.writeMaster, [], true) ∧
    (flushPages ⟨true, none, true, true, false⟩ 8 KV.pendingLeaf).map
        (fun r => (r.1, r.2.updates, decide (r.2.fp = KV.pendingLeaf.fp)))
      = Except.ok (some KVError.sync, [], false) := by
  decide!

/-- C9 (as amended). Whenever `flushPages` returns an error: if the error comes
from `writePages` (`extendFile`: "fallocate", `extendMmap`: "mmap") or from the
first `fp.Sync()` ("fsync"), a non-empty `updates` map is still non-empty and the
file written through `fp.WriteAt` is unchanged; if it comes from the master write
("write master page"), the `updates` map has been cleared and the file is
unchanged; if it comes from the second `fp.Sync()`, the `updates` map has been
cleared and the master page has been written. -/
theorem C9_failed_flush_keeps_batch_until_first_sync (os : OS) (fuel : Nat) (db db' : KV) (err : KVError)
    (h : flushPages os fuel db = Except.ok (some err, db')) :
    ((err = KVError.fallocate ∨ err = KVError.mmap ∨ err = KVError.fsync) ∧
      (db.updates ≠ [] → db'.updates ≠ []) ∧ db'.fp = db.fp) ∨
    (err = KVError.writeMaster ∧ db'.updates = [] ∧ db'.fp = db.fp) ∨
    (err = KVError.sync ∧ db'.updates = [] ∧
      ∃ data, masterStore.data db' = Except.ok data ∧ db'.fp = written db.fp data) := by
  simp only [flushPages, bind_eq_ok] at h
  obtain ⟨⟨err1, db1⟩, h1, h2⟩ := h
  obtain ⟨u1, f1, e1⟩ := writePages_keeps h1
  simp only at h2
  split at h2
  · cases h2
    rename_i hne
    rcases e1 with e | e | e
    · exact absurd e hne
    · cases e
      exact Or.inl ⟨Or.inl rfl, u1, f1⟩
    · cases e
      exact Or.inl ⟨Or.inr (Or.inl rfl), u1, f1⟩
  · rcases syncPages_cases h2 with ⟨e, hd⟩ | ⟨e, hu, hf⟩ | ⟨data, hd, hu, hf, e⟩
    · cases e
      cases hd
      exact Or.inl ⟨Or.inr (Or.inr rfl), u1, f1⟩
    · cases e
      exact Or.inr (Or.inl ⟨rfl, hu, hf.trans f1⟩)
    · rcases e with e | e
      · cases e
        exact Or.inr (Or.inr ⟨rfl, hu, data, hd, by rw [hf, f1]⟩)
      · cases e

theorem C9_failed_flush_keeps_batch_until_first_sync_witness :
    flushPages ⟨true, none, false, true, true⟩ 8 KV.pendingLeaf = Except.ok (some KVError.fsync, KV.pendingLeafSyncFailed) ∧
    (((KVError.fsync = KVError.fallocate ∨ KVError.fsync = KVError.mmap ∨
        KVError.fsync = KVError.fsync) ∧
      (KV.pendingLeaf.updates ≠ [] → KV.pendingLeafSyncFailed.updates ≠ []) ∧ KV.pendingLeafSyncFailed.fp = KV.pendingLeaf.fp) ∨
    (KVError.fsync = KVError.writeMaster ∧ KV.pendingLeafSyncFailed.updates = [] ∧ KV.pendingLeafSyncFailed.fp = KV.pendingLeaf.fp) ∨
    (KVError.fsync = KVError.sync ∧ KV.pendingLeafSyncFailed.updates = [] ∧
      ∃ data, masterStore.data KV.pendingLeafSyncFailed = Except.ok data ∧ KV.pendingLeafSyncFailed.fp = written KV.pendingLeaf.fp data)) :=
  ⟨by decide!,
    C9_failed_flush_keeps_batch_until_first_sync ⟨true, none, false, true, true⟩ 8 KV.pendingLeaf KV.pendingLeafSyncFailed
      KVError.fsync (by decide!)⟩

/-- C10 (fails on the code). `syncPages` never resets `page.nfree` and
`page.nappend`.  Five calls of `Set` on a fresh store, every operating system call
succeeding, all return nil; after them `(tree.root, page.flushed, page.nfree,
page.nappend)` is `(1, 2, 0, 1)`, `(3, 5, 0, 3)`, `(1, 9, 1, 4)`, `(3, 14, 2, 5)`,
`(19, 21, 2, 7)` with an empty `updates` map (length 0) each time: the counters of a batch
are carried into the next one, pages are skipped (page 2 is never used) and
five small records take 21 pages. -/
theorem C10_sync_keeps_nfree_and_nappend :
    (do
      let (e1, db1) ← KV.Set OS.ok KV.fresh 8 (Bytes.ofList [97]) (Bytes.ofList [120])
      let (e2, db2) ← KV.Set OS.ok db1 8 (Bytes.ofList [98]) (Bytes.ofList [120])
      let (e3, db3) ← KV.Set OS.ok db2 8 (Bytes.ofList [99]) (Bytes.ofList [120])
      let (e4, db4) ← KV.Set OS.ok db3 8 (Bytes.ofList [100]) (Bytes.ofList [120])
      let (e5, db5) ← KV.Set OS.ok db4 8 (Bytes.ofList [101]) (Bytes.ofList [120])
      pure ([e1, e2, e3, e4, e5].map Option.isNone, [db1, db2, db3, db4, db5].map
        (fun db => [db.root, db.flushed, db.nfree, db.nappend, db.updates.length])))
      = Except.ok ([true, true, true, true, true],
          [[1, 2, 0, 1, 0], [3, 5, 0, 3, 0], [1, 9, 1, 4, 0], [3, 14, 2, 5, 0],
            [19, 21, 2, 7, 0]]) := by
  decide!

section

variable {σ : Type}

/-- C11. `FreeList.Get` indexing: let the chain from `fl.head` be well-formed
(`pages` lists its pages, linked by `next` and ending at 0, each holding at most
`FREE_LIST_CAP` pointers) and let `Total()` be the sum of the sizes.  Then for
every `n < Total()`, with fuel for one step per page, `Get(n)` returns, and it
returns the `n`-th element (from 0) of the pointers listed page after page from
the head, each page from index `size - 1` down to index 0. -/
theorem C11_Get_returns_the_nth_pointer (fl : FreeList σ) (s : σ)
    (pages : List (Nat × List Nat)) (n fuel : Nat)
    (hchain : isChain (fl.get s) fl.head pages = true)
    (htotal : fl.Total s = Except.ok (chainTotal pages : Int))
    (hn : n < chainTotal pages) (hfuel : pages.length ≤ fuel) :
    ∃ ptr, fl.Get s fuel n = Except.ok ptr ∧ (chainPtrs pages)[n]? = some ptr := by
  cases pages with
  | nil => simp [chainTotal] at hn
  | cons pg rest =>
    obtain ⟨p, ptrs⟩ := pg
    have hc := hchain
    rw [isChain_cons] at hc
    obtain ⟨hp, _, node, hg, _, _⟩ := hc
    obtain ⟨node', topn', size', ptr, e1, e2, e3, e4⟩ :=
      FreeList_Get_loop_spec fl s ((p, ptrs) :: rest) fl.head node n fuel hchain
        (by rw [hp]; exact hg) hn hfuel
    refine ⟨ptr, ?_, e4⟩
    unfold FreeList.Get
    rw [htotal, ok_bind, assert_true (by simp; exact_mod_cast hn), ok_bind, hp, hg, ok_bind]
    simp only [Int.toNat_ofNat]
    rw [e1, ok_bind]
    simp only []
    rw [e2, ok_bind]
    exact e3

end

theorem C11_Get_returns_the_nth_pointer_witness :
    ∃ ptr, KV.twoFreePages.free.Get KV.twoFreePages 2 (3 : Nat) = Except.ok ptr ∧
      (chainPtrs [(5, [20, 21, 22]), (6, [30, 31])])[3]? = some ptr :=
  C11_Get_returns_the_nth_pointer KV.twoFreePages.free KV.twoFreePages
    [(5, [20, 21, 22]), (6, [30, 31])] 3 2 (by decide!) (by decide!) (by decide) (by decide)

/-- C12 (fails on the code). After Set("a", "x") and Set("b", "x") on a fresh
store the free list (head page 4) holds the single pointer 1: `Total()` is 1 and
`Get(0)` is 1.  The call `Update(1, [])` returns, and afterwards `Total()` is
still 1 and `Get(0)` still returns the pointer 1 that was to be consumed: with
an empty `freed` the loop of `Update` is not entered. -/
theorem C12_Update_with_nothing_freed_consumes_nothing :
    (do
      let db ← KV.Sets OS.ok 8
        [(Bytes.ofList [97], Bytes.ofList [120]), (Bytes.ofList [98], Bytes.ofList [120])]
        KV.fresh
      let total ← db.free.Total db
      let ptr ← db.free.Get db 8 0
      let (fl, db) ← db.free.Update db 8 1 []
      pure ([total, ← fl.Total db], [db.head, fl.head], [ptr, ← fl.Get db 8 0]))
      = Except.ok ([1, 1], [4, 4], [1, 1]) := by
  decide!

/-- C13 (fails on the code). On the leaf with the strictly increasing keys "",
"a", "b" the scan compares `key` with `getKey(i)` the wrong way round: for the
key "b" it stops at index 1 and returns 0 where the largest index with
`getKey(i) <= key` is 2; for the key "`" (below "a") it runs to the end and
returns 2 where that index is 0.  Only for "a" is the result, 1, the right one. -/
theorem C13_nodeLookupLE_misses_on_increasing_keys :
    (do
      let node ← BNode.build 64 BNODE_LEAF
        [(0, Bytes.nil, Bytes.nil), (0, Bytes.ofList [97], Bytes.ofList [1]),
          (0, Bytes.ofList [98], Bytes.ofList [2])]
      pure (← node.keys, ← nodeLookupLE node (Bytes.ofList [98]),
        ← nodeLookupLE node (Bytes.ofList [96]), ← nodeLookupLE node (Bytes.ofList [97])))
      = Except.ok ([[], [97], [98]], 0, 2, 1) ∧
    bytesCompare Bytes.nil (Bytes.ofList [97]) = -1 ∧
    bytesCompare (Bytes.ofList [97]) (Bytes.ofList [98]) = -1 ∧
    bytesCompare (Bytes.ofList [96]) (Bytes.ofList [97]) = -1 := by
  decide!

/-- C14 (fails on the code). The second `nodeAppendRange` of `nodeReplace2Kid`
writes from position `index` on, not from `index + 1`: for the node with the
entries (10, ""), (11, "a"), (12, "b") and index 0, pointer 77, key "x", the
result has two entries, (12, "b") and an entry that was never written, (0, "");
the entry (77, "x") is overwritten.  The result is as claimed only when no entry
follows the two replaced ones (here index 1: (10, ""), (77, "x")). -/
theorem C14_nodeReplace2Kid_overwrites_the_new_entry :
    (do
      let node ← BNode.build 64 BNODE_NODE
        [(10, Bytes.nil, Bytes.nil), (11, Bytes.ofList [97], Bytes.nil),
          (12, Bytes.ofList [98], Bytes.nil)]
      let new0 ← nodeReplace2Kid ⟨makeBytes BTREE_PAGE_SIZE⟩ node 0 77 (Bytes.ofList [120])
      let new1 ← nodeReplace2Kid ⟨makeBytes BTREE_PAGE_SIZE⟩ node 1 77 (Bytes.ofList [120])
      pure ([← node.btype, ← new0.btype, ← new0.nkeys], ← new0.ptrs, ← new0.keys,
        ← new1.ptrs, ← new1.keys))
      = Except.ok ([1, 1, 2], [12, 0], [[98], []], [10, 77], [[], [120]]) := by
  decide!

/-- C15 (fails on the code). After Insert("a", [1]) and Insert("b", [2]) into
the empty tree of a fresh store the root is a leaf (page 2) with the keys "",
"b", "a" in this order: "b" stands before "a", and `bytes.Compare("b", "a")` is
1.  The same leaf results from Insert("b", [1]), Insert("a", [2]); and the
inserts of `test/test.go`, ("dog1", "qwe") then ("dog2", "req"), leave the keys "",
"dog2", "dog1". -/
theorem C15_root_leaf_keys_not_increasing_after_two_inserts :
    (do
      let db ← KV.treeInserts 8
        [(Bytes.ofList [97], Bytes.ofList [1]), (Bytes.ofList [98], Bytes.ofList [2])] KV.fresh
      let leaf ← db.pageGet db.root
      pure (db.root, ← leaf.btype, ← leaf.keys)) = Except.ok (2, 2, [[], [98], [97]]) ∧
    (do
      let db ← KV.treeInserts 8
        [(Bytes.ofList [98], Bytes.ofList [1]), (Bytes.ofList [97], Bytes.ofList [2])] KV.fresh
      let leaf ← db.pageGet db.root
      pure (db.root, ← leaf.btype, ← leaf.keys)) = Except.ok (2, 2, [[], [98], [97]]) ∧
    (do
      let db ← KV.treeInserts 8
        [(Bytes.ofList [100, 111, 103, 49], Bytes.ofList [113, 119, 101]),
          (Bytes.ofList [100, 111, 103, 50], Bytes.ofList [114, 101, 113])] KV.fresh
      let leaf ← db.pageGet db.root
      pure (db.root, ← leaf.btype, ← leaf.keys))
      = Except.ok (2, 2, [[], [100, 111, 103, 50], [100, 111, 103, 49]]) ∧
    bytesCompare (Bytes.ofList [98]) (Bytes.ofList [97]) = 1 := by
  decide!

/-- C16 (fails on the code). `nodeReplaceKidN` installs `old.getKey(0)` as the
separator of every kid: for the node with the entries (10, ""), (11, "a"),
(12, "b"), (13, "c"), index 1 and two kids with the first keys "a" and "a\x02",
allocated as the pages 1 and 2, the result is (10, ""), (1, ""), (2, ""),
(12, "b"), (13, "c"): the entries at the positions 1 and 2 carry the empty key. -/
theorem C16_nodeReplaceKidN_installs_the_first_key_of_old :
    (do
      let old ← BNode.build 64 BNODE_NODE
        [(10, Bytes.nil, Bytes.nil), (11, Bytes.ofList [97], Bytes.nil),
          (12, Bytes.ofList [98], Bytes.nil), (13, Bytes.ofList [99], Bytes.nil)]
      let kid0 ← BNode.build 64 BNODE_LEAF
        [(0, Bytes.ofList [97], Bytes.ofList [1]), (0, Bytes.ofList [97, 1], Bytes.ofList [2])]
      let kid1 ← BNode.build 64 BNODE_LEAF
        [(0, Bytes.ofList [97, 2], Bytes.ofList [3]), (0, Bytes.ofList [97, 3], Bytes.ofList [4])]
      let (new, _) ← nodeReplaceKidN (KV.tree 8 KV.fresh) KV.fresh ⟨makeBytes BTREE_PAGE_SIZE⟩
        old 1 [kid0, kid1]
      pure (← kid0.keys, ← kid1.keys, ← new.ptrs, ← new.keys))
      = Except.ok ([[97], [97, 1]], [[97, 2], [97, 3]], [10, 1, 2, 12, 13],
          [[], [], [], [98], [99]]) := by
  decide!

/-- C17 (fails on the code). `nodeDelete` calls `nodeMerge(merged, sibling,
updated)` in both directions.  Under the parent (10, ""), (11, "m") with the
leaves "", "b" (page 10) and "m", "n" (page 11): deleting "b" under child 0 merges
with the right sibling and the merged page (page 12) has the keys "m", "n", "":
the sibling's entries come first, not the rewritten child's; deleting "n" under
child 1 merges with the left sibling and the merged page has the keys "", "b",
"m", in order. -/
theorem C17_merge_with_right_sibling_puts_sibling_first :
    (do
      let kid0 ← BNode.build BTREE_PAGE_SIZE BNODE_LEAF
        [(0, Bytes.nil, Bytes.nil), (0, Bytes.ofList [98], Bytes.ofList [1])]
      let kid1 ← BNode.build BTREE_PAGE_SIZE BNODE_LEAF
        [(0, Bytes.ofList [109], Bytes.ofList [2]), (0, Bytes.ofList [110], Bytes.ofList [3])]
      let node ← BNode.build BTREE_PAGE_SIZE BNODE_NODE
        [(10, Bytes.nil, Bytes.nil), (11, Bytes.ofList [109], Bytes.nil)]
      let db ← KV.pageUse KV.fresh 10 kid0
      let db ← KV.pageUse db 11 kid1
      let db : KV := { db with flushed := 12 }
      let (new1, db1) ← nodeDelete (KV.tree 8 db) db (treeDelete (KV.tree 8 db) 8) node 0
        (Bytes.ofList [98])
      let (new2, db2) ← nodeDelete (KV.tree 8 db) db (treeDelete (KV.tree 8 db) 8) node 1
        (Bytes.ofList [110])
      pure (← new1.ptrs, ← (← db1.pageGet 12).keys, ← new2.ptrs, ← (← db2.pageGet 12).keys))
      = Except.ok ([12], [[109], [110], []], [12], [[], [98], [109]]) := by
  decide!

/-- C18 (fails as stated). A well-formed chain may hold the number of one of its
own pages as a free pointer.  In `KV.aliasedFreePages` the chain is page 5
(pointer 6) linking to page 6 (pointers 30, 31) linking to 0, and `Total()` is 3,
the sum of the sizes.  `Update(0, [40])` returns; it reuses the pointer 6 for the
new page, that is it overwrites the chain page 6: the new head is page 6 with the
size 2, the pointers 40, 5 and the link 6, to itself, and `Total()` is 4.  No
list of pages is the chain from the new head (it never ends at 0), and `Get`
returns 5, 40, 5, 40 for 0, 1, 2, 3. -/
theorem C18_reused_chain_page_closes_a_cycle :
    isChain (KV.aliasedFreePages.free.get KV.aliasedFreePages) KV.aliasedFreePages.free.head
      [(5, [6]), (6, [30, 31])] = true ∧
    KV.aliasedFreePages.free.Total KV.aliasedFreePages
      = Except.ok (chainTotal [(5, [6]), (6, [30, 31])] : Int) ∧
    (KV.aliasedFreePages.free.Update KV.aliasedFreePages 8 0 [40]).map
      (fun r => (r.1.head, r.2)) = Except.ok (6, KV.aliasedAfterUpdate) ∧
    (do
      let node ← KV.aliasedAfterUpdate.pageGet 6
      pure [← flnSize node, ← flnNext node, ← flnPtr node 0, ← flnPtr node 1])
      = Except.ok [2, 6, 40, 5] ∧
    FreeList.Total { KV.aliasedFreePages.free with head := 6 } KV.aliasedAfterUpdate
      = Except.ok 4 ∧
    (List.range 4).map (fun i =>
      FreeList.Get { KV.aliasedFreePages.free with head := 6 } KV.aliasedAfterUpdate 8 i)
      = [Except.ok 5, Except.ok 40, Except.ok 5, Except.ok 40] ∧
    ∀ pages', isChain (KV.aliasedFreePages.free.get KV.aliasedAfterUpdate) 6 pages' = false :=
  ⟨by decide!, by decide!, by decide!, by decide!, by decide!, by decide!,
    isChain_self_loop _ 6 (BNode.ofRes (KV.aliasedAfterUpdate.pageGet 6)) (by decide!)
      (by decide!) (by decide)⟩

section

variable {σ : Type}

/-- C18 (amended). Head total invariant of the free list: let the page manager
keep the contract `fl.Lawful hw` (the one of `kv.go` does, in every state of the
store: `KV.free_lawful`, with the mark `page.flushed + page.nappend`), let the
chain from `fl.head` be well-formed (`pages` lists its pages, distinct and below
the high-water mark), let the pointers it holds be distinct, not 0, below the
mark and not pages of the chain, let `Total()` be the sum of the sizes and let
the page numbers that `new` may hand out stay `uint64` values.  Then whenever
`Update(popn, freed)` returns, with the new head `head'` and the new store `s'`,
the chain from `head'` is again well-formed (some `pages'` lists it: linked
pages ending at 0, each with at most `FREE_LIST_CAP` pointers) and `Total()`
read from the new head is the sum of the sizes of `pages'`. -/
theorem C18_Update_keeps_the_head_total (fl : FreeList σ) (hw : σ → Nat) (s s' : σ)
    (pages : List (Nat × List Nat)) (popn fuel : Nat) (freed : List Nat) (head' : Nat)
    (hlaw : fl.Lawful hw)
    (hchain : isChain (fl.get s) fl.head pages = true)
    (htotal : fl.Total s = Except.ok (chainTotal pages : Int))
    (hhead : fl.head < 18446744073709551616) (hhw : 0 < hw s)
    (hbelow : ∀ pg ∈ pages, pg.1 < hw s ∧
      ∀ q ∈ pg.2, q ≠ 0 ∧ q < hw s ∧ ∀ pg' ∈ pages, q ≠ pg'.1)
    (hpages : (pages.map Prod.fst).Nodup)
    (hptrs : (pages.flatMap (fun pg => pg.2)).Nodup)
    (hbig : chainTotal pages + pages.length + freed.length < 9223372036854775808)
    (hroom : hw s + chainTotal pages + pages.length + freed.length ≤ 18446744073709551616)
    (hret : (fl.Update s fuel popn freed).map (fun r => (r.1.head, r.2))
      = Except.ok (head', s')) :
    ∃ pages', isChain (fl.get s') head' pages' = true ∧
      FreeList.Total { fl with head := head' } s' = Except.ok (chainTotal pages' : Int) := by
  cases hu : fl.Update s fuel popn freed with
  | error e => rw [hu] at hret; cases hret
  | ok r =>
    obtain ⟨fl', s1⟩ := r
    rw [hu] at hret
    simp only [Except.map, Except.ok.injEq, Prod.mk.injEq] at hret
    obtain ⟨rfl, rfl⟩ := hret
    exact Update_spec fl hw s s1 pages popn fuel freed fl' hlaw hchain htotal hhead hhw hbelow
      hpages hptrs hbig hroom hu

end

theorem C18_Update_keeps_the_head_total_witness :
    ∃ pages', isChain (KV.twoFreePages.free.get KV.twoFreePagesUpdated) 21 pages' = true ∧
      FreeList.Total { KV.twoFreePages.free with head := 21 } KV.twoFreePagesUpdated
        = Except.ok (chainTotal pages' : Int) :=
  C18_Update_keeps_the_head_total KV.twoFreePages.free (fun db => db.flushed + db.nappend)
    KV.twoFreePages KV.twoFreePagesUpdated [(5, [20, 21, 22]), (6, [30, 31])] 1 4 [40] 21
    (KV.free_lawful KV.twoFreePages) (by decide!) (by decide!) (by decide!) (by decide!)
    (by decide!) (by decide) (by decide) (by decide!) (by decide!) (by decide!)

/-- C19. Node codec round trip: for every buffer of at most two pages, every
kind `t` and every list of `n` entries `(ptr, key, val)` (a `uint64` and two byte
strings each) that fits, `HEADER + 10 * n + sum (4 + len key + len val) <=
len buffer`, the calls `setHeader(t, n)` and `nodeAppendKV(node, i, ptr_i, key_i,
val_i)` for `i = 0, ..., n - 1` return, and the node then has `btype() = t`,
`nkeys() = n`, `getPtr(i) = ptr_i`, `getKey(i) = key_i`, `getValue(i) = val_i` for
every `i < n`, and `nbytes() = HEADER + 10 * n + sum (4 + len key + len val)`. -/
theorem C19_node_codec_round_trip (buf : BNode) (t : Nat) (es : List (Nat × Bytes × Bytes))
    (ht : t < 65536)
    (hes : ∀ e ∈ es, e.1 < 18446744073709551616 ∧ e.2.1.val < 256 ^ e.2.1.len ∧
      e.2.2.val < 256 ^ e.2.2.len)
    (hfit : HEADER + 10 * es.length + kvSize es ≤ buf.data.len)
    (hmax : buf.data.len ≤ 2 * BTREE_PAGE_SIZE) :
    ∃ node, (buf.setHeader t es.length >>= BNode.build.entries es 0) = Except.ok node ∧
      node.btype = Except.ok t ∧ node.nkeys = Except.ok es.length ∧
      (∀ i ptr key val, es[i]? = some (ptr, key, val) →
        node.getPtr i = Except.ok ptr ∧ node.getKey i = Except.ok key ∧
        node.getValue i = Except.ok val) ∧
      node.nbytes = Except.ok (HEADER + 10 * es.length + kvSize es) := by
  have hP : BTREE_PAGE_SIZE = 4096 := rfl
  obtain ⟨node, e, h, _⟩ := entries_Holds buf t es.length es ht (le_refl _) hes hfit (by omega)
  exact ⟨node, e, Holds_btype h, Holds_nkeys h,
    fun i ptr key val he => ⟨Holds_getPtr h i ptr key val he, Holds_getKey h i ptr key val he,
      Holds_getValue h i ptr key val he⟩, Holds_nbytes h rfl⟩

theorem C19_node_codec_round_trip_witness :
    ∃ node, ((⟨makeBytes 64⟩ : BNode).setHeader 2
        [(7, Bytes.ofList [97], Bytes.ofList [120, 121]),
          (9, Bytes.ofList [98, 99], Bytes.nil)].length >>=
        BNode.build.entries [(7, Bytes.ofList [97], Bytes.ofList [120, 121]),
          (9, Bytes.ofList [98, 99], Bytes.nil)] 0) = Except.ok node ∧
      node.btype = Except.ok 2 ∧
      node.nkeys = Except.ok [(7, Bytes.ofList [97], Bytes.ofList [120, 121]),
          (9, Bytes.ofList [98, 99], Bytes.nil)].length ∧
      (∀ i ptr key val, [(7, Bytes.ofList [97], Bytes.ofList [120, 121]),
          (9, Bytes.ofList [98, 99], Bytes.nil)][i]? = some (ptr, key, val) →
        node.getPtr i = Except.ok ptr ∧ node.getKey i = Except.ok key ∧
        node.getValue i = Except.ok val) ∧
      node.nbytes = Except.ok (HEADER + 10 * [(7, Bytes.ofList [97], Bytes.ofList [120, 121]),
          (9, Bytes.ofList [98, 99], Bytes.nil)].length +
        kvSize [(7, Bytes.ofList [97], Bytes.ofList [120, 121]),
          (9, Bytes.ofList [98, 99], Bytes.nil)]) :=
  C19_node_codec_round_trip ⟨makeBytes 64⟩ 2
    [(7, Bytes.ofList [97], Bytes.ofList [120, 121]), (9, Bytes.ofList [98, 99], Bytes.nil)]
    (by decide) (by decide) (by decide) (by decide)

/-- C20. `nodeAppendRange` copies entries faithfully: let `old` be a well-formed
node (it holds `nko` entries `eso`), let `new` have its header set (`nkn` keys) and
its entries `0 .. dst - 1` written (the entries `esn`, `dst = esn.length`), let
`src + n <= old.nkeys()`, `dst + n <= new.nkeys()` and let the buffer of `new`
have room for the copied records.  Then `nodeAppendRange(new, old, dst, src, n)`
returns and afterwards: for every `i < n` the entry `dst + i` of `new` has the
pointer, key and value of the entry `src + i` of `old`; `getOffset(dst + n)` of
`new` is `getOffset(dst) + (old.getOffset(src + n) - old.getOffset(src))`; and
the entries `0 .. dst - 1` of `new` read as before. -/
theorem C20_nodeAppendRange_copies_entries (new old : BNode) (tn nkn tl nko : Nat)
    (esn eso : List (Nat × Bytes × Bytes)) (src n : Nat)
    (hold : old.Holds tl nko eso) (hfull : eso.length = nko) (hnew : new.Holds tn nkn esn)
    (hsrc : src + n ≤ nko) (hdst : esn.length + n ≤ nkn)
    (hroom : HEADER + 10 * nkn + kvSize (esn ++ (eso.drop src).take n) ≤ new.data.len)
    (hsmall : HEADER + 10 * nkn + kvSize (esn ++ (eso.drop src).take n) < 65536) :
    ∃ new', nodeAppendRange new old esn.length src n = Except.ok new' ∧
      (∀ i, i < n → ∃ ptr key val,
        old.getPtr (src + i) = Except.ok ptr ∧ old.getKey (src + i) = Except.ok key ∧
        old.getValue (src + i) = Except.ok val ∧
        new'.getPtr (esn.length + i) = Except.ok ptr ∧
        new'.getKey (esn.length + i) = Except.ok key ∧
        new'.getValue (esn.length + i) = Except.ok val) ∧
      (∃ a b c, new.getOffset esn.length = Except.ok a ∧
        old.getOffset (src + n) = Except.ok b ∧ old.getOffset src = Except.ok c ∧ c ≤ b ∧
        new'.getOffset (esn.length + n) = Except.ok (a + (b - c))) ∧
      (∀ i, i < esn.length → ∃ ptr key val,
        new.getPtr i = Except.ok ptr ∧ new.getKey i = Except.ok key ∧
        new.getValue i = Except.ok val ∧
        new'.getPtr i = Except.ok ptr ∧ new'.getKey i = Except.ok key ∧
        new'.getValue i = Except.ok val) := by
  obtain ⟨new', e, h, _⟩ := nodeAppendRange_Holds src n hold hfull hnew hsrc hdst hroom hsmall
  have hlen : (esn ++ (eso.drop src).take n).length = esn.length + n := by
    simp; omega
  refine ⟨new', e, ?_, ?_, ?_⟩
  · intro i hi
    obtain ⟨⟨p, k, v⟩, he⟩ : ∃ x, eso[src + i]? = some x :=
      ⟨eso[src + i], List.getElem?_eq_getElem (by omega)⟩
    have he' : (esn ++ (eso.drop src).take n)[esn.length + i]? = some (p, k, v) := by
      rw [List.getElem?_append_right (by omega), Nat.add_sub_cancel_left,
        List.getElem?_take_of_lt hi, List.getElem?_drop]
      exact he
    exact ⟨p, k, v, Holds_getPtr hold _ p k v he, Holds_getKey hold _ p k v he,
      Holds_getValue hold _ p k v he, Holds_getPtr h _ p k v he', Holds_getKey h _ p k v he',
      Holds_getValue h _ p k v he'⟩
  · refine ⟨_, _, _, Holds_getOffset hnew esn.length (le_refl _),
      Holds_getOffset hold (src + n) (by omega), Holds_getOffset hold src (by omega),
      kvSize_take_mono eso _ _ (by omega), ?_⟩
    rw [Holds_getOffset h (esn.length + n) (by omega), ← hlen, List.take_length,
      List.take_length, kvSize_append, kvSize_drop_take eso src n, Nat.add_sub_cancel_left]
  · intro i hi
    obtain ⟨⟨p, k, v⟩, he⟩ : ∃ x, esn[i]? = some x := ⟨esn[i], List.getElem?_eq_getElem hi⟩
    have he' : (esn ++ (eso.drop src).take n)[i]? = some (p, k, v) := by
      rw [List.getElem?_append_left hi]
      exact he
    exact ⟨p, k, v, Holds_getPtr hnew _ p k v he, Holds_getKey hnew _ p k v he,
      Holds_getValue hnew _ p k v he, Holds_getPtr h _ p k v he', Holds_getKey h _ p k v he',
      Holds_getValue h _ p k v he'⟩

theorem C20_nodeAppendRange_copies_entries_witness :
    ∃ new', nodeAppendRange BNode.oneOfFour BNode.threeEntries
        [(5, Bytes.ofList [107], Bytes.ofList [118])].length 1 2 = Except.ok new' ∧
      (∀ i, i < 2 → ∃ ptr key val,
        BNode.threeEntries.getPtr (1 + i) = Except.ok ptr ∧
        BNode.threeEntries.getKey (1 + i) = Except.ok key ∧
        BNode.threeEntries.getValue (1 + i) = Except.ok val ∧
        new'.getPtr ([(5, Bytes.ofList [107], Bytes.ofList [118])].length + i) = Except.ok ptr ∧
        new'.getKey ([(5, Bytes.ofList [107], Bytes.ofList [118])].length + i) = Except.ok key ∧
        new'.getValue ([(5, Bytes.ofList [107], Bytes.ofList [118])].length + i)
          = Except.ok val) ∧
      (∃ a b c, BNode.oneOfFour.getOffset [(5, Bytes.ofList [107], Bytes.ofList [118])].length
          = Except.ok a ∧
        BNode.threeEntries.getOffset (1 + 2) = Except.ok b ∧
        BNode.threeEntries.getOffset 1 = Except.ok c ∧ c ≤ b ∧
        new'.getOffset ([(5, Bytes.ofList [107], Bytes.ofList [118])].length + 2)
          = Except.ok (a + (b - c))) ∧
      (∀ i, i < [(5, Bytes.ofList [107], Bytes.ofList [118])].length → ∃ ptr key val,
        BNode.oneOfFour.getPtr i = Except.ok ptr ∧ BNode.oneOfFour.getKey i = Except.ok key ∧
        BNode.oneOfFour.getValue i = Except.ok val ∧
        new'.getPtr i = Except.ok ptr ∧ new'.getKey i = Except.ok key ∧
        new'.getValue i = Except.ok val) :=
  C20_nodeAppendRange_copies_entries BNode.oneOfFour BNode.threeEntries 2 4 2 3
    [(5, Bytes.ofList [107], Bytes.ofList [118])]
    [(7, Bytes.ofList [97], Bytes.ofList [120, 121]), (9, Bytes.ofList [98, 99], Bytes.nil),
      (11, Bytes.ofList [100], Bytes.ofList [122])] 1 2
    (Holds_of_entries ⟨makeBytes 64⟩ (by decide!) (by decide) (by decide) (by decide)
      (by decide) (by decide))
    rfl
    (Holds_of_entries ⟨makeBytes 96⟩ (by decide!) (by decide) (by decide) (by decide)
      (by decide) (by decide))
    (by decide) (by decide) (by decide) (by decide)

/-- C21 (fails on the code). In `KV.fullFreePage` the chain is the single page
2000, full with the 509 pointers 1000, ..., 1508, and `Total()` is 509, the sum of
the sizes.  On `Update(0, [1600])` the loop of `Update` visits the head page with
two freed pointers at hand (1600 and the page 2000 itself): it harvests the two
pointers 1508 and 1507 for reuse (1 * 509 < 2 + 508) and frees the other 507, so
it ends with the head 0, 509 freed pointers and `reuse = [1508, 1507]`.  `flPush`
builds the single page that the 509 freed pointers fill, at page 1508, and is
left with `reuse = [1507]`: its `assert(len(reuse) == 0)` fails, and so does
`Update`. -/
theorem C21_full_head_page_trips_the_assert_of_flPush :
    (do
      let db := KV.fullFreePage
      let fl := db.free
      let chain := isChain (fl.get db) fl.head [(2000, List.range' 1000 509)]
      let total ← fl.Total db
      let st ← FreeList.Update.loop fl db 8 ⟨fl.head, 0, [1600], [], total⟩
      let pushed ← flPush.loop fl (st.freed.length + 1) st.head db st.freed st.reuse
      pure ((chain, total), [st.head, st.freed.length, pushed.1], [st.reuse, pushed.2.2],
        [(flPush { fl with head := st.head } db st.freed st.reuse).map (fun r => r.1.head),
          (fl.Update db 8 0 [1600]).map (fun r => r.1.head)]) : Res _)
      = Except.ok ((true, 509), [0, 509, 1508], [[1508, 1507], [1507]],
        [Except.error Fail.panic, Except.error Fail.panic]) := by
  set_option maxRecDepth 100000 in decide!

/-- C22 (fails on the code before the first `Insert`). On a store opened on a
file that holds a master page, after the empty sequence of calls the reference
map binds nothing, so `Get("cat")` should be absent; the tree still has root 0
and `Get("cat")` panics: it walks page 0, the master page, as a node.  The same
on a fresh store after the single call `Delete("cat")`, which returns false as
the reference map says and leaves the root 0.  After `Insert("cat", "x")` and
`Delete("cat")` the root is an empty leaf and `Get("cat")` is absent, as
`BTree.single_leaf_refines_map` shows of every sequence with an `Insert`. -/
theorem C22_Get_before_the_first_Insert_panics :
    (do
      let r ← (KV.reopened.tree 8).calls 8 [] 0 KV.reopened
      pure (r.1, r.2.1,
        BTree.Get { KV.reopened.tree 8 with root := r.2.1 } r.2.2 8 (Bytes.ofList [99, 97, 116])))
      = Except.ok ([], 0, Except.error Fail.panic) ∧
    (RefMap.calls [] []).2.find (Bytes.ofList [99, 97, 116]) = none ∧
    (do
      let r ← (KV.fresh.tree 8).calls 8 [TreeOp.delete (Bytes.ofList [99, 97, 116])] 0 KV.fresh
      pure (r.1, r.2.1,
        BTree.Get { KV.fresh.tree 8 with root := r.2.1 } r.2.2 8 (Bytes.ofList [99, 97, 116])))
      = Except.ok ([false], 0, Except.error Fail.panic) ∧
    RefMap.calls [TreeOp.delete (Bytes.ofList [99, 97, 116])] [] = ([false], []) ∧
    (do
      let r ← (KV.fresh.tree 8).calls 8
        [TreeOp.insert (Bytes.ofList [99, 97, 116]) (Bytes.ofList [120]),
          TreeOp.delete (Bytes.ofList [99, 97, 116])] 0 KV.fresh
      pure (r.1, r.2.1,
        BTree.Get { KV.fresh.tree 8 with root := r.2.1 } r.2.2 8 (Bytes.ofList [99, 97, 116])))
      = Except.ok ([true], 2, Except.ok (none, false)) := by
  refine ⟨?_, ?_, ?_, ?_, ?_⟩ <;> decide!

end PandoraDB
